import Mathlib

/-!
# TR-31 key block crypto layer (`src/src/tr31_crypto.c`)

A shallow embedding of the triple-DES helper layer of the TR-31 library:
the ECB/CBC wrappers around the OpenSSL EVP interface, CBC-MAC, CMAC with
its subkey derivation, and the two key block protection key derivations
(variant method and CMAC-based derivation).

Buffers are lists of natural numbers, one element per `uint8_t`.  A C
pointer into a buffer is the list of bytes from that position on, so
`p + n` is `p.drop n`.  A function that writes through a pointer takes
the old contents of the target and returns the new contents.  Pointers
that the source checks against `NULL` are `Option`s.

The OpenSSL library is not part of the program: it is a parameter
(`OpenSSL`), made of the raw triple-DES block permutations and of the
success status of every EVP call.

Lengths and loop counters are natural numbers.  The `size_t` counters of
the source only count up to the length of a buffer that exists in memory,
so they do not wrap.  Stores of `uint8_t` values are reduced modulo 256
where the stored expression can exceed a byte (the left shift); the
exclusive or of two bytes is a byte already.
-/

namespace TR31

/-- A byte buffer; every element stands for one `uint8_t`. -/
abbrev Bytes := List Nat

/-- Modelled from the spec: `TDES2_KEY_SIZE` of the header `tr31_crypto.h`,
which is not among the sources; a double length TDES key has 16 bytes. -/
def TDES2_KEY_SIZE : Nat := 16

/-- Modelled from the spec: `TDES3_KEY_SIZE` of the header `tr31_crypto.h`,
which is not among the sources; a triple length TDES key has 24 bytes. -/
def TDES3_KEY_SIZE : Nat := 24

/-- Modelled from the spec: `DES_BLOCK_SIZE` of the header `tr31_crypto.h`,
which is not among the sources; the TDES cipher block has 8 bytes. -/
def DES_BLOCK_SIZE : Nat := 8

/-- Modelled from the spec: `DES_MAC_SIZE` of the header `tr31_crypto.h`,
which is not among the sources; the CBC-MAC is truncated to 4 bytes. -/
def DES_MAC_SIZE : Nat := 4

def TR31_KBEK_VARIANT_XOR : Nat := 0x45
def TR31_KBAK_VARIANT_XOR : Nat := 0x4D

def tr31_subkey_r64 : Bytes := [0x00, 0x00, 0x00, 0x00, 0x00, 0x00, 0x00, 0x1B]
def tr31_derive_kbek_tdes2_input : Bytes :=
  [0x01, 0x00, 0x00, 0x00, 0x00, 0x00, 0x00, 0x80, 0x02, 0x00, 0x00, 0x00, 0x00, 0x00, 0x00, 0x80]
def tr31_derive_kbek_tdes3_input : Bytes :=
  [0x01, 0x00, 0x00, 0x00, 0x00, 0x01, 0x00, 0xC0, 0x02, 0x00, 0x00, 0x00, 0x00, 0x01, 0x00, 0xC0,
   0x03, 0x00, 0x00, 0x00, 0x00, 0x01, 0x00, 0xC0]
def tr31_derive_kbak_tdes2_input : Bytes :=
  [0x01, 0x00, 0x01, 0x00, 0x00, 0x00, 0x00, 0x80, 0x02, 0x00, 0x01, 0x00, 0x00, 0x00, 0x00, 0x80]
def tr31_derive_kbak_tdes3_input : Bytes :=
  [0x01, 0x00, 0x01, 0x00, 0x00, 0x01, 0x00, 0xC0, 0x02, 0x00, 0x01, 0x00, 0x00, 0x01, 0x00, 0xC0,
   0x03, 0x00, 0x01, 0x00, 0x00, 0x01, 0x00, 0xC0]

/-! ## Memory helpers -/

/-- The bytes of `buf` after `data` has been stored at offset `off`
(`memcpy (buf + off, data, data.length)`). -/
def writeAt (buf : Bytes) (off : Nat) (data : Bytes) : Bytes :=
  buf.take off ++ data ++ buf.drop (off + data.length)

/-- Function `memset (_, 0, n)` on a fresh local array: `n` zero bytes. -/
def zeros (n : Nat) : Bytes := List.replicate n 0

/-- Bytewise exclusive or of two buffers, up to the shorter one. -/
def xorBytes (a b : Bytes) : Bytes := List.zipWith (fun x y => x ^^^ y) a b

/-- C library `memcmp (a, b, n)`: zero when the first `n` bytes agree, and
otherwise the difference of the first pair of bytes that differ (only its
sign is fixed by the C standard). -/
def memcmp : Bytes → Bytes → Nat → Int
  | a :: as, b :: bs, n + 1 => if a = b then memcmp as bs n else (a : Int) - (b : Int)
  | _, _, _ => 0

/-! ## The OpenSSL EVP interface -/

/-- The four EVP cipher descriptions the program asks for. -/
inductive EVP_CIPHER where
  | des_ede_ecb
  | des_ede3_ecb
  | des_ede_cbc
  | des_ede3_cbc
  deriving DecidableEq, Repr

/-- Does the cipher description chain its blocks (CBC) or not (ECB). -/
def EVP_CIPHER.isCbc : EVP_CIPHER → Bool
  | .des_ede_ecb => false
  | .des_ede3_ecb => false
  | .des_ede_cbc => true
  | .des_ede3_cbc => true

/-- Does the cipher description use three independent DES keys. -/
def EVP_CIPHER.isEde3 : EVP_CIPHER → Bool
  | .des_ede_ecb => false
  | .des_ede3_ecb => true
  | .des_ede_cbc => false
  | .des_ede3_cbc => true

/-- Number of key bytes the cipher reads through the key pointer. -/
def EVP_CIPHER.keyLength (c : EVP_CIPHER) : Nat :=
  if c.isEde3 then 24 else 16

/-- A cipher context.  `cipher` is `none` until an init call succeeded;
`pending` holds input bytes that did not fill a whole block yet. -/
structure EVP_CIPHER_CTX where
  cipher : Option EVP_CIPHER
  encrypt : Bool
  key : Bytes
  iv : Bytes
  padding : Bool
  pending : Bytes
  deriving DecidableEq, Repr

/-- The cipher library the program is linked with: the triple-DES block
permutations (two-key and three-key, forward and backward) on 8-byte
blocks, and whether each EVP call reports success. -/
structure OpenSSL where
  ede_enc : Bytes → Bytes → Bytes
  ede_dec : Bytes → Bytes → Bytes
  ede3_enc : Bytes → Bytes → Bytes
  ede3_dec : Bytes → Bytes → Bytes
  init_ok : Bool → EVP_CIPHER → Bytes → Option Bytes → Bool
  update_ok : EVP_CIPHER_CTX → Bytes → Bool
  final_ok : EVP_CIPHER_CTX → Bool

/-- The block permutation a context applies to one block. -/
def OpenSSL.blockFn (L : OpenSSL) (c : EVP_CIPHER) (enc : Bool) (key : Bytes) : Bytes → Bytes :=
  match c.isEde3, enc with
  | false, true => L.ede_enc key
  | false, false => L.ede_dec key
  | true, true => L.ede3_enc key
  | true, false => L.ede3_dec key

/-- Library `EVP_CIPHER_CTX_new`: a zero-filled context. -/
def EVP_CIPHER_CTX_new : EVP_CIPHER_CTX :=
  { cipher := none, encrypt := false, key := [], iv := zeros 8, padding := true, pending := [] }

/-- Common part of `EVP_EncryptInit_ex` and `EVP_DecryptInit_ex`: on
success the context holds the cipher, the key bytes the cipher reads, and
the IV when one is given (a null IV leaves the context's IV as it is). -/
def EVP_CipherInit_ex (L : OpenSSL) (ctx : EVP_CIPHER_CTX) (c : EVP_CIPHER) (key : Bytes)
    (iv : Option Bytes) (enc : Bool) : Bool × EVP_CIPHER_CTX :=
  if L.init_ok enc c key iv then
    (true, { cipher := some c, encrypt := enc, key := key.take c.keyLength,
             iv := match iv with
               | some v => if c.isCbc then v.take 8 else ctx.iv
               | none => ctx.iv,
             padding := true, pending := [] })
  else (false, ctx)

def EVP_EncryptInit_ex (L : OpenSSL) (ctx : EVP_CIPHER_CTX) (c : EVP_CIPHER) (key : Bytes)
    (iv : Option Bytes) : Bool × EVP_CIPHER_CTX :=
  EVP_CipherInit_ex L ctx c key iv true

def EVP_DecryptInit_ex (L : OpenSSL) (ctx : EVP_CIPHER_CTX) (c : EVP_CIPHER) (key : Bytes)
    (iv : Option Bytes) : Bool × EVP_CIPHER_CTX :=
  EVP_CipherInit_ex L ctx c key iv false

def EVP_CIPHER_CTX_set_padding (ctx : EVP_CIPHER_CTX) (pad : Bool) : EVP_CIPHER_CTX :=
  { ctx with padding := pad }

/-- ECB over `n` whole blocks of `data`. -/
def ecbBlocks (f : Bytes → Bytes) : Nat → Bytes → Bytes
  | 0, _ => []
  | n + 1, data => f (data.take 8) ++ ecbBlocks f n (data.drop 8)

/-- CBC encryption of `n` whole blocks of `data`; returns the output and
the chaining value after the last block. -/
def cbcEncBlocks (f : Bytes → Bytes) : Nat → Bytes → Bytes → Bytes × Bytes
  | 0, iv, _ => ([], iv)
  | n + 1, iv, data =>
    let c := f (xorBytes (data.take 8) iv)
    let rest := cbcEncBlocks f n c (data.drop 8)
    (c ++ rest.1, rest.2)

/-- CBC decryption of `n` whole blocks of `data`; returns the output and
the chaining value after the last block. -/
def cbcDecBlocks (f : Bytes → Bytes) : Nat → Bytes → Bytes → Bytes × Bytes
  | 0, iv, _ => ([], iv)
  | n + 1, iv, data =>
    let c := data.take 8
    let rest := cbcDecBlocks f n c (data.drop 8)
    (xorBytes (f c) iv ++ rest.1, rest.2)

/-- Common part of `EVP_EncryptUpdate` and `EVP_DecryptUpdate` on the
first `inl` bytes behind `input`: status, bytes written to the output,
new context.  Whole blocks are processed, a trailing part of a block is
kept in the context.  Nothing is written when the call fails. -/
def EVP_CipherUpdate (L : OpenSSL) (ctx : EVP_CIPHER_CTX) (input : Bytes) (inl : Nat) :
    Bool × Bytes × EVP_CIPHER_CTX :=
  let data := input.take inl
  match ctx.cipher with
  | none => (false, [], ctx)
  | some c =>
    if L.update_ok ctx data then
      let n := data.length / 8
      let f := L.blockFn c ctx.encrypt ctx.key
      let res : Bytes × Bytes :=
        if c.isCbc then
          if ctx.encrypt then cbcEncBlocks f n ctx.iv data else cbcDecBlocks f n ctx.iv data
        else (ecbBlocks f n data, ctx.iv)
      (true, res.1, { ctx with iv := res.2, pending := data.drop (8 * n) })
    else (false, [], ctx)

def EVP_EncryptUpdate (L : OpenSSL) (ctx : EVP_CIPHER_CTX) (input : Bytes) (inl : Nat) :
    Bool × Bytes × EVP_CIPHER_CTX :=
  EVP_CipherUpdate L ctx input inl

def EVP_DecryptUpdate (L : OpenSSL) (ctx : EVP_CIPHER_CTX) (input : Bytes) (inl : Nat) :
    Bool × Bytes × EVP_CIPHER_CTX :=
  EVP_CipherUpdate L ctx input inl

/-- Common part of `EVP_EncryptFinal_ex` and `EVP_DecryptFinal_ex` with
padding disabled, the only way the program uses them: the call writes
nothing, and fails when a part of a block is left over. -/
def EVP_CipherFinal_ex (L : OpenSSL) (ctx : EVP_CIPHER_CTX) : Bool × Bytes :=
  (L.final_ok ctx && (ctx.padding || ctx.pending.isEmpty), [])

def EVP_EncryptFinal_ex (L : OpenSSL) (ctx : EVP_CIPHER_CTX) : Bool × Bytes :=
  EVP_CipherFinal_ex L ctx

def EVP_DecryptFinal_ex (L : OpenSSL) (ctx : EVP_CIPHER_CTX) : Bool × Bytes :=
  EVP_CipherFinal_ex L ctx

/-! ## The triple-DES wrappers -/

/-- Source `tr31_tdes_encrypt_ecb`: return code and the new contents of
the `ciphertext` buffer. -/
def tr31_tdes_encrypt_ecb (L : OpenSSL) (key : Bytes) (key_len : Nat)
    (plaintext ciphertext : Bytes) : Int × Bytes :=
  let ctx := EVP_CIPHER_CTX_new
  let sw : Except Int EVP_CIPHER_CTX :=
    if key_len = TDES2_KEY_SIZE then
      let r := EVP_EncryptInit_ex L ctx .des_ede_ecb key none
      if r.1 = false then .error (-1) else .ok r.2
    else if key_len = TDES3_KEY_SIZE then
      let r := EVP_EncryptInit_ex L ctx .des_ede3_ecb key none
      if r.1 = false then .error (-2) else .ok r.2
    else .error (-3)
  match sw with
  | .error r => (r, ciphertext)
  | .ok ctx =>
    let ctx := EVP_CIPHER_CTX_set_padding ctx false
    let u := EVP_EncryptUpdate L ctx plaintext DES_BLOCK_SIZE
    let ciphertext := writeAt ciphertext 0 u.2.1
    let clen := u.2.1.length
    if u.1 = false then (-4, ciphertext)
    else
      let f := EVP_EncryptFinal_ex L u.2.2
      let ciphertext := writeAt ciphertext clen f.2
      if f.1 = false then (-5, ciphertext) else (0, ciphertext)

/-- Source `tr31_tdes_decrypt_ecb`: return code and the new contents of
the `plaintext` buffer. -/
def tr31_tdes_decrypt_ecb (L : OpenSSL) (key : Bytes) (key_len : Nat)
    (ciphertext plaintext : Bytes) : Int × Bytes :=
  let ctx := EVP_CIPHER_CTX_new
  let sw : Except Int EVP_CIPHER_CTX :=
    if key_len = TDES2_KEY_SIZE then
      let r := EVP_DecryptInit_ex L ctx .des_ede_ecb key none
      if r.1 = false then .error (-1) else .ok r.2
    else if key_len = TDES3_KEY_SIZE then
      let r := EVP_DecryptInit_ex L ctx .des_ede3_cbc key none
      if r.1 = false then .error (-2) else .ok r.2
    else .error (-3)
  match sw with
  | .error r => (r, plaintext)
  | .ok ctx =>
    let ctx := EVP_CIPHER_CTX_set_padding ctx false
    let u := EVP_DecryptUpdate L ctx ciphertext DES_BLOCK_SIZE
    let plaintext := writeAt plaintext 0 u.2.1
    let plen := u.2.1.length
    if u.1 = false then (-4, plaintext)
    else
      let f := EVP_DecryptFinal_ex L u.2.2
      let plaintext := writeAt plaintext plen f.2
      if f.1 = false then (-5, plaintext) else (0, plaintext)

/-- Source `tr31_tdes_encrypt_cbc`: return code and the new contents of
the `ciphertext` buffer.  The IV is read by the init call, before anything
is written, so the output may be the buffer the IV came from. -/
def tr31_tdes_encrypt_cbc (L : OpenSSL) (key : Bytes) (key_len : Nat) (iv : Bytes)
    (plaintext : Bytes) (plen : Nat) (ciphertext : Bytes) : Int × Bytes :=
  if plen &&& (DES_BLOCK_SIZE - 1) ≠ 0 then (-1, ciphertext)
  else
    let ctx := EVP_CIPHER_CTX_new
    let sw : Except Int EVP_CIPHER_CTX :=
      if key_len = TDES2_KEY_SIZE then
        let r := EVP_EncryptInit_ex L ctx .des_ede_cbc key (some iv)
        if r.1 = false then .error (-2) else .ok r.2
      else if key_len = TDES3_KEY_SIZE then
        let r := EVP_EncryptInit_ex L ctx .des_ede3_cbc key (some iv)
        if r.1 = false then .error (-3) else .ok r.2
      else .error (-4)
    match sw with
    | .error r => (r, ciphertext)
    | .ok ctx =>
      let ctx := EVP_CIPHER_CTX_set_padding ctx false
      let u := EVP_EncryptUpdate L ctx plaintext plen
      let ciphertext := writeAt ciphertext 0 u.2.1
      let clen := u.2.1.length
      if u.1 = false then (-5, ciphertext)
      else
        let f := EVP_EncryptFinal_ex L u.2.2
        let ciphertext := writeAt ciphertext clen f.2
        if f.1 = false then (-6, ciphertext) else (0, ciphertext)

/-- Source `tr31_tdes_decrypt_cbc`: return code and the new contents of
the `plaintext` buffer. -/
def tr31_tdes_decrypt_cbc (L : OpenSSL) (key : Bytes) (key_len : Nat) (iv : Bytes)
    (ciphertext : Bytes) (clen : Nat) (plaintext : Bytes) : Int × Bytes :=
  if clen &&& (DES_BLOCK_SIZE - 1) ≠ 0 then (-1, plaintext)
  else
    let ctx := EVP_CIPHER_CTX_new
    let sw : Except Int EVP_CIPHER_CTX :=
      if key_len = TDES2_KEY_SIZE then
        let r := EVP_DecryptInit_ex L ctx .des_ede_cbc key (some iv)
        if r.1 = false then .error (-2) else .ok r.2
      else if key_len = TDES3_KEY_SIZE then
        let r := EVP_DecryptInit_ex L ctx .des_ede3_cbc key (some iv)
        if r.1 = false then .error (-3) else .ok r.2
      else .error (-4)
    match sw with
    | .error r => (r, plaintext)
    | .ok ctx =>
      let ctx := EVP_CIPHER_CTX_set_padding ctx false
      let u := EVP_DecryptUpdate L ctx ciphertext clen
      let plaintext := writeAt plaintext 0 u.2.1
      let plen := u.2.1.length
      if u.1 = false then (-5, plaintext)
      else
        let f := EVP_DecryptFinal_ex L u.2.2
        let plaintext := writeAt plaintext plen f.2
        if f.1 = false then (-6, plaintext) else (0, plaintext)

/-! ## CBC-MAC -/

/-- The `for` loop of `tr31_tdes_cbcmac`, with its state `i`, `ptr` and
`iv`; `fuel` bounds the number of rounds.  Returns the code of a failed
round, or 0, and the chaining buffer. -/
def cbcmac_loop (L : OpenSSL) (key : Bytes) (key_len len : Nat) :
    Nat → Nat → Bytes → Bytes → Int × Bytes
  | 0, _, _, iv => (0, iv)
  | fuel + 1, i, ptr, iv =>
    if i < len then
      let r := tr31_tdes_encrypt_cbc L key key_len iv ptr DES_BLOCK_SIZE iv
      if r.1 ≠ 0 then (r.1, r.2)
      else cbcmac_loop L key key_len len fuel (i + DES_BLOCK_SIZE) (ptr.drop DES_BLOCK_SIZE) r.2
    else (0, iv)

/-- Source `tr31_tdes_cbcmac`: return code and the new contents of `mac`.
The loop makes at most `len` rounds, so `len` is enough fuel. -/
def tr31_tdes_cbcmac (L : OpenSSL) (key : Bytes) (key_len : Nat) (buf : Bytes) (len : Nat)
    (mac : Bytes) : Int × Bytes :=
  let iv := zeros DES_BLOCK_SIZE
  let r := cbcmac_loop L key key_len len len 0 buf iv
  if r.1 ≠ 0 then (r.1, mac)
  else (0, writeAt mac 0 (r.2.take DES_MAC_SIZE))

/-- Source `tr31_tdes_verify_cbcmac`.  The local array `mac[DES_MAC_SIZE]`
is not initialised in the source: `mac` is what its 4 bytes hold when the
function is entered. -/
def tr31_tdes_verify_cbcmac (L : OpenSSL) (mac : Bytes) (key : Bytes) (key_len : Nat)
    (buf : Bytes) (len : Nat) (mac_verify : Bytes) : Int :=
  let r := tr31_tdes_cbcmac L key key_len buf len mac
  if r.1 ≠ 0 then r.1
  else memcmp r.2 mac_verify DES_MAC_SIZE

/-! ## CMAC -/

/-- The `while (len--)` loop of `tr31_lshift`: `len` counts the bytes left,
the pointer is at index `len - 1`, and `lsb` is the bit carried into it. -/
def tr31_lshift_loop : Bytes → Nat → Nat → Nat × Bytes
  | x, 0, lsb => (lsb, x)
  | x, n + 1, lsb =>
    let msb := x.getD n 0 &&& 0x80
    let b := ((x.getD n 0 <<< 1) % 256) ||| lsb
    tr31_lshift_loop (x.set n b) n (msb >>> 7)

/-- Source `tr31_lshift`: the carry bit and the shifted buffer. -/
def tr31_lshift (x : Bytes) (len : Nat) : Nat × Bytes :=
  tr31_lshift_loop x len 0x00

/-- Source `tr31_xor`: the new contents of `x`. -/
def tr31_xor : Bytes → Bytes → Nat → Bytes
  | x :: xs, y :: ys, n + 1 => (x ^^^ y) :: tr31_xor xs ys n
  | xs, _, _ => xs

/-- Source `tr31_tdes_derive_subkeys`: return code and the new contents
of `k1` and `k2`. -/
def tr31_tdes_derive_subkeys (L : OpenSSL) (key : Bytes) (key_len : Nat) (k1 k2 : Bytes) :
    Int × Bytes × Bytes :=
  let zero := zeros DES_BLOCK_SIZE
  let l_buf := zeros DES_BLOCK_SIZE
  let r := tr31_tdes_encrypt_ecb L key key_len zero l_buf
  if r.1 ≠ 0 then (r.1, k1, k2)
  else
    let l_buf := r.2
    let k1 := writeAt k1 0 (l_buf.take DES_BLOCK_SIZE)
    let s := tr31_lshift k1 DES_BLOCK_SIZE
    let k1 := if s.1 ≠ 0 then tr31_xor s.2 tr31_subkey_r64 tr31_subkey_r64.length else s.2
    let k2 := writeAt k2 0 (k1.take DES_BLOCK_SIZE)
    let s := tr31_lshift k2 DES_BLOCK_SIZE
    let k2 := if s.1 ≠ 0 then tr31_xor s.2 tr31_subkey_r64 tr31_subkey_r64.length else s.2
    (0, k1, k2)

/-- The `for` loop of `tr31_tdes_cmac` over all blocks but the last, with
its state `i`, `ptr` and `iv`; `fuel` bounds the number of rounds. -/
def cmac_loop (L : OpenSSL) (key : Bytes) (key_len len : Nat) :
    Nat → Nat → Bytes → Bytes → Int × Bytes × Bytes
  | 0, _, ptr, iv => (0, ptr, iv)
  | fuel + 1, i, ptr, iv =>
    if i < len - DES_BLOCK_SIZE then
      let r := tr31_tdes_encrypt_cbc L key key_len iv ptr DES_BLOCK_SIZE iv
      if r.1 ≠ 0 then (r.1, ptr, r.2)
      else cmac_loop L key key_len len fuel (i + DES_BLOCK_SIZE) (ptr.drop DES_BLOCK_SIZE) r.2
    else (0, ptr, iv)

/-- Source `tr31_tdes_cmac`: return code and the new contents of `cmac`.
The loop makes fewer than `len` rounds, so `len` is enough fuel. -/
def tr31_tdes_cmac (L : OpenSSL) (key : Option Bytes) (key_len : Nat) (buf : Option Bytes)
    (len : Nat) (cmac : Option Bytes) : Int × Option Bytes :=
  match key, buf, cmac with
  | some key, some buf, some cmac =>
    if key_len ≠ TDES2_KEY_SIZE ∧ key_len ≠ TDES3_KEY_SIZE then (-2, some cmac)
    else if len &&& (DES_BLOCK_SIZE - 1) ≠ 0 then (-3, some cmac)
    else
      let d := tr31_tdes_derive_subkeys L key key_len (zeros DES_BLOCK_SIZE) (zeros DES_BLOCK_SIZE)
      if d.1 ≠ 0 then (d.1, some cmac)
      else
        let k1 := d.2.1
        let iv := zeros DES_BLOCK_SIZE
        let lp : Int × Bytes × Bytes :=
          if len > DES_BLOCK_SIZE then cmac_loop L key key_len len len 0 buf iv
          else (0, buf, iv)
        if lp.1 ≠ 0 then (lp.1, some cmac)
        else
          let ptr := lp.2.1
          let iv := tr31_xor lp.2.2 k1 DES_BLOCK_SIZE
          let e := tr31_tdes_encrypt_cbc L key key_len iv ptr DES_BLOCK_SIZE cmac
          (0, some e.2)
  | _, _, cmac => (-1, cmac)

/-- Source `tr31_tdes_verify_cmac`.  The local array `cmac[DES_BLOCK_SIZE]`
is not initialised in the source: `cmac` is what its 8 bytes hold when the
function is entered. -/
def tr31_tdes_verify_cmac (L : OpenSSL) (cmac : Bytes) (key : Option Bytes) (key_len : Nat)
    (buf : Option Bytes) (len : Nat) (cmac_verify : Bytes) : Int :=
  let r := tr31_tdes_cmac L key key_len buf len (some cmac)
  if r.1 ≠ 0 then r.1
  else memcmp (r.2.getD []) cmac_verify DES_BLOCK_SIZE

/-! ## Key block protection key derivations -/

/-- The `for` loop of `tr31_tdes_kbpk_variant`, with its counter `i` and
the two output buffers; `fuel` bounds the number of rounds. -/
def kbpk_variant_loop (kbpk_buf : Bytes) (kbpk_len : Nat) :
    Nat → Nat → Bytes → Bytes → Bytes × Bytes
  | 0, _, kbek_buf, kbak_buf => (kbek_buf, kbak_buf)
  | fuel + 1, i, kbek_buf, kbak_buf =>
    if i < kbpk_len then
      kbpk_variant_loop kbpk_buf kbpk_len fuel (i + 1)
        (kbek_buf.set i (kbpk_buf.getD i 0 ^^^ TR31_KBEK_VARIANT_XOR))
        (kbak_buf.set i (kbpk_buf.getD i 0 ^^^ TR31_KBAK_VARIANT_XOR))
    else (kbek_buf, kbak_buf)

/-- Source `tr31_tdes_kbpk_variant`: return code and the new contents of
`kbek` and `kbak`.  The error code `TR31_ERROR_UNSUPPORTED_KBPK_LENGTH`
is declared in `tr31.h`, which is not among the sources, and is a
parameter. -/
def tr31_tdes_kbpk_variant (TR31_ERROR_UNSUPPORTED_KBPK_LENGTH : Int) (kbpk : Option Bytes)
    (kbpk_len : Nat) (kbek kbak : Option Bytes) : Int × Option Bytes × Option Bytes :=
  match kbpk, kbek, kbak with
  | some kbpk_buf, some kbek_buf, some kbak_buf =>
    if kbpk_len ≠ TDES2_KEY_SIZE ∧ kbpk_len ≠ TDES3_KEY_SIZE then
      (TR31_ERROR_UNSUPPORTED_KBPK_LENGTH, some kbek_buf, some kbak_buf)
    else
      let r := kbpk_variant_loop kbpk_buf kbpk_len kbpk_len 0 kbek_buf kbak_buf
      (0, some r.1, some r.2)
  | _, kbek, kbak => (-1, kbek, kbak)

/-- The two or three `tr31_tdes_encrypt_cbc` calls of
`tr31_tdes_kbpk_derive` that turn the derivation input `kbxk` into one
derived key, written to `out`, `out + 8` and, for a triple length key,
`out + 16`.  The source has this sequence twice, for `kbek` and `kbak`. -/
def kbpk_derive_key (L : OpenSSL) (kbpk : Bytes) (kbpk_len : Nat) (k1 kbxk out : Bytes) :
    Int × Bytes :=
  let e := tr31_tdes_encrypt_cbc L kbpk kbpk_len k1 kbxk 8 out
  if e.1 ≠ 0 then (e.1, e.2)
  else
    let out := e.2
    let e := tr31_tdes_encrypt_cbc L kbpk kbpk_len k1 (kbxk.drop 8) 8 (out.drop 8)
    let out := out.take 8 ++ e.2
    if e.1 ≠ 0 then (e.1, out)
    else if kbpk_len = TDES3_KEY_SIZE then
      let e := tr31_tdes_encrypt_cbc L kbpk kbpk_len k1 (kbxk.drop 16) 8 (out.drop 16)
      let out := out.take 16 ++ e.2
      if e.1 ≠ 0 then (e.1, out) else (0, out)
    else (0, out)

/-- Source `tr31_tdes_kbpk_derive`: return code and the new contents of
`kbek` and `kbak`.  The error code `TR31_ERROR_UNSUPPORTED_KBPK_LENGTH`
is declared in `tr31.h`, which is not among the sources, and is a
parameter. -/
def tr31_tdes_kbpk_derive (L : OpenSSL) (TR31_ERROR_UNSUPPORTED_KBPK_LENGTH : Int)
    (kbpk : Option Bytes) (kbpk_len : Nat) (kbek kbak : Option Bytes) :
    Int × Option Bytes × Option Bytes :=
  match kbpk, kbek, kbak with
  | some kbpk, some kbek, some kbak =>
    if kbpk_len ≠ TDES2_KEY_SIZE ∧ kbpk_len ≠ TDES3_KEY_SIZE then
      (TR31_ERROR_UNSUPPORTED_KBPK_LENGTH, some kbek, some kbak)
    else
      let d := tr31_tdes_derive_subkeys L kbpk kbpk_len (zeros DES_BLOCK_SIZE)
        (zeros DES_BLOCK_SIZE)
      if d.1 ≠ 0 then (d.1, some kbek, some kbak)
      else
        let k1 := d.2.1
        let kbxk := zeros kbpk_len
        let sw : Except Int Bytes :=
          if kbpk_len = TDES2_KEY_SIZE then .ok (writeAt kbxk 0 tr31_derive_kbek_tdes2_input)
          else if kbpk_len = TDES3_KEY_SIZE then .ok (writeAt kbxk 0 tr31_derive_kbek_tdes3_input)
          else .error (-2)
        match sw with
        | .error r => (r, some kbek, some kbak)
        | .ok kbxk =>
          let ek := kbpk_derive_key L kbpk kbpk_len k1 kbxk kbek
          if ek.1 ≠ 0 then (ek.1, some ek.2, some kbak)
          else
            let sw : Except Int Bytes :=
              if kbpk_len = TDES2_KEY_SIZE then .ok (writeAt kbxk 0 tr31_derive_kbak_tdes2_input)
              else if kbpk_len = TDES3_KEY_SIZE then
                .ok (writeAt kbxk 0 tr31_derive_kbak_tdes3_input)
              else .error (-3)
            match sw with
            | .error r => (r, some ek.2, some kbak)
            | .ok kbxk =>
              let ak := kbpk_derive_key L kbpk kbpk_len k1 kbxk kbak
              if ak.1 ≠ 0 then (ak.1, some ek.2, some ak.2)
              else (0, some ek.2, some ak.2)
  | _, kbek, kbak => (-1, kbek, kbak)

/-! ## Reference notions the statements are written with -/

/-- The block cipher `E_K` of a key of `key_len` bytes: two-key triple DES
for 16 bytes, three-key triple DES otherwise. -/
def OpenSSL.E (L : OpenSSL) (key : Bytes) (key_len : Nat) : Bytes → Bytes :=
  if key_len = 16 then L.ede_enc (key.take 16) else L.ede3_enc (key.take 24)

/-- Every EVP call of the library reports success. -/
def OpenSSL.Succeeds (L : OpenSSL) : Prop :=
  (∀ enc c key iv, L.init_ok enc c key iv = true) ∧
  (∀ ctx data, L.update_ok ctx data = true) ∧
  (∀ ctx, L.final_ok ctx = true)

/-- A well-formed 8-byte block: eight values below 256. -/
def IsBlock (b : Bytes) : Prop := b.length = 8 ∧ ∀ x ∈ b, x < 256

instance (b : Bytes) : Decidable (IsBlock b) := by
  unfold IsBlock; infer_instance

/-- The forward block permutations of the library return 8-byte blocks. -/
def OpenSSL.BlockValued (L : OpenSSL) : Prop :=
  ∀ key b, IsBlock (L.ede_enc key b) ∧ IsBlock (L.ede3_enc key b)

/-- Value of a byte string read as an unsigned big-endian integer. -/
def beVal (b : Bytes) : Nat := b.foldl (fun v x => v * 256 + x) 0

/-- The `n` low-order bytes of `v`, most significant byte first. -/
def beBytes : Nat → Nat → Bytes
  | 0, _ => []
  | n + 1, v => beBytes n (v / 256) ++ [v % 256]

/-- Doubling in GF(2^64) with reduction constant 0x1B, on 8-byte
big-endian blocks: shift the 64-bit value left by one bit and, when the
bit shifted out is 1, exclusive-or 0x1B into the last byte. -/
def gf64Double (b : Bytes) : Bytes :=
  let v := beVal b
  if 2 ^ 63 ≤ v then beBytes 8 (((2 * v) % 2 ^ 64) ^^^ 0x1B) else beBytes 8 ((2 * v) % 2 ^ 64)

/-- The first CMAC subkey `K1` of a key: `L = E_K (0)` doubled once. -/
def cmacK1 (L : OpenSSL) (key : Bytes) (key_len : Nat) : Bytes :=
  gf64Double (L.E key key_len (zeros 8))

/-- The second CMAC subkey `K2` of a key: `K1` doubled once more. -/
def cmacK2 (L : OpenSSL) (key : Bytes) (key_len : Nat) : Bytes :=
  gf64Double (cmacK1 L key key_len)

/-- The `j`-th 8-byte block `M_j` of a message, counted from 1. -/
def blockAt (msg : Bytes) (j : Nat) : Bytes := (msg.drop (8 * (j - 1))).take 8

/-- The CBC chain of a message under a block cipher `E`: `C_0` is the zero
block and `C_j = E (C_{j-1} XOR M_j)`. -/
def cbcChain (E : Bytes → Bytes) (msg : Bytes) : Nat → Bytes
  | 0 => zeros 8
  | j + 1 => E (xorBytes (cbcChain E msg j) (blockAt msg (j + 1)))

/-- The tag `tr31_tdes_cmac` leaves in a fresh 8-byte buffer for the
message `msg`. -/
def cmacTag (L : OpenSSL) (key : Bytes) (key_len : Nat) (msg : Bytes) : Bytes :=
  (tr31_tdes_cmac L (some key) key_len (some msg) msg.length (some (zeros 8))).2.getD []

/-- The derivation-input constant of the key block encryption key for a
KBPK of `kbpk_len` bytes. -/
def kbekInput (kbpk_len : Nat) : Bytes :=
  if kbpk_len = 16 then tr31_derive_kbek_tdes2_input else tr31_derive_kbek_tdes3_input

/-- The derivation-input constant of the key block authentication key
for a KBPK of `kbpk_len` bytes. -/
def kbakInput (kbpk_len : Nat) : Bytes :=
  if kbpk_len = 16 then tr31_derive_kbak_tdes2_input else tr31_derive_kbak_tdes3_input

/-- The derived key of the spec: the concatenation, for `i = 1..n` with
`n = key_len / 8`, of the CMAC of the `i`-th 8-byte block of the
derivation input. -/
def cmacDerive (L : OpenSSL) (key : Bytes) (key_len : Nat) (input : Bytes) : Bytes :=
  ((List.range (key_len / 8)).map
    (fun i => cmacTag L key key_len (blockAt input (i + 1)))).flatten

/-- The derived key as the source computes it: every 8-byte block of the
derivation input, masked with `K1`, goes through the block cipher. -/
def cbcDerive (L : OpenSSL) (key : Bytes) (key_len : Nat) (input : Bytes) : Bytes :=
  L.E key key_len (xorBytes (blockAt input 1) (cmacK1 L key key_len))
    ++ (L.E key key_len (xorBytes (blockAt input 2) (cmacK1 L key key_len))
    ++ (if key_len = 24 then L.E key key_len (xorBytes (blockAt input 3) (cmacK1 L key key_len))
        else []))

/-- One 8-byte block of derivation input as the spec lays it out: counter
byte, 2-byte purpose, a zero separator byte, 2-byte algorithm, and the
2-byte big-endian bit length of the derived key. -/
def derivationBlock (counter purpose algorithm bits : Nat) : Bytes :=
  [counter] ++ beBytes 2 purpose ++ [0] ++ beBytes 2 algorithm ++ beBytes 2 bits

/-- Every library call a wrapper makes succeeds: the init call for cipher
`c` on a new context, the update call on `len` bytes of `data` after
padding was switched off, and the final call. -/
def evpCallsSucceed (L : OpenSSL) (enc : Bool) (c : EVP_CIPHER) (key : Bytes)
    (iv : Option Bytes) (data : Bytes) (len : Nat) : Prop :=
  (EVP_CipherInit_ex L EVP_CIPHER_CTX_new c key iv enc).1 = true
  ∧ (EVP_CipherUpdate L (EVP_CIPHER_CTX_set_padding
      (EVP_CipherInit_ex L EVP_CIPHER_CTX_new c key iv enc).2 false) data len).1 = true
  ∧ (EVP_CipherFinal_ex L (EVP_CipherUpdate L (EVP_CIPHER_CTX_set_padding
      (EVP_CipherInit_ex L EVP_CIPHER_CTX_new c key iv enc).2 false) data len).2.2).1 = true

instance (L : OpenSSL) (enc : Bool) (c : EVP_CIPHER) (key : Bytes) (iv : Option Bytes)
    (data : Bytes) (len : Nat) : Decidable (evpCallsSucceed L enc c key iv data len) := by
  unfold evpCallsSucceed; infer_instance

/-- A small deterministic stand-in for the cipher library, for evaluating
the program on concrete inputs: byte `i` of a block is shifted by byte `i`
of the key plus one, modulo 256, and every call succeeds. -/
def mockSSL : OpenSSL where
  ede_enc := fun key b => (List.range 8).map (fun i => (b.getD i 0 + key.getD i 0 + 1) % 256)
  ede_dec := fun key b =>
    (List.range 8).map (fun i => (b.getD i 0 + (256 - (key.getD i 0 + 1) % 256)) % 256)
  ede3_enc := fun key b =>
    (List.range 8).map (fun i => (b.getD i 0 + key.getD i 0 + key.getD (i + 16) 0 + 1) % 256)
  ede3_dec := fun key b =>
    (List.range 8).map
      (fun i => (b.getD i 0 + (256 - (key.getD i 0 + key.getD (i + 16) 0 + 1) % 256)) % 256)
  init_ok := fun _ _ _ _ => true
  update_ok := fun _ _ => true
  final_ok := fun _ => true

/-- A cipher library like `mockSSL` that offers no CBC cipher: the init
call fails for `des_ede_cbc` and `des_ede3_cbc` and succeeds for the two
ECB ciphers. -/
def ecbOnlySSL : OpenSSL :=
  { mockSSL with init_ok := fun _ c _ _ => !c.isCbc }

/-- The backward block permutations of the library undo the forward ones
on 8-byte blocks, for every key. -/
def OpenSSL.Inverts (L : OpenSSL) : Prop :=
  ∀ key b, IsBlock b →
    L.ede_dec key (L.ede_enc key b) = b ∧ L.ede3_dec key (L.ede3_enc key b) = b

/-- The `n` consecutive 8-byte blocks of a buffer at the offsets
`0, 8, ..., 8 * (n - 1)`. -/
def blocksAt (buf : Bytes) (n : Nat) : List Bytes :=
  (List.range n).map (fun j => (buf.drop (8 * j)).take 8)

/-- CBC rounds over an explicit list of blocks: every block goes through
one `tr31_tdes_encrypt_cbc` call with the chaining buffer as IV and as
output, and the first failing call ends the run with its code. -/
def cbcRounds (L : OpenSSL) (key : Bytes) (key_len : Nat) : List Bytes → Bytes → Int × Bytes
  | [], iv => (0, iv)
  | b :: bs, iv =>
    let r := tr31_tdes_encrypt_cbc L key key_len iv b DES_BLOCK_SIZE iv
    if r.1 ≠ 0 then (r.1, r.2) else cbcRounds L key key_len bs r.2

/-- The forward block permutations of the library are injective on 8-byte
blocks, for every key. -/
def OpenSSL.InjectiveOnBlocks (L : OpenSSL) : Prop :=
  ∀ key b c, IsBlock b → IsBlock c →
    (L.ede_enc key b = L.ede_enc key c → b = c) ∧ (L.ede3_enc key b = L.ede3_enc key c → b = c)

/-! ## Types and constants of `tr31.h` -/

/-- Modelled from the spec: the key version field of a key (`tr31.h` is
not among the sources): unused, a version number `0..99`, or a component
number `1..9`. -/
inductive tr31_key_version_t where
  | TR31_KEY_VERSION_IS_UNUSED
  | TR31_KEY_VERSION_IS_VALID (key_version_value : Nat)
  | TR31_KEY_VERSION_IS_COMPONENT (key_component_number : Nat)
  deriving DecidableEq, Repr

/-- Modelled from the spec: `struct tr31_key_t` of `tr31.h` (not among the
sources), a key with its attributes.  Characters are ASCII codes; `usage`
holds two of them.  The clear key bytes are `data`, absent when only the
attributes are known, and the key length is the length of `data`. -/
structure tr31_key_t where
  usage : Bytes
  algorithm : Nat
  mode_of_use : Nat
  key_version : tr31_key_version_t
  exportability : Nat
  data : Option Bytes
  deriving DecidableEq, Repr

/-- Modelled from the spec: `struct tr31_opt_ctx_t` of `tr31.h` (not among
the sources), an optional block: a two-character ID and its payload
bytes. -/
structure tr31_opt_ctx_t where
  id : Bytes
  data : Bytes
  deriving DecidableEq, Repr

/-- Modelled from the spec: `struct tr31_ctx_t` of `tr31.h` (not among the
sources), a key block: version character, total length of the text, the
wrapped key and the optional blocks in order. -/
structure tr31_ctx_t where
  version : Nat
  length : Nat
  key : tr31_key_t
  opt_blocks : List tr31_opt_ctx_t
  deriving DecidableEq, Repr

/-- The ASCII codes of a string. -/
def ascii (s : String) : Bytes := s.toList.map Char.toNat

/-- Modelled from the spec: version characters `A`, `B`, `C`, `D` of
`tr31.h` (not among the sources). -/
def TR31_VERSION_A : Nat := 65

/-- Modelled from the spec: version character `B`. -/
def TR31_VERSION_B : Nat := 66

/-- Modelled from the spec: version character `C`. -/
def TR31_VERSION_C : Nat := 67

/-- Modelled from the spec: version character `D`. -/
def TR31_VERSION_D : Nat := 68

/-- Modelled from the spec: key usage `K0`, a key block protection key. -/
def TR31_KEY_USAGE_TR31_KBPK : Bytes := [75, 48]

/-- Modelled from the spec: algorithm character `T`, TDES. -/
def TR31_KEY_ALGORITHM_TDES : Nat := 84

/-- Modelled from the spec: algorithm character `A`, AES. -/
def TR31_KEY_ALGORITHM_AES : Nat := 65

/-- Modelled from the spec: mode of use character `B`, encrypt and decrypt. -/
def TR31_KEY_MODE_OF_USE_ENC_DEC : Nat := 66

/-! ## The command-line tool (`src/src/tr31-tool.c`) -/

/-- What the call of `argp_parse` does: either the process ends inside it
(`argp_error` and the `-v` option call `exit`), or it returns its code
after the option callbacks have set the global parameters `key_block`,
`kbpk_buf_len` and `kbpk_buf`. -/
inductive ArgpOutcome where
  | exited (status : Int)
  | returned (r : Int) (key_block : Bytes) (kbpk_buf_len : Nat) (kbpk_buf : Bytes)

/-- The diagnostics `main` writes to `stderr`. -/
inductive ToolDiag where
  | parse_failed
  | unsupported_version
  | import_error (r : Int)
  deriving DecidableEq, Repr

/-- Source `main` of the tool: the exit status of the process and what was
written to `stderr`.  The library function `tr31_import` is not among the
sources and is a parameter that gives its return code.  After the import
the function prints the key block details to `stdout`, releases the
context, and reaches the closing brace of `main` without a `return`, which
for `main` is exit status 0. -/
def main (argc : Nat) (argp : ArgpOutcome)
    (tr31_import : Bytes → Option tr31_key_t → Int) : Int × List ToolDiag :=
  if argc = 1 then (1, [])
  else
    match argp with
    | .exited status => (status, [])
    | .returned r key_block kbpk_buf_len kbpk_buf =>
      if r ≠ 0 then (1, [.parse_failed])
      else
        let v := key_block.getD 0 0
        let algorithm : Option Nat :=
          if v = TR31_VERSION_A ∨ v = TR31_VERSION_B ∨ v = TR31_VERSION_C then
            some TR31_KEY_ALGORITHM_TDES
          else if v = TR31_VERSION_D then some TR31_KEY_ALGORITHM_AES
          else none
        match algorithm with
        | none => (1, [.unsupported_version])
        | some a =>
          let kbpk : tr31_key_t :=
            { usage := TR31_KEY_USAGE_TR31_KBPK, algorithm := a,
              mode_of_use := TR31_KEY_MODE_OF_USE_ENC_DEC,
              key_version := .TR31_KEY_VERSION_IS_UNUSED, exportability := 0,
              data := some (kbpk_buf.take kbpk_buf_len) }
          let r :=
            if kbpk_buf_len ≠ 0 then tr31_import key_block (some kbpk)
            else tr31_import key_block none
          let diag := if r ≠ 0 then [ToolDiag.import_error r] else []
          (0, diag)

/-! ## Key block export, modelled from the specification

The file `tr31.c` with `tr31_export` is not among the sources; only its
test `src/test/tr31_export_test.c` is.  The definitions of this section
follow sections 3, 4.3, 4.4 and 4.5 of the specification.  What the
specification leaves open is a field of `ExportEnv`. -/

/-- Modelled from the spec: the error kinds of section 4.6 (`tr31.h` is not
among the sources). -/
inductive tr31_error_t where
  | UNSUPPORTED_VERSION
  | INVALID_LENGTH
  | INVALID_CHARACTER
  | UNSUPPORTED_KEY_USAGE
  | UNSUPPORTED_ALGORITHM
  | UNSUPPORTED_MODE_OF_USE
  | INVALID_KEY_VERSION
  | UNSUPPORTED_EXPORTABILITY
  | INVALID_OPTIONAL_BLOCK
  | UNSUPPORTED_KBPK_LENGTH
  | UNSUPPORTED_KBPK_ALGORITHM
  | MAC_VERIFICATION_FAILED
  | DECRYPTION_FAILED
  | INVALID_KEY_LENGTH
  | INTERNAL
  deriving DecidableEq, Repr

deriving instance DecidableEq for Except

/-- Modelled from the spec: what `tr31_export` takes from its surroundings
and what the specification leaves open: the TDES cipher library, the
recognised key usage and mode of use codes (the lists of section 3 are
open-ended), the source of random pad bytes, the number of hex digits of
an extended optional block length, the AES side of version D (key
derivation, CMAC and CBC encryption of a payload, giving ciphertext and
MAC), and the error code `TR31_ERROR_UNSUPPORTED_KBPK_LENGTH`. -/
structure ExportEnv where
  L : OpenSSL
  usage_known : Bytes → Bool
  mode_known : Nat → Bool
  rnd : Nat → Nat
  ext_len_digits : Nat
  aes_wrap : Bytes → Bytes → Bytes → Option (Bytes × Bytes)
  TR31_ERROR_UNSUPPORTED_KBPK_LENGTH : Int

/-- Modelled from the spec: an uppercase hexadecimal digit as an ASCII
code. -/
def hexDigitU (d : Nat) : Nat := if d < 10 then 48 + d else 55 + d

/-- Modelled from the spec: the `width` low-order hexadecimal digits of `n`,
uppercase, most significant first. -/
def hexDigits : Nat → Nat → Bytes
  | 0, _ => []
  | w + 1, n => hexDigits w (n / 16) ++ [hexDigitU (n % 16)]

/-- Modelled from the spec: the `width` low-order decimal digits of `n`,
zero-padded, most significant first. -/
def decDigits : Nat → Nat → Bytes
  | 0, _ => []
  | w + 1, n => decDigits w (n / 10) ++ [48 + n % 10]

/-- Modelled from the spec: `uppercase_hex` of a byte string, two digits
for every byte. -/
def toHexU (bs : Bytes) : Bytes := (bs.map (hexDigits 2)).flatten

/-- Modelled from the spec: the cipher block size of a version, 8 bytes for
TDES (versions A, B, C) and 16 bytes for AES (version D). -/
def blockSizeOf (version : Nat) : Nat := if version = TR31_VERSION_D then 16 else 8

/-- Modelled from the spec: the authenticator length in bytes, 4 for
versions A and C, 8 for B, 16 for D. -/
def macLenOf (version : Nat) : Nat :=
  if version = TR31_VERSION_B then 8 else if version = TR31_VERSION_D then 16 else 4

/-- Modelled from the spec: the pad length `(-(2 + keyLen)) mod blockSize`
of the payload. -/
def padLen (blockSize keyLen : Nat) : Nat := (blockSize - (2 + keyLen) % blockSize) % blockSize

/-- Modelled from the spec: the KBPK length a version requires, 16 or 24
bytes for A, B, C and 16, 24 or 32 bytes for D. -/
def kbpkLengthOk (version len : Nat) : Bool :=
  if version = TR31_VERSION_D then len = 16 ∨ len = 24 ∨ len = 32 else len = 16 ∨ len = 24

/-- Modelled from the spec: the algorithm codes `T A D H R S E`. -/
def algorithmKnown (c : Nat) : Bool := c ∈ ascii ("TADHRSE")

/-- Modelled from the spec: the exportability codes `E N S`. -/
def exportabilityKnown (c : Nat) : Bool := c ∈ ascii ("ENS")

/-- Modelled from the spec: the two characters of the key version field:
`00` when unused, two decimal digits for a version number up to 99, the
letter `c` and a digit for a component number from 1 to 9. -/
def keyVersionField : tr31_key_version_t → Option Bytes
  | .TR31_KEY_VERSION_IS_UNUSED => some (ascii ("00"))
  | .TR31_KEY_VERSION_IS_VALID u => if u ≤ 99 then some (decDigits 2 u) else none
  | .TR31_KEY_VERSION_IS_COMPONENT c => if 1 ≤ c ∧ c ≤ 9 then some [99, 48 + c] else none

/-- Modelled from the spec: the short form of an optional block on the
wire, `ID(2) | length(2, hex, uppercase) | payload`, the payload being the
data in uppercase hex and the length counting the whole block. -/
def optBlockShort (b : tr31_opt_ctx_t) : Bytes :=
  b.id ++ hexDigits 2 (4 + (toHexU b.data).length) ++ toHexU b.data

/-- Modelled from the spec: the extended form of an optional block,
`ID(2) | "00" | lenlen(2) | len(lenlen, hex) | payload`, with `d` length
digits. -/
def optBlockExtended (d : Nat) (b : tr31_opt_ctx_t) : Bytes :=
  b.id ++ ascii ("00") ++ hexDigits 2 d ++ hexDigits d (6 + d + (toHexU b.data).length)
    ++ toHexU b.data

/-- Modelled from the spec: an optional block as emitted, in the extended
form only when the short form cannot encode the length (256 or more). -/
def optBlockText (d : Nat) (b : tr31_opt_ctx_t) : Bytes :=
  if 4 + (toHexU b.data).length < 256 then optBlockShort b else optBlockExtended d b

/-- Modelled from the spec: can the block be emitted: a two-character ID,
and in the extended form a length that fits its digits. -/
def optBlockOk (d : Nat) (b : tr31_opt_ctx_t) : Bool :=
  b.id.length = 2 ∧
    (4 + (toHexU b.data).length < 256 ∨ (d < 256 ∧ 6 + d + (toHexU b.data).length < 16 ^ d))

/-- Modelled from the spec: the trailing `PB` block that brings a header and
optional block region of `len` characters to a multiple of the block size:
nothing when `len` is aligned, else `PB`, its length, and `0` characters. -/
def pbBlockText (blockSize len : Nat) : Bytes :=
  if len % blockSize = 0 then []
  else
    ascii ("PB") ++ hexDigits 2 (4 + (blockSize - (len + 4) % blockSize) % blockSize)
      ++ List.replicate ((blockSize - (len + 4) % blockSize) % blockSize) 48

/-- Modelled from the spec: the optional blocks as given, serialised in
order. -/
def optsText (env : ExportEnv) (ctx : tr31_ctx_t) : Bytes :=
  (ctx.opt_blocks.map (optBlockText env.ext_len_digits)).flatten

/-- Modelled from the spec: the `PB` block added on emit when optional
blocks are present, so that header and optional blocks together are a
multiple of the block size. -/
def pbText (env : ExportEnv) (ctx : tr31_ctx_t) : Bytes :=
  if ctx.opt_blocks = [] then []
  else pbBlockText (blockSizeOf ctx.version) (16 + (optsText env ctx).length)

/-- Modelled from the spec: the optional block count of the header, the
final count including an added `PB` block. -/
def optCount (env : ExportEnv) (ctx : tr31_ctx_t) : Nat :=
  ctx.opt_blocks.length + (if pbText env ctx = [] then 0 else 1)

/-- Modelled from the spec: the payload plaintext
`uint16_be (keyLenBits) | key | pad` with random pad bytes. -/
def payloadOf (env : ExportEnv) (ctx : tr31_ctx_t) (k : Bytes) : Bytes :=
  beBytes 2 (8 * k.length) ++ k
    ++ (List.range (padLen (blockSizeOf ctx.version) k.length)).map (fun i => env.rnd i % 256)

/-- Modelled from the spec: the total length of the text: header, optional
blocks with the `PB` block, hex of the ciphertext, hex of the MAC. -/
def totalLength (env : ExportEnv) (ctx : tr31_ctx_t) (k : Bytes) : Nat :=
  16 + (optsText env ctx).length + (pbText env ctx).length + 2 * (payloadOf env ctx k).length
    + 2 * macLenOf ctx.version

/-- Modelled from the spec: the 16-character header of section 4.4. -/
def headerText (env : ExportEnv) (ctx : tr31_ctx_t) (k : Bytes) : Bytes :=
  [ctx.version] ++ decDigits 4 (totalLength env ctx k) ++ ctx.key.usage ++ [ctx.key.algorithm]
    ++ [ctx.key.mode_of_use] ++ (keyVersionField ctx.key.key_version).getD []
    ++ [ctx.key.exportability] ++ decDigits 2 (optCount env ctx) ++ ascii ("00")

/-- Modelled from the spec: step 1 of the wrap and the limits of the header
fields: the first failed check as an error kind, or none.  The KBPK length
has to match the version, the usage, algorithm, mode of use and
exportability have to be recognised codes, the key version, the optional
blocks, their count and the total length have to fit their fields. -/
def exportCheck (env : ExportEnv) (ctx : tr31_ctx_t) (kbpk_len : Nat) (k : Bytes) :
    Option tr31_error_t :=
  let v := ctx.version
  if ¬ (v = TR31_VERSION_A ∨ v = TR31_VERSION_B ∨ v = TR31_VERSION_C ∨ v = TR31_VERSION_D) then
    some .UNSUPPORTED_VERSION
  else if kbpkLengthOk v kbpk_len = false then some .UNSUPPORTED_KBPK_LENGTH
  else if ¬ (ctx.key.usage.length = 2 ∧ env.usage_known ctx.key.usage = true) then
    some .UNSUPPORTED_KEY_USAGE
  else if algorithmKnown ctx.key.algorithm = false then some .UNSUPPORTED_ALGORITHM
  else if env.mode_known ctx.key.mode_of_use = false then some .UNSUPPORTED_MODE_OF_USE
  else if exportabilityKnown ctx.key.exportability = false then some .UNSUPPORTED_EXPORTABILITY
  else if (keyVersionField ctx.key.key_version).isNone then some .INVALID_KEY_VERSION
  else if ctx.opt_blocks.all (optBlockOk env.ext_len_digits) = false then
    some .INVALID_OPTIONAL_BLOCK
  else if optCount env ctx > 99 then some .INVALID_OPTIONAL_BLOCK
  else if totalLength env ctx k > 9999 then some .INVALID_LENGTH
  else none

/-- Modelled from the spec: steps 4 to 6 of the wrap for a TDES KBPK.
Versions A and C: variant derivation, `ciphertext = CBC_encrypt (KBEK,
IV = 0, payload)`, `MAC = CBC_MAC (KBAK, header | ciphertext)`.  Version B:
CMAC derivation, `MAC = CMAC (KBAK, header | payload)`,
`ciphertext = CBC_encrypt (KBEK, IV = MAC, payload)`.  Here `hdr` is the
header with the optional blocks.  A failing primitive gives `INTERNAL`. -/
def wrapTdes (env : ExportEnv) (version : Nat) (kbpk hdr payload : Bytes) :
    Except tr31_error_t (Bytes × Bytes) :=
  if version = TR31_VERSION_B then
    let d := tr31_tdes_kbpk_derive env.L env.TR31_ERROR_UNSUPPORTED_KBPK_LENGTH (some kbpk)
      kbpk.length (some (zeros kbpk.length)) (some (zeros kbpk.length))
    if d.1 ≠ 0 then .error .INTERNAL
    else
      let kbek := d.2.1.getD []
      let kbak := d.2.2.getD []
      let m := tr31_tdes_cmac env.L (some kbak) kbpk.length (some (hdr ++ payload))
        (hdr ++ payload).length (some (zeros 8))
      if m.1 ≠ 0 then .error .INTERNAL
      else
        let mac := m.2.getD []
        let e := tr31_tdes_encrypt_cbc env.L kbek kbpk.length mac payload payload.length
          (zeros payload.length)
        if e.1 ≠ 0 then .error .INTERNAL else .ok (e.2, mac)
  else
    let d := tr31_tdes_kbpk_variant env.TR31_ERROR_UNSUPPORTED_KBPK_LENGTH (some kbpk)
      kbpk.length (some (zeros kbpk.length)) (some (zeros kbpk.length))
    if d.1 ≠ 0 then .error .INTERNAL
    else
      let kbek := d.2.1.getD []
      let kbak := d.2.2.getD []
      let e := tr31_tdes_encrypt_cbc env.L kbek kbpk.length (zeros 8) payload payload.length
        (zeros payload.length)
      if e.1 ≠ 0 then .error .INTERNAL
      else
        let m := tr31_tdes_cbcmac env.L kbak kbpk.length (hdr ++ e.2) (hdr ++ e.2).length
          (zeros 4)
        if m.1 ≠ 0 then .error .INTERNAL else .ok (e.2, m.2)

/-- Modelled from the spec: `tr31_export`, the wrap of section 4.5: the
checks, then the cipher steps on the header with its optional blocks and
on the payload, then the emitted text `header | optional blocks |
uppercase_hex (ciphertext) | uppercase_hex (MAC)`; or an error kind. -/
def tr31_export (env : ExportEnv) (ctx : tr31_ctx_t) (kbpk : tr31_key_t) :
    Except tr31_error_t Bytes :=
  match kbpk.data, ctx.key.data with
  | some kb, some k =>
    match exportCheck env ctx kb.length k with
    | some e => .error e
    | none =>
      let hdr := headerText env ctx k ++ optsText env ctx ++ pbText env ctx
      let w : Except tr31_error_t (Bytes × Bytes) :=
        if ctx.version = TR31_VERSION_D then
          match env.aes_wrap kb hdr (payloadOf env ctx k) with
          | none => .error .INTERNAL
          | some r => .ok r
        else wrapTdes env ctx.version kb hdr (payloadOf env ctx k)
      match w with
      | .error e => .error e
      | .ok r => .ok (hdr ++ toHexU r.1 ++ toHexU r.2)
  | _, _ => .error .INVALID_KEY_LENGTH

/-- The surroundings used to evaluate the export on the test vectors: the
stand-in cipher library, the usage and mode codes of the test keys, pad
bytes `0, 1, 2, ..`, four digits for an extended length, no AES. -/
def mockEnv : ExportEnv where
  L := mockSSL
  usage_known := fun u => u ∈ [ascii ("P0"), ascii ("B0"), ascii ("K0")]
  mode_known := fun m => m ∈ ascii ("EXB")
  rnd := fun i => i
  ext_len_digits := 4
  aes_wrap := fun _ _ _ => none
  TR31_ERROR_UNSUPPORTED_KBPK_LENGTH := 10

/-- The KBPK of test 1 (TR-31:2018, A.7.2.1). -/
def test1_kbpk : tr31_key_t :=
  { usage := TR31_KEY_USAGE_TR31_KBPK, algorithm := TR31_KEY_ALGORITHM_TDES,
    mode_of_use := TR31_KEY_MODE_OF_USE_ENC_DEC, key_version := .TR31_KEY_VERSION_IS_UNUSED,
    exportability := 0,
    data := some [0x89, 0xE8, 0x8C, 0xF7, 0x93, 0x14, 0x44, 0xF3, 0x34, 0xBD, 0x75, 0x47, 0xFC,
      0x3F, 0x38, 0x0C] }

/-- The key block of test 1: version A, a PIN encryption key, no optional
block. -/
def test1_tr31 : tr31_ctx_t :=
  { version := TR31_VERSION_A, length := 72,
    key := { usage := ascii ("P0"), algorithm := TR31_KEY_ALGORITHM_TDES, mode_of_use := 69,
             key_version := .TR31_KEY_VERSION_IS_UNUSED, exportability := 69,
             data := some [0xED, 0xB3, 0x80, 0xDD, 0x34, 0x0B, 0xC2, 0x62, 0x02, 0x47, 0xD4,
               0x45, 0xF5, 0xB8, 0xD6, 0x78] },
    opt_blocks := [] }

/-- The KBPK of test 2 (TR-31:2018, A.7.3.2). -/
def test2_kbpk : tr31_key_t :=
  { test1_kbpk with
    data := some [0x1D, 0x22, 0xBF, 0x32, 0x38, 0x7C, 0x60, 0x0A, 0xD9, 0x7F, 0x9B, 0x97, 0xA5,
      0x13, 0x11, 0xAC] }

/-- The key block of test 2: version B, a base derivation key with key
version 12 and the optional block `KS`. -/
def test2_tr31 : tr31_ctx_t :=
  { version := TR31_VERSION_B, length := 104,
    key := { usage := ascii ("B0"), algorithm := TR31_KEY_ALGORITHM_TDES, mode_of_use := 88,
             key_version := .TR31_KEY_VERSION_IS_VALID 12, exportability := 83,
             data := some [0xE8, 0xBC, 0x63, 0xE5, 0x47, 0x94, 0x55, 0xE2, 0x65, 0x77, 0xF7,
               0x15, 0xD5, 0x87, 0xFE, 0x68] },
    opt_blocks := [{ id := ascii ("KS"),
                     data := [0x00, 0x60, 0x4B, 0x12, 0x0F, 0x92, 0x92, 0x80, 0x00, 0x00] }] }

/-- The KBPK of test 3 (TR-31:2018, A.7.3.1). -/
def test3_kbpk : tr31_key_t :=
  { test1_kbpk with
    data := some [0xB8, 0xED, 0x59, 0xE0, 0xA2, 0x79, 0xA2, 0x95, 0xE9, 0xF5, 0xED, 0x79, 0x44,
      0xFD, 0x06, 0xB9] }

/-- The key block of test 3: version C, else as test 2 with the key of
test 1. -/
def test3_tr31 : tr31_ctx_t :=
  { version := TR31_VERSION_C, length := 96,
    key := { usage := ascii ("B0"), algorithm := TR31_KEY_ALGORITHM_TDES, mode_of_use := 88,
             key_version := .TR31_KEY_VERSION_IS_VALID 12, exportability := 83,
             data := some [0xED, 0xB3, 0x80, 0xDD, 0x34, 0x0B, 0xC2, 0x62, 0x02, 0x47, 0xD4,
               0x45, 0xF5, 0xB8, 0xD6, 0x78] },
    opt_blocks := [{ id := ascii ("KS"),
                     data := [0x00, 0x60, 0x4B, 0x12, 0x0F, 0x92, 0x92, 0x80, 0x00, 0x00] }] }


/-- The value of a string of decimal digits. -/
def decValue (s : Bytes) : Nat := s.foldl (fun v c => 10 * v + (c - 48)) 0

/-- One more than `SIZE_MAX`, for a `size_t` of 64 bits. -/
def SIZE_MOD : Nat := 2 ^ 64

/-- The character `s[i]` of a C string; the terminating NUL reads as 0. -/
def charAt (s : Bytes) (i : Nat) : Nat := s.getD i 0

/-- C library `isspace` in the C locale: space, `\t`, `\n`, `\v`, `\f`,
`\r`. -/
def isspace (c : Nat) : Bool := c = 32 ∨ (9 ≤ c ∧ c ≤ 13)

/-- C library `isxdigit`: the decimal digits and the letters `a` to `f` and
`A` to `F`. -/
def isxdigit (c : Nat) : Bool :=
  (48 ≤ c ∧ c ≤ 57) ∨ (65 ≤ c ∧ c ≤ 70) ∨ (97 ≤ c ∧ c ≤ 102)

/-- The value C library `strtoul` gives a digit or letter, before the
comparison with the base. -/
def strtoul_digit (c : Nat) : Option Nat :=
  if 48 ≤ c ∧ c ≤ 57 then some (c - 48)
  else if 97 ≤ c ∧ c ≤ 122 then some (c - 97 + 10)
  else if 65 ≤ c ∧ c ≤ 90 then some (c - 65 + 10)
  else none

/-- The digit run of `strtoul`: digits below the base are accumulated, the
first other character ends the number. -/
def strtoul_digits (base : Nat) : Bytes → Nat → Nat
  | [], acc => acc
  | c :: cs, acc =>
    match strtoul_digit c with
    | some d => if d < base then strtoul_digits base cs (acc * base + d) else acc
    | none => acc

/-- C library `strtoul (nptr, NULL, base)` for a base from 2 to 36, as the
C standard has it: white space is skipped, a sign is optional, for base 16
the characters `0x` or `0X` before a hex digit are skipped, then the digits
are read; a value that does not fit gives `ULONG_MAX`, and a minus sign
negates in `unsigned long`. -/
def strtoul (nptr : Bytes) (base : Nat) : Nat :=
  let s := nptr.dropWhile isspace
  let neg := s.head? = some 45
  let s := if s.head? = some 43 ∨ s.head? = some 45 then s.drop 1 else s
  let s :=
    if base = 16 ∧ s.head? = some 48 ∧ (s.getD 1 0 = 120 ∨ s.getD 1 0 = 88)
        ∧ isxdigit (s.getD 2 0) = true then s.drop 2
    else s
  let v := min (strtoul_digits base s 0) (SIZE_MOD - 1)
  if neg then (SIZE_MOD - v) % SIZE_MOD else v

/-- The `for` loop of `parse_hex` with `k` rounds left at index `i`: false
when a round returns -1, true when the loop runs to its end. -/
def parse_hex_scan (hex : Bytes) : Nat → Nat → Bool
  | 0, _ => true
  | k + 1, i => if ¬ isxdigit (charAt hex i) = true then false else parse_hex_scan hex k (i + 1)

/-- The `while (*hex && bin_len--)` loop of `parse_hex`: `hex` is the rest
of the string at the pointer, `off` the index in `bin` the pointer `bin` is
at.  A round copies two characters with `strncpy` (which stops at a NUL and
fills with NUL) into `str`, ends `str` with a NUL, and stores `strtoul` of
it as a `uint8_t`. -/
def parse_hex_loop : Bytes → Bytes → Nat → Nat → Bytes
  | _, bin, _, 0 => bin
  | hex, bin, off, bin_len + 1 =>
    if charAt hex 0 = 0 then bin
    else
      let str : Bytes := [charAt hex 0, charAt hex 1, 0]
      let v := strtoul (str.takeWhile (fun c => c ≠ 0)) 16 % 256
      parse_hex_loop (hex.drop 2) (bin.set off v) (off + 1) bin_len

/-- Source `parse_hex`: the return value and the contents of `bin`. -/
def parse_hex (hex bin : Bytes) (bin_len : Nat) : Int × Bytes :=
  let hex_len := (bin_len * 2) % SIZE_MOD
  if parse_hex_scan hex hex_len 0 = false then (-1, bin)
  else (0, parse_hex_loop hex bin 0 bin_len)

/-- What `printf ("%02X", v)` writes for a `uint8_t` value: two uppercase
hexadecimal digits, the first one `0` for a value below 16. -/
def printf_02X (v : Nat) : Bytes :=
  [(ascii ("0123456789ABCDEF")).getD (v / 16) 0, (ascii ("0123456789ABCDEF")).getD (v % 16) 0]

/-- Source `print_hex`: the characters written to `stdout`, for the first
`length` bytes of `buf`. -/
def print_hex (buf : Bytes) (length : Nat) : Bytes :=
  ((List.range length).map (fun i => printf_02X (buf.getD i 0))).flatten

/-- The value of a hexadecimal digit in either case: its place among
`0123456789abcdef` or among `0123456789ABCDEF`. -/
def hexValue (c : Nat) : Nat :=
  if c ∈ ascii ("0123456789abcdef") then (ascii ("0123456789abcdef")).indexOf c
  else (ascii ("0123456789ABCDEF")).indexOf c

/-- The bytes the hexadecimal text `hex` stands for: byte `i` is
`16 * value (hex[2 i]) + value (hex[2 i + 1])`. -/
def hexBytes (hex : Bytes) (n : Nat) : Bytes :=
  (List.range n).map (fun i => 16 * hexValue (charAt hex (2 * i)) + hexValue (charAt hex (2 * i + 1)))

theorem writeAt_zero (buf d : Bytes) : writeAt buf 0 d = d ++ buf.drop d.length := by
  simp [writeAt]

theorem writeAt_nil (buf : Bytes) (n : Nat) : writeAt buf n [] = buf := by
  simp [writeAt]

theorem writeAt_zero_of_length (buf d : Bytes) (h : buf.length = d.length) :
    writeAt buf 0 d = d := by
  rw [writeAt_zero, List.drop_of_length_le (Nat.le_of_eq h), List.append_nil]

theorem xorBytes_comm (a b : Bytes) : xorBytes a b = xorBytes b a := by
  unfold xorBytes
  exact List.zipWith_comm_of_comm _ (fun x y => Nat.xor_comm x y) a b

theorem xorBytes_length (a b : Bytes) : (xorBytes a b).length = min a.length b.length := by
  simp [xorBytes]

theorem xorBytes_take_right (a b : Bytes) (n : Nat) (h : a.length ≤ n) :
    xorBytes a (b.take n) = xorBytes a b := by
  induction a generalizing b n with
  | nil => simp [xorBytes]
  | cons x xs ih =>
    cases b with
    | nil => simp [xorBytes]
    | cons y ys =>
      cases n with
      | zero => simp at h
      | succ n =>
        have h2 : xs.length ≤ n := by simpa using h
        have := ih ys n h2
        simp only [xorBytes] at this
        simp [xorBytes, this]

theorem tr31_xor_eq_xorBytes (x y : Bytes) (h : x.length = y.length) :
    tr31_xor x y x.length = xorBytes x y := by
  induction x generalizing y with
  | nil => cases y <;> simp [tr31_xor, xorBytes]
  | cons a as ih =>
    cases y with
    | nil => simp at h
    | cons b bs =>
      have h2 : as.length = bs.length := by simpa using h
      have := ih bs h2
      simp only [xorBytes] at this
      simp [tr31_xor, xorBytes, this]

/-! ## Arithmetic of the one-bit left shift -/

set_option maxRecDepth 100000 in
theorem byte_shift_facts : ∀ a < 256, ∀ l < 2,
    (((a <<< 1) % 256) ||| l) = (2 * a) % 256 + l ∧ ((a &&& 0x80) >>> 7) = a / 128 := by
  decide

theorem beVal_append_singleton (l : Bytes) (b : Nat) : beVal (l ++ [b]) = beVal l * 256 + b := by
  simp [beVal, List.foldl_append]

theorem beVal_lt (l : Bytes) (h : ∀ b ∈ l, b < 256) : beVal l < 256 ^ l.length := by
  induction l using List.reverseRecOn with
  | nil => simp [beVal]
  | append_singleton l a ih =>
    have h1 : ∀ b ∈ l, b < 256 := fun b hb => h b (by simp [hb])
    have h2 : a < 256 := h a (by simp)
    have := ih h1
    rw [beVal_append_singleton]
    simp only [List.length_append, List.length_singleton, pow_succ]
    omega

theorem beBytes_beVal (l : Bytes) (h : ∀ b ∈ l, b < 256) : beBytes l.length (beVal l) = l := by
  induction l using List.reverseRecOn with
  | nil => simp [beVal, beBytes]
  | append_singleton l a ih =>
    have h1 : ∀ b ∈ l, b < 256 := fun b hb => h b (by simp [hb])
    have h2 : a < 256 := h a (by simp)
    rw [beVal_append_singleton]
    simp only [List.length_append, List.length_singleton, beBytes]
    have e1 : (beVal l * 256 + a) / 256 = beVal l := by omega
    have e2 : (beVal l * 256 + a) % 256 = a := by omega
    rw [e1, e2, ih h1]

/-- The shift loop run over the first `pre.length` bytes of a buffer
doubles their big-endian value, adds the incoming bit, and hands the bit
shifted out back as the carry; the rest of the buffer is untouched. -/
theorem lshift_loop_spec (pre : Bytes) : ∀ (post : Bytes) (lsb : Nat),
    (∀ b ∈ pre, b < 256) → lsb < 2 →
    ∃ c pre', tr31_lshift_loop (pre ++ post) pre.length lsb = (c, pre' ++ post) ∧
      pre'.length = pre.length ∧ (∀ b ∈ pre', b < 256) ∧ c < 2 ∧
      beVal pre' + c * 256 ^ pre.length = 2 * beVal pre + lsb := by
  induction pre using List.reverseRecOn with
  | nil =>
    intro post lsb _ hl
    exact ⟨lsb, [], by simp [tr31_lshift_loop], rfl, by simp, hl, by simp [beVal]⟩
  | append_singleton p a ih =>
    intro post lsb h hl
    have h1 : ∀ b ∈ p, b < 256 := fun b hb => h b (by simp [hb])
    have h2 : a < 256 := h a (by simp)
    obtain ⟨f1, f2⟩ := byte_shift_facts a h2 lsb hl
    have hq : a / 128 < 2 := by omega
    obtain ⟨c, p', e, hlen, hb, hc, hv⟩ := ih (((2 * a) % 256 + lsb) :: post) (a / 128) h1 hq
    refine ⟨c, p' ++ [(2 * a) % 256 + lsb], ?_, by simp [hlen], ?_, hc, ?_⟩
    · have hget : (p ++ [a] ++ post).getD p.length 0 = a := by
        rw [List.getD_eq_getElem?_getD, List.append_assoc,
          List.getElem?_append_right (Nat.le_refl _)]
        simp
      have hset : ∀ v, (p ++ [a] ++ post).set p.length v = p ++ v :: post := by
        intro v; simp
      simp only [List.length_append, List.length_singleton, tr31_lshift_loop, hget, hset, f1, f2]
      rw [e]; simp
    · intro b hb'
      rcases List.mem_append.1 hb' with hb' | hb'
      · exact hb b hb'
      · simp at hb'; omega
    · rw [beVal_append_singleton, beVal_append_singleton]
      simp only [List.length_append, List.length_singleton, pow_succ]
      have e3 : c * (256 ^ p.length * 256) = c * 256 ^ p.length * 256 := by ring
      rw [e3]
      generalize c * 256 ^ p.length = Y at hv ⊢
      omega

theorem xor_low_byte (P a c : Nat) (ha : a < 256) (hc : c < 256) :
    (P * 256 + a) ^^^ c = P * 256 + (a ^^^ c) := by
  have hx : a ^^^ c < 2 ^ 8 := Nat.xor_lt_two_pow (by simpa using ha) (by simpa using hc)
  have e1 : P * 256 + a = 2 ^ 8 * P ||| a := by
    rw [← Nat.mul_add_lt_is_or (by simpa using ha)]; ring
  have e2 : P * 256 + (a ^^^ c) = 2 ^ 8 * P ||| (a ^^^ c) := by
    rw [← Nat.mul_add_lt_is_or hx]; ring
  rw [e1, e2]
  apply Nat.eq_of_testBit_eq
  intro i
  simp only [Nat.testBit_xor, Nat.testBit_or]
  by_cases hi : i < 8
  · have : (2 ^ 8 * P).testBit i = false := by
      rw [Nat.testBit_mul_pow_two]; simp [hi]
    rw [this]; simp
  · have hi8 : 8 ≤ i := by omega
    have hp : (256 : Nat) ≤ 2 ^ i := by
      calc (256 : Nat) = 2 ^ 8 := by norm_num
        _ ≤ 2 ^ i := Nat.pow_le_pow_right (by norm_num) hi8
    have ta : a.testBit i = false := Nat.testBit_eq_false_of_lt (by omega)
    have tc : c.testBit i = false := Nat.testBit_eq_false_of_lt (by omega)
    rw [ta, tc]; simp

/-! ## The wrappers on one block, with a library that succeeds -/

theorem take8_length (p : Bytes) (h : 8 ≤ p.length) : (p.take 8).length = 8 := by
  simp [List.length_take, h]

theorem encrypt_ecb_ok (L : OpenSSL) (hS : L.Succeeds) (key : Bytes) (key_len : Nat)
    (hk : key_len = 16 ∨ key_len = 24) (pt out : Bytes) (hp : 8 ≤ pt.length) :
    tr31_tdes_encrypt_ecb L key key_len pt out
      = (0, writeAt out 0 (L.E key key_len (pt.take 8))) := by
  obtain ⟨hi, hu, hf⟩ := hS
  have h8 := take8_length pt hp
  have ht : List.take 8 (List.take 8 pt) = List.take 8 pt := by rw [List.take_take]; simp
  rcases hk with rfl | rfl <;>
    simp [tr31_tdes_encrypt_ecb, ht, EVP_EncryptInit_ex, EVP_CipherInit_ex, hi, hu, hf,
      EVP_CIPHER_CTX_set_padding, EVP_EncryptUpdate, EVP_CipherUpdate, EVP_EncryptFinal_ex,
      EVP_CipherFinal_ex, TDES2_KEY_SIZE, TDES3_KEY_SIZE, DES_BLOCK_SIZE, h8, ecbBlocks,
      OpenSSL.blockFn, OpenSSL.E, EVP_CIPHER.isCbc, EVP_CIPHER.isEde3, EVP_CIPHER.keyLength,
      writeAt_nil, EVP_CIPHER_CTX_new]

theorem encrypt_cbc_ok (L : OpenSSL) (hS : L.Succeeds) (key : Bytes) (key_len : Nat)
    (hk : key_len = 16 ∨ key_len = 24) (iv pt out : Bytes) (hp : 8 ≤ pt.length) :
    tr31_tdes_encrypt_cbc L key key_len iv pt 8 out
      = (0, writeAt out 0 (L.E key key_len (xorBytes (pt.take 8) iv))) := by
  obtain ⟨hi, hu, hf⟩ := hS
  have h8 := take8_length pt hp
  have hx : xorBytes (pt.take 8) (iv.take 8) = xorBytes (pt.take 8) iv :=
    xorBytes_take_right _ _ _ (Nat.le_of_eq h8)
  have ht : List.take 8 (List.take 8 pt) = List.take 8 pt := by rw [List.take_take]; simp
  have h87 : (8 : Nat) &&& 7 = 0 := by decide
  rcases hk with rfl | rfl <;>
    simp [tr31_tdes_encrypt_cbc, ht, h87, EVP_EncryptInit_ex, EVP_CipherInit_ex, hi, hu, hf,
      EVP_CIPHER_CTX_set_padding, EVP_EncryptUpdate, EVP_CipherUpdate, EVP_EncryptFinal_ex,
      EVP_CipherFinal_ex, TDES2_KEY_SIZE, TDES3_KEY_SIZE, DES_BLOCK_SIZE, h8, cbcEncBlocks,
      OpenSSL.blockFn, OpenSSL.E, EVP_CIPHER.isCbc, EVP_CIPHER.isEde3, EVP_CIPHER.keyLength,
      writeAt_nil, EVP_CIPHER_CTX_new, hx]

/-! ## Subkey derivation -/

theorem length_eight (l : Bytes) (h : l.length = 8) :
    ∃ a0 a1 a2 a3 a4 a5 a6 a7, l = [a0, a1, a2, a3, a4, a5, a6, a7] := by
  match l, h with
  | [a0, a1, a2, a3, a4, a5, a6, a7], _ => exact ⟨a0, a1, a2, a3, a4, a5, a6, a7, rfl⟩

theorem isBlock_E (L : OpenSSL) (hB : L.BlockValued) (key : Bytes) (key_len : Nat) (b : Bytes) :
    IsBlock (L.E key key_len b) := by
  unfold OpenSSL.E
  split
  · exact (hB _ _).1
  · exact (hB _ _).2

/-- One doubling step of the subkey derivation: shift the first eight
bytes of the buffer and fold the carry back with `tr31_subkey_r64`. -/
theorem double_step (d rest : Bytes) (hd : IsBlock d) :
    (if (tr31_lshift (d ++ rest) DES_BLOCK_SIZE).1 ≠ 0
      then tr31_xor (tr31_lshift (d ++ rest) DES_BLOCK_SIZE).2 tr31_subkey_r64
        tr31_subkey_r64.length
      else (tr31_lshift (d ++ rest) DES_BLOCK_SIZE).2) = gf64Double d ++ rest
    ∧ IsBlock (gf64Double d) := by
  obtain ⟨hl, hb⟩ := hd
  obtain ⟨c, d', e, hlen, hb', hc, hv⟩ := lshift_loop_spec d rest 0 hb (by norm_num)
  rw [hl] at e hlen hv
  have hlt := beVal_lt d hb
  have hlt' := beVal_lt d' hb'
  rw [hl] at hlt
  rw [hlen] at hlt'
  have e256 : (256 : Nat) ^ 8 = 2 ^ 64 := by norm_num
  rw [e256] at hlt hlt' hv
  have hsh : tr31_lshift (d ++ rest) DES_BLOCK_SIZE = (c, d' ++ rest) := by
    simpa [tr31_lshift, DES_BLOCK_SIZE] using e
  rw [hsh]
  have hc01 : c = 0 ∨ c = 1 := by omega
  rcases hc01 with rfl | rfl
  · have hsmall : ¬ 2 ^ 63 ≤ beVal d := by omega
    have hval : (2 * beVal d) % 2 ^ 64 = beVal d' := by omega
    have hg : gf64Double d = d' := by
      unfold gf64Double
      simp only [hsmall, if_false, hval]
      rw [← hlen]; exact beBytes_beVal d' hb'
    rw [hg]
    exact ⟨by simp, hlen, hb'⟩
  · have hbig : 2 ^ 63 ≤ beVal d := by omega
    have hval : (2 * beVal d) % 2 ^ 64 = beVal d' := by omega
    obtain ⟨a0, a1, a2, a3, a4, a5, a6, a7, rfl⟩ := length_eight d' hlen
    have h7 : a7 < 256 := hb' a7 (by simp)
    have hx7 : a7 ^^^ 0x1B < 256 := by
      have : a7 ^^^ 0x1B < 2 ^ 8 := Nat.xor_lt_two_pow (by simpa using h7) (by norm_num)
      simpa using this
    have hxor : tr31_xor ([a0, a1, a2, a3, a4, a5, a6, a7] ++ rest) tr31_subkey_r64
        tr31_subkey_r64.length = [a0, a1, a2, a3, a4, a5, a6, a7 ^^^ 0x1B] ++ rest := by
      simp [tr31_xor, tr31_subkey_r64]
    have hb2 : ∀ b ∈ [a0, a1, a2, a3, a4, a5, a6, a7 ^^^ 0x1B], b < 256 := by
      intro b hb
      simp only [List.mem_cons, List.mem_singleton, List.not_mem_nil, or_false] at hb
      have := hb'
      simp only [List.mem_cons, List.mem_singleton, List.not_mem_nil, or_false,
        forall_eq_or_imp, forall_eq] at this
      omega
    have hsplit : ∀ z : Nat, [a0, a1, a2, a3, a4, a5, a6, z] = [a0, a1, a2, a3, a4, a5, a6] ++ [z] :=
      fun _ => rfl
    have hv2 : beVal [a0, a1, a2, a3, a4, a5, a6, a7 ^^^ 0x1B]
        = beVal [a0, a1, a2, a3, a4, a5, a6, a7] ^^^ 0x1B := by
      rw [hsplit, hsplit, beVal_append_singleton, beVal_append_singleton,
        xor_low_byte _ _ _ h7 (by norm_num)]
    have hg : gf64Double d = [a0, a1, a2, a3, a4, a5, a6, a7 ^^^ 0x1B] := by
      unfold gf64Double
      simp only [hbig, if_true, hval, ← hv2]
      exact beBytes_beVal _ hb2
    rw [hg]
    refine ⟨?_, rfl, hb2⟩
    simp only [ne_eq, one_ne_zero, not_false_eq_true, if_true]
    exact hxor

/-- With a library that succeeds and returns blocks, the subkeys are the
block `L = E_K (0)` doubled once and twice in GF(2^64). -/
theorem derive_subkeys_spec (L : OpenSSL) (hS : L.Succeeds) (hB : L.BlockValued) (key : Bytes)
    (key_len : Nat) (hk : key_len = 16 ∨ key_len = 24) (k1 k2 : Bytes) :
    tr31_tdes_derive_subkeys L key key_len k1 k2
      = (0, gf64Double (L.E key key_len (zeros 8)) ++ k1.drop 8,
          gf64Double (gf64Double (L.E key key_len (zeros 8))) ++ k2.drop 8) := by
  have hE := isBlock_E L hB key key_len (zeros 8)
  have hz : (zeros 8).take 8 = zeros 8 := by simp [zeros]
  have hecb := encrypt_ecb_ok L hS key key_len hk (zeros 8) (zeros 8) (by simp [zeros])
  rw [hz, writeAt_zero_of_length _ _ (by rw [hE.1]; simp [zeros])] at hecb
  obtain ⟨s1, b1⟩ := double_step (L.E key key_len (zeros 8)) (k1.drop 8) hE
  obtain ⟨s2, _⟩ := double_step (gf64Double (L.E key key_len (zeros 8))) (k2.drop 8) b1
  have t1 : (L.E key key_len (zeros 8)).take DES_BLOCK_SIZE = L.E key key_len (zeros 8) := by
    rw [List.take_of_length_le]; rw [hE.1]; simp [DES_BLOCK_SIZE]
  have t2 : (gf64Double (L.E key key_len (zeros 8)) ++ k1.drop 8).take DES_BLOCK_SIZE
      = gf64Double (L.E key key_len (zeros 8)) := by
    rw [List.take_append_of_le_length (by rw [b1.1]; simp [DES_BLOCK_SIZE])]
    rw [List.take_of_length_le]; rw [b1.1]; simp [DES_BLOCK_SIZE]
  have w1 : writeAt k1 0 (L.E key key_len (zeros 8)) = L.E key key_len (zeros 8) ++ k1.drop 8 := by
    rw [writeAt_zero, hE.1]
  have w2 : writeAt k2 0 (gf64Double (L.E key key_len (zeros 8)))
      = gf64Double (L.E key key_len (zeros 8)) ++ k2.drop 8 := by
    rw [writeAt_zero, b1.1]
  unfold tr31_tdes_derive_subkeys
  simp only [DES_BLOCK_SIZE] at t1 t2 s1 s2 ⊢
  simp only [hecb, ne_eq, not_true_eq_false, if_false, t1, w1, s1, t2, w2, s2]

/-! ## The CBC chain computed by the two MAC loops -/

theorem and_seven (x : Nat) : x &&& 7 = x % 8 := by
  have := Nat.and_pow_two_sub_one_eq_mod x 3
  simpa using this

theorem xorBytes_rotate (m c k : Bytes) :
    xorBytes m (xorBytes c k) = xorBytes (xorBytes c m) k := by
  induction m generalizing c k with
  | nil => cases c <;> simp [xorBytes]
  | cons x xs ih =>
    cases c with
    | nil => simp [xorBytes]
    | cons y ys =>
      cases k with
      | nil => simp [xorBytes]
      | cons z zs =>
        have := ih ys zs
        simp only [xorBytes] at this
        simp only [xorBytes, List.zipWith_cons_cons, this, List.cons.injEq, and_true]
        rw [← Nat.xor_assoc, Nat.xor_comm x y]

theorem cbcChain_length (L : OpenSSL) (hB : L.BlockValued) (key : Bytes) (key_len : Nat)
    (msg : Bytes) (j : Nat) : (cbcChain (L.E key key_len) msg j).length = 8 := by
  cases j with
  | zero => simp [cbcChain, zeros]
  | succ j => exact (isBlock_E L hB key key_len _).1

theorem drop_length_ge (buf : Bytes) (n j : Nat) (h : 8 * n ≤ buf.length) (hj : j < n) :
    8 ≤ (buf.drop (8 * j)).length := by
  rw [List.length_drop]; omega

/-- One round of either MAC loop: the chaining buffer goes from `C_j` to
`C_{j+1}`. -/
theorem chain_round (L : OpenSSL) (hS : L.Succeeds) (hB : L.BlockValued) (key : Bytes)
    (key_len : Nat) (hk : key_len = 16 ∨ key_len = 24) (buf : Bytes) (n j : Nat)
    (h : 8 * n ≤ buf.length) (hj : j < n) :
    tr31_tdes_encrypt_cbc L key key_len (cbcChain (L.E key key_len) buf j) (buf.drop (8 * j))
        DES_BLOCK_SIZE (cbcChain (L.E key key_len) buf j)
      = (0, cbcChain (L.E key key_len) buf (j + 1)) := by
  have hlen := cbcChain_length L hB key key_len buf j
  have := encrypt_cbc_ok L hS key key_len hk (cbcChain (L.E key key_len) buf j)
    (buf.drop (8 * j)) (cbcChain (L.E key key_len) buf j) (drop_length_ge buf n j h hj)
  rw [writeAt_zero_of_length _ _ (by rw [hlen, (isBlock_E L hB key key_len _).1])] at this
  simp only [DES_BLOCK_SIZE]
  rw [this, xorBytes_comm]
  simp [cbcChain, blockAt]

theorem cbcmac_loop_spec (L : OpenSSL) (hS : L.Succeeds) (hB : L.BlockValued) (key : Bytes)
    (key_len : Nat) (hk : key_len = 16 ∨ key_len = 24) (buf : Bytes) (n : Nat)
    (h : 8 * n ≤ buf.length) : ∀ (m j fuel : Nat), j + m = n → m ≤ fuel →
    cbcmac_loop L key key_len (8 * n) fuel (8 * j) (buf.drop (8 * j))
        (cbcChain (L.E key key_len) buf j)
      = (0, cbcChain (L.E key key_len) buf n) := by
  intro m
  induction m with
  | zero =>
    intro j fuel hj _
    have : j = n := by omega
    subst this
    cases fuel <;> simp [cbcmac_loop]
  | succ m ih =>
    intro j fuel hj hf
    cases fuel with
    | zero => omega
    | succ f =>
      have hlt : 8 * j < 8 * n := by omega
      have hr := chain_round L hS hB key key_len hk buf n j h (by omega)
      have hd : List.drop DES_BLOCK_SIZE (List.drop (8 * j) buf) = List.drop (8 * (j + 1)) buf := by
        rw [List.drop_drop]; congr 1
      have hi : 8 * j + DES_BLOCK_SIZE = 8 * (j + 1) := by simp [DES_BLOCK_SIZE]; ring
      rw [cbcmac_loop]
      simp only [hlt, if_true, hr, ne_eq, not_true_eq_false, if_false, hd, hi]
      exact ih (j + 1) f (by omega) (by omega)

theorem cmac_loop_spec (L : OpenSSL) (hS : L.Succeeds) (hB : L.BlockValued) (key : Bytes)
    (key_len : Nat) (hk : key_len = 16 ∨ key_len = 24) (buf : Bytes) (n : Nat)
    (h : 8 * n ≤ buf.length) : ∀ (m j fuel : Nat), j + m + 1 = n → m ≤ fuel →
    cmac_loop L key key_len (8 * n) fuel (8 * j) (buf.drop (8 * j))
        (cbcChain (L.E key key_len) buf j)
      = (0, buf.drop (8 * (n - 1)), cbcChain (L.E key key_len) buf (n - 1)) := by
  intro m
  induction m with
  | zero =>
    intro j fuel hj _
    have : j = n - 1 := by omega
    subst this
    have hnl : ¬ 8 * (n - 1) < 8 * n - DES_BLOCK_SIZE := by simp [DES_BLOCK_SIZE]; omega
    cases fuel <;> simp [cmac_loop, hnl]
  | succ m ih =>
    intro j fuel hj hf
    cases fuel with
    | zero => omega
    | succ f =>
      have hlt : 8 * j < 8 * n - DES_BLOCK_SIZE := by simp [DES_BLOCK_SIZE]; omega
      have hr := chain_round L hS hB key key_len hk buf n j h (by omega)
      have hd : List.drop DES_BLOCK_SIZE (List.drop (8 * j) buf) = List.drop (8 * (j + 1)) buf := by
        rw [List.drop_drop]; congr 1
      have hi : 8 * j + DES_BLOCK_SIZE = 8 * (j + 1) := by simp [DES_BLOCK_SIZE]; ring
      rw [cmac_loop]
      simp only [hlt, if_true, hr, ne_eq, not_true_eq_false, if_false, hd, hi]
      exact ih (j + 1) f (by omega) (by omega)

/-- The value `tr31_tdes_cmac` returns on a message of `n ≥ 1` whole
blocks, with a library that succeeds and returns blocks. -/
theorem cmac_spec (L : OpenSSL) (hS : L.Succeeds) (hB : L.BlockValued) (key : Bytes)
    (key_len : Nat) (hk : key_len = 16 ∨ key_len = 24) (buf : Bytes) (n : Nat) (hn : 1 ≤ n)
    (h : 8 * n ≤ buf.length) (cmac : Bytes) :
    tr31_tdes_cmac L (some key) key_len (some buf) (8 * n) (some cmac)
      = (0, some (L.E key key_len
          (xorBytes (xorBytes (cbcChain (L.E key key_len) buf (n - 1)) (blockAt buf n))
            (cmacK1 L key key_len)) ++ cmac.drop 8)) := by
  have hkl : ¬ (key_len ≠ TDES2_KEY_SIZE ∧ key_len ≠ TDES3_KEY_SIZE) := by
    simp only [TDES2_KEY_SIZE, TDES3_KEY_SIZE]; omega
  have hal : ¬ ((8 * n) &&& (DES_BLOCK_SIZE - 1) ≠ 0) := by
    simp [DES_BLOCK_SIZE, and_seven]
  have hd := derive_subkeys_spec L hS hB key key_len hk (zeros DES_BLOCK_SIZE)
    (zeros DES_BLOCK_SIZE)
  have hz : (zeros DES_BLOCK_SIZE).drop 8 = [] := by simp [zeros, DES_BLOCK_SIZE]
  rw [hz, List.append_nil, List.append_nil] at hd
  have hlp : (if 8 * n > DES_BLOCK_SIZE
      then cmac_loop L key key_len (8 * n) (8 * n) 0 buf (zeros DES_BLOCK_SIZE)
      else (0, buf, zeros DES_BLOCK_SIZE))
      = (0, buf.drop (8 * (n - 1)), cbcChain (L.E key key_len) buf (n - 1)) := by
    by_cases h1 : n = 1
    · subst h1; simp [DES_BLOCK_SIZE, cbcChain]
    · have hgt : 8 * n > DES_BLOCK_SIZE := by simp [DES_BLOCK_SIZE]; omega
      have := cmac_loop_spec L hS hB key key_len hk buf n h (n - 1) 0 (8 * n) (by omega)
        (by omega)
      simp only [Nat.mul_zero, List.drop_zero, cbcChain] at this
      simp only [hgt, if_true]
      exact this
  have hK : IsBlock (cmacK1 L key key_len) := (double_step _ [] (isBlock_E L hB key key_len _)).2
  have hC := cbcChain_length L hB key key_len buf (n - 1)
  have hx : tr31_xor (cbcChain (L.E key key_len) buf (n - 1)) (cmacK1 L key key_len)
      DES_BLOCK_SIZE = xorBytes (cbcChain (L.E key key_len) buf (n - 1)) (cmacK1 L key key_len) := by
    have := tr31_xor_eq_xorBytes (cbcChain (L.E key key_len) buf (n - 1)) (cmacK1 L key key_len)
      (by rw [hC, hK.1])
    rw [hC] at this
    exact this
  have he := encrypt_cbc_ok L hS key key_len hk
    (xorBytes (cbcChain (L.E key key_len) buf (n - 1)) (cmacK1 L key key_len))
    (buf.drop (8 * (n - 1))) cmac (drop_length_ge buf n (n - 1) h (by omega))
  rw [writeAt_zero, (isBlock_E L hB key key_len _).1, xorBytes_rotate] at he
  unfold tr31_tdes_cmac
  simp only [hkl, hal, if_false, hd, ne_eq, not_true_eq_false, hlp]
  simp only [DES_BLOCK_SIZE, cmacK1] at he hx ⊢
  rw [hx, he]
  rfl

/-! ## CMAC-based key derivation -/

theorem xorBytes_zeros (b : Bytes) : ∀ n, b.length ≤ n → xorBytes (zeros n) b = b := by
  induction b with
  | nil => intro n _; cases n <;> simp [xorBytes, zeros]
  | cons x xs ih =>
    intro n hn
    cases n with
    | zero => simp at hn
    | succ n =>
      have := ih n (by simpa using hn)
      simp only [xorBytes, zeros] at this
      simp [xorBytes, zeros, List.replicate_succ, this]

/-- The CMAC of a message of one block is the block, masked with `K1`,
under the block cipher. -/
theorem cmacTag_single (L : OpenSSL) (hS : L.Succeeds) (hB : L.BlockValued) (key : Bytes)
    (key_len : Nat) (hk : key_len = 16 ∨ key_len = 24) (b : Bytes) (hb : b.length = 8) :
    tr31_tdes_cmac L (some key) key_len (some b) 8 (some (zeros 8))
      = (0, some (L.E key key_len (xorBytes b (cmacK1 L key key_len)))) := by
  have := cmac_spec L hS hB key key_len hk b 1 (Nat.le_refl 1) (by omega) (zeros 8)
  have hbl : blockAt b 1 = b := by
    simp only [blockAt, Nat.sub_self, Nat.mul_zero, List.drop_zero]
    rw [List.take_of_length_le (by omega)]
  have hz : (zeros 8).drop 8 = [] := by simp [zeros]
  rw [hbl, hz, List.append_nil] at this
  simp only [Nat.sub_self, cbcChain, Nat.mul_one] at this
  rw [xorBytes_zeros b 8 (by omega)] at this
  exact this

/-- The encryption calls that produce one derived key, with a library that
succeeds and returns blocks. -/
theorem kbpk_derive_key_spec (L : OpenSSL) (hS : L.Succeeds) (hB : L.BlockValued) (kbpk : Bytes)
    (kbpk_len : Nat) (hk : kbpk_len = 16 ∨ kbpk_len = 24) (k1 kbxk out : Bytes)
    (hx : kbpk_len ≤ kbxk.length) :
    kbpk_derive_key L kbpk kbpk_len k1 kbxk out
      = (0, L.E kbpk kbpk_len (xorBytes (kbxk.take 8) k1)
          ++ (L.E kbpk kbpk_len (xorBytes ((kbxk.drop 8).take 8) k1)
          ++ ((if kbpk_len = 24 then L.E kbpk kbpk_len (xorBytes ((kbxk.drop 16).take 8) k1)
                else [])
          ++ out.drop kbpk_len))) := by
  have l1 := (isBlock_E L hB kbpk kbpk_len (xorBytes (kbxk.take 8) k1)).1
  have l2 := (isBlock_E L hB kbpk kbpk_len (xorBytes ((kbxk.drop 8).take 8) k1)).1
  have l3 := (isBlock_E L hB kbpk kbpk_len (xorBytes ((kbxk.drop 16).take 8) k1)).1
  have e1 := encrypt_cbc_ok L hS kbpk kbpk_len hk k1 kbxk out (by omega)
  have e2 := encrypt_cbc_ok L hS kbpk kbpk_len hk k1 (kbxk.drop 8) (out.drop 8)
    (by rw [List.length_drop]; omega)
  rw [writeAt_zero, l1] at e1
  rw [writeAt_zero, l2, List.drop_drop] at e2
  unfold kbpk_derive_key
  simp only [e1, ne_eq, not_true_eq_false, if_false, List.drop_left' l1, List.take_left' l1, e2,
    TDES3_KEY_SIZE]
  rcases hk with h16 | h24
  · subst h16; simp
  · subst h24
    have l12 : (L.E kbpk 24 (xorBytes (kbxk.take 8) k1)
        ++ (L.E kbpk 24 (xorBytes ((kbxk.drop 8).take 8) k1) ++ List.drop (8 + 8) out)).take 16
        = L.E kbpk 24 (xorBytes (kbxk.take 8) k1)
          ++ L.E kbpk 24 (xorBytes ((kbxk.drop 8).take 8) k1) := by
      rw [← List.append_assoc]; exact List.take_left' (by simp [l1, l2])
    have d12 : (L.E kbpk 24 (xorBytes (kbxk.take 8) k1)
        ++ (L.E kbpk 24 (xorBytes ((kbxk.drop 8).take 8) k1) ++ List.drop (8 + 8) out)).drop 16
        = List.drop (8 + 8) out := by
      rw [← List.append_assoc]; exact List.drop_left' (by simp [l1, l2])
    have e3 := encrypt_cbc_ok L hS kbpk 24 (Or.inr rfl) k1 (kbxk.drop 16) (out.drop (8 + 8))
      (by rw [List.length_drop]; omega)
    rw [writeAt_zero, l3, List.drop_drop] at e3
    simp only [if_true, l12, d12, e3, List.append_assoc]
    simp

theorem kbpk_derive_spec (L : OpenSSL) (hS : L.Succeeds) (hB : L.BlockValued) (X : Int)
    (kbpk : Bytes) (kbpk_len : Nat) (hk : kbpk_len = 16 ∨ kbpk_len = 24) (kbek kbak : Bytes) :
    tr31_tdes_kbpk_derive L X (some kbpk) kbpk_len (some kbek) (some kbak)
      = (0, some (cbcDerive L kbpk kbpk_len (kbekInput kbpk_len) ++ kbek.drop kbpk_len),
          some (cbcDerive L kbpk kbpk_len (kbakInput kbpk_len) ++ kbak.drop kbpk_len)) := by
  have hd := derive_subkeys_spec L hS hB kbpk kbpk_len hk (zeros DES_BLOCK_SIZE)
    (zeros DES_BLOCK_SIZE)
  have hz : (zeros DES_BLOCK_SIZE).drop 8 = [] := by simp [zeros, DES_BLOCK_SIZE]
  rw [hz, List.append_nil, List.append_nil] at hd
  have hkl : ¬ (kbpk_len ≠ TDES2_KEY_SIZE ∧ kbpk_len ≠ TDES3_KEY_SIZE) := by
    simp only [TDES2_KEY_SIZE, TDES3_KEY_SIZE]; omega
  unfold tr31_tdes_kbpk_derive
  simp only [hkl, if_false, hd, ne_eq, not_true_eq_false]
  rcases hk with h | h <;> subst h
  · have w1 : writeAt (zeros 16) 0 tr31_derive_kbek_tdes2_input
        = tr31_derive_kbek_tdes2_input := by decide
    have w2 : writeAt tr31_derive_kbek_tdes2_input 0 tr31_derive_kbak_tdes2_input
        = tr31_derive_kbak_tdes2_input := by decide
    have k1 := kbpk_derive_key_spec L hS hB kbpk 16 (Or.inl rfl)
      (gf64Double (L.E kbpk 16 (zeros 8))) tr31_derive_kbek_tdes2_input kbek (by decide)
    have k2 := kbpk_derive_key_spec L hS hB kbpk 16 (Or.inl rfl)
      (gf64Double (L.E kbpk 16 (zeros 8))) tr31_derive_kbak_tdes2_input kbak (by decide)
    simp only [TDES2_KEY_SIZE, TDES3_KEY_SIZE, if_true, w1, w2, k1, k2, ne_eq,
      not_true_eq_false, if_false]
    simp [cbcDerive, kbekInput, kbakInput, blockAt, cmacK1]
  · have w1 : writeAt (zeros 24) 0 tr31_derive_kbek_tdes3_input
        = tr31_derive_kbek_tdes3_input := by decide
    have w2 : writeAt tr31_derive_kbek_tdes3_input 0 tr31_derive_kbak_tdes3_input
        = tr31_derive_kbak_tdes3_input := by decide
    have k1 := kbpk_derive_key_spec L hS hB kbpk 24 (Or.inr rfl)
      (gf64Double (L.E kbpk 24 (zeros 8))) tr31_derive_kbek_tdes3_input kbek (by decide)
    have k2 := kbpk_derive_key_spec L hS hB kbpk 24 (Or.inr rfl)
      (gf64Double (L.E kbpk 24 (zeros 8))) tr31_derive_kbak_tdes3_input kbak (by decide)
    have ne : ¬ ((24 : Nat) = 16) := by decide
    simp only [TDES2_KEY_SIZE, TDES3_KEY_SIZE, if_true, w1, w2, k1, k2, ne_eq,
      not_true_eq_false, if_false, ne]
    simp [cbcDerive, kbekInput, kbakInput, blockAt, cmacK1]

theorem cmacDerive_eq_cbcDerive (L : OpenSSL) (hS : L.Succeeds) (hB : L.BlockValued)
    (key : Bytes) (key_len : Nat) (hk : key_len = 16 ∨ key_len = 24) (input : Bytes)
    (hi : input.length = key_len) :
    cmacDerive L key key_len input = cbcDerive L key key_len input := by
  have hb : ∀ j, 1 ≤ j → 8 * j ≤ key_len → (blockAt input j).length = 8 := by
    intro j h1 h2
    simp only [blockAt, List.length_take, List.length_drop]
    omega
  have hc : ∀ j, 1 ≤ j → 8 * j ≤ key_len → cmacTag L key key_len (blockAt input j)
      = L.E key key_len (xorBytes (blockAt input j) (cmacK1 L key key_len)) := by
    intro j h1 h2
    unfold cmacTag
    rw [hb j h1 h2, cmacTag_single L hS hB key key_len hk _ (hb j h1 h2)]
    rfl
  rcases hk with h | h <;> subst h
  · have e : cmacDerive L key 16 input
        = cmacTag L key 16 (blockAt input 1) ++ (cmacTag L key 16 (blockAt input 2) ++ []) := rfl
    rw [e, hc 1 (by omega) (by omega), hc 2 (by omega) (by omega)]
    simp [cbcDerive]
  · have e : cmacDerive L key 24 input
        = cmacTag L key 24 (blockAt input 1) ++ (cmacTag L key 24 (blockAt input 2)
          ++ (cmacTag L key 24 (blockAt input 3) ++ [])) := rfl
    rw [e, hc 1 (by omega) (by omega), hc 2 (by omega) (by omega), hc 3 (by omega) (by omega)]
    simp [cbcDerive]

theorem mockSSL_succeeds : mockSSL.Succeeds :=
  ⟨fun _ _ _ _ => rfl, fun _ _ => rfl, fun _ => rfl⟩

theorem isBlock_map_mod (f : Nat → Nat) : IsBlock ((List.range 8).map (fun i => f i % 256)) := by
  refine ⟨by simp, ?_⟩
  intro x hx
  obtain ⟨i, _, rfl⟩ := List.mem_map.1 hx
  exact Nat.mod_lt _ (by norm_num)

theorem mockSSL_blockValued : mockSSL.BlockValued :=
  fun _ _ => ⟨isBlock_map_mod _, isBlock_map_mod _⟩

theorem cbcDerive_length (L : OpenSSL) (hB : L.BlockValued) (key : Bytes) (key_len : Nat)
    (hk : key_len = 16 ∨ key_len = 24) (input : Bytes) :
    (cbcDerive L key key_len input).length = key_len := by
  have l := fun b => (isBlock_E L hB key key_len b).1
  rcases hk with h | h <;> subst h <;> simp [cbcDerive, l]

/-! ## Variant derivation -/

theorem set_take_drop (l : Bytes) (i : Nat) (v : Nat) (h : i < l.length) :
    l.set i v = l.take i ++ v :: l.drop (i + 1) := by
  rw [List.set_eq_take_append_cons_drop, if_pos h]

/-- The variant loop, started at index `i` with `m` bytes to go, replaces
bytes `i .. i + m - 1` of both outputs by the masked key bytes. -/
theorem kbpk_variant_loop_spec (kbpk : Bytes) (len : Nat) (hl : kbpk.length = len) :
    ∀ (m i fuel : Nat) (ek ak : Bytes), i + m = len → m ≤ fuel → len ≤ ek.length →
      len ≤ ak.length →
      kbpk_variant_loop kbpk len fuel i ek ak
        = (ek.take i ++ (((kbpk.drop i).take m).map (fun x => x ^^^ TR31_KBEK_VARIANT_XOR)
              ++ ek.drop (i + m)),
           ak.take i ++ (((kbpk.drop i).take m).map (fun x => x ^^^ TR31_KBAK_VARIANT_XOR)
              ++ ak.drop (i + m))) := by
  intro m
  induction m with
  | zero =>
    intro i fuel ek ak hi _ _ _
    have hnl : ¬ i < len := by omega
    cases fuel <;> simp [kbpk_variant_loop, hnl]
  | succ m ih =>
    intro i fuel ek ak hi hf hek hak
    cases fuel with
    | zero => omega
    | succ f =>
      have hlt : i < len := by omega
      have hik : i < kbpk.length := by omega
      have hget : kbpk.getD i 0 = kbpk[i] := List.getD_eq_getElem _ _ hik
      have hdrop : kbpk.drop i = kbpk[i] :: kbpk.drop (i + 1) := List.drop_eq_getElem_cons hik
      rw [kbpk_variant_loop]
      simp only [hlt, if_true]
      rw [ih (i + 1) f _ _ (by omega) (by omega) (by simpa using hek) (by simpa using hak)]
      rw [set_take_drop ek i _ (by omega), set_take_drop ak i _ (by omega)]
      have te : ∀ (l : Bytes) (v : Nat), i < l.length →
          (l.take i ++ v :: l.drop (i + 1)).take (i + 1) = l.take i ++ [v] := by
        intro l v hlen
        have : l.take i ++ v :: l.drop (i + 1) = (l.take i ++ [v]) ++ l.drop (i + 1) := by simp
        rw [this]
        exact List.take_left' (by simp [List.length_take]; omega)
      have de : ∀ (l : Bytes) (v : Nat), i < l.length →
          (l.take i ++ v :: l.drop (i + 1)).drop (i + 1 + m) = l.drop (i + (m + 1)) := by
        intro l v hlen
        have : l.take i ++ v :: l.drop (i + 1) = (l.take i ++ [v]) ++ l.drop (i + 1) := by simp
        have hl2 : (l.take i ++ [v]).length = i + 1 := by simp [List.length_take]; omega
        rw [this, ← List.drop_drop, List.drop_left' hl2, List.drop_drop]
        congr 1; omega
      rw [te ek _ (by omega), te ak _ (by omega), de ek _ (by omega), de ak _ (by omega), hdrop,
        hget]
      simp only [List.take_succ_cons, List.map_cons, List.append_assoc, List.cons_append,
        List.singleton_append, List.nil_append]

/-! ## Values of the subkeys, comparison of tags -/

theorem beVal_beBytes (n : Nat) : ∀ v, beVal (beBytes n v) = v % 256 ^ n := by
  induction n with
  | zero => intro v; simp [beVal, beBytes, Nat.mod_one]
  | succ n ih =>
    intro v
    rw [beBytes, beVal_append_singleton, ih, pow_succ', Nat.mod_mul]
    ring

theorem gf64Double_val (b : Bytes) :
    beVal (gf64Double b)
      = ((2 * beVal b) % 2 ^ 64) ^^^ (if 2 ^ 63 ≤ beVal b then 0x1B else 0) := by
  have e256 : (256 : Nat) ^ 8 = 2 ^ 64 := by norm_num
  have hlt : (2 * beVal b) % 2 ^ 64 < 2 ^ 64 := Nat.mod_lt _ (by norm_num)
  unfold gf64Double
  by_cases h : 2 ^ 63 ≤ beVal b
  · simp only [h, if_true]
    rw [beVal_beBytes, e256]
    exact Nat.mod_eq_of_lt (Nat.xor_lt_two_pow hlt (by norm_num))
  · simp only [h, if_false]
    rw [beVal_beBytes, e256, Nat.xor_zero]
    exact Nat.mod_eq_of_lt hlt

theorem memcmp_eq_zero_iff : ∀ (n : Nat) (a b : Bytes), n ≤ a.length → n ≤ b.length →
    (memcmp a b n = 0 ↔ a.take n = b.take n) := by
  intro n
  induction n with
  | zero => intro a b _ _; cases a <;> cases b <;> simp [memcmp]
  | succ n ih =>
    intro a b ha hb
    cases a with
    | nil => simp at ha
    | cons x xs =>
      cases b with
      | nil => simp at hb
      | cons y ys =>
        have := ih xs ys (by simpa using ha) (by simpa using hb)
        by_cases hxy : x = y
        · simp [memcmp, hxy, this]
        · have hne : (x : Int) - (y : Int) ≠ 0 := by omega
          simp [memcmp, hxy, hne]

theorem writeAt_zero_length_ge (buf d : Bytes) : buf.length ≤ (writeAt buf 0 d).length := by
  rw [writeAt_zero]; simp [List.length_drop]; omega

theorem encrypt_cbc_length_ge (L : OpenSSL) (key : Bytes) (key_len : Nat) (iv pt : Bytes)
    (plen : Nat) (out : Bytes) :
    out.length ≤ (tr31_tdes_encrypt_cbc L key key_len iv pt plen out).2.length := by
  have h := writeAt_zero_length_ge out
  unfold tr31_tdes_encrypt_cbc
  simp only [EVP_EncryptFinal_ex, EVP_CipherFinal_ex, writeAt_nil]
  split
  · exact Nat.le_refl _
  · split
    · exact Nat.le_refl _
    · split <;> first | exact h _ | (split <;> exact h _)

theorem cmac_length_ge (L : OpenSSL) (key : Option Bytes) (key_len : Nat) (buf : Option Bytes)
    (len : Nat) (cmac : Bytes) :
    cmac.length ≤ ((tr31_tdes_cmac L key key_len buf len (some cmac)).2.getD []).length := by
  rcases key with _ | k <;> rcases buf with _ | b
  · simp [tr31_tdes_cmac]
  · simp [tr31_tdes_cmac]
  · simp [tr31_tdes_cmac]
  · dsimp only [tr31_tdes_cmac]
    split_ifs <;> first
      | exact encrypt_cbc_length_ge _ _ _ _ _ _ _
      | exact Nat.le_refl _

theorem cbcmac_length_ge (L : OpenSSL) (key : Bytes) (key_len : Nat) (buf : Bytes)
    (len : Nat) (mac : Bytes) :
    mac.length ≤ (tr31_tdes_cbcmac L key key_len buf len mac).2.length := by
  dsimp only [tr31_tdes_cbcmac]
  split_ifs
  · exact Nat.le_refl _
  · exact writeAt_zero_length_ge _ _

/-! ## Return codes -/

theorem encrypt_ecb_nonpos (L : OpenSSL) (key : Bytes) (key_len : Nat) (pt out : Bytes) :
    (tr31_tdes_encrypt_ecb L key key_len pt out).1 ≤ 0 := by
  simp only [tr31_tdes_encrypt_ecb]
  split_ifs <;> simp only [] <;> (try split_ifs) <;> simp

theorem encrypt_cbc_nonpos (L : OpenSSL) (key : Bytes) (key_len : Nat) (iv pt : Bytes)
    (plen : Nat) (out : Bytes) :
    (tr31_tdes_encrypt_cbc L key key_len iv pt plen out).1 ≤ 0 := by
  simp only [tr31_tdes_encrypt_cbc]
  split_ifs <;> simp only [] <;> (try split_ifs) <;> simp

theorem derive_subkeys_nonpos (L : OpenSSL) (key : Bytes) (key_len : Nat) (k1 k2 : Bytes) :
    (tr31_tdes_derive_subkeys L key key_len k1 k2).1 ≤ 0 := by
  have := encrypt_ecb_nonpos L key key_len (zeros DES_BLOCK_SIZE) (zeros DES_BLOCK_SIZE)
  dsimp only [tr31_tdes_derive_subkeys]
  split_ifs <;> first
    | exact this
    | exact Int.le_refl 0

theorem kbpk_derive_key_nonpos (L : OpenSSL) (kbpk : Bytes) (kbpk_len : Nat)
    (k1 kbxk out : Bytes) : (kbpk_derive_key L kbpk kbpk_len k1 kbxk out).1 ≤ 0 := by
  dsimp only [kbpk_derive_key]
  split_ifs <;> first
    | exact encrypt_cbc_nonpos _ _ _ _ _ _ _
    | exact Int.le_refl 0

theorem kbpk_derive_nonpos (L : OpenSSL) (X : Int) (kbpk : Bytes) (kbpk_len : Nat)
    (hk : kbpk_len = 16 ∨ kbpk_len = 24) (kbek kbak : Bytes) :
    (tr31_tdes_kbpk_derive L X (some kbpk) kbpk_len (some kbek) (some kbak)).1 ≤ 0 := by
  have hd := derive_subkeys_nonpos L kbpk kbpk_len (zeros DES_BLOCK_SIZE) (zeros DES_BLOCK_SIZE)
  have hkey := kbpk_derive_key_nonpos L kbpk kbpk_len
  have hkl : ¬ (kbpk_len ≠ TDES2_KEY_SIZE ∧ kbpk_len ≠ TDES3_KEY_SIZE) := by
    simp only [TDES2_KEY_SIZE, TDES3_KEY_SIZE]; omega
  simp only [tr31_tdes_kbpk_derive, if_neg hkl]
  by_cases h1 : (tr31_tdes_derive_subkeys L kbpk kbpk_len (zeros DES_BLOCK_SIZE)
      (zeros DES_BLOCK_SIZE)).1 ≠ 0
  · rw [if_pos h1]; exact hd
  · rw [if_neg h1]
    rcases hk with h | h <;> subst h <;>
      simp only [TDES2_KEY_SIZE, TDES3_KEY_SIZE, if_true, if_false,
        show ¬ ((24 : Nat) = 16) by decide] <;>
      split_ifs <;> first
        | exact hkey _ _ _
        | exact Int.le_refl 0

/-! ## The claims -/

/-- C1: for a KBPK of 16 or 24 bytes, `tr31_tdes_kbpk_derive` returns 0
and writes a KBEK and a KBAK of `kbpk_len` bytes, each the concatenation,
for `i = 1..kbpk_len / 8`, of `tr31_tdes_cmac (KBPK, input_i)` with
`input_i` the `i`-th 8-byte block of the KBEK or KBAK derivation input;
and encrypting a block in CBC mode with the subkey `K1` as IV is what
`tr31_tdes_cmac` computes for that block as a message.  The library is
assumed to succeed and to return 8-byte blocks. -/
theorem C1_kbpk_derive_is_cmac_concat (L : OpenSSL) (hS : L.Succeeds) (hB : L.BlockValued)
    (X : Int) (kbpk : Bytes) (kbpk_len : Nat) (hk : kbpk_len = 16 ∨ kbpk_len = 24)
    (kbek kbak : Bytes) :
    tr31_tdes_kbpk_derive L X (some kbpk) kbpk_len (some kbek) (some kbak)
      = (0, some (cmacDerive L kbpk kbpk_len (kbekInput kbpk_len) ++ kbek.drop kbpk_len),
          some (cmacDerive L kbpk kbpk_len (kbakInput kbpk_len) ++ kbak.drop kbpk_len))
    ∧ (cmacDerive L kbpk kbpk_len (kbekInput kbpk_len)).length = kbpk_len
    ∧ (cmacDerive L kbpk kbpk_len (kbakInput kbpk_len)).length = kbpk_len
    ∧ ∀ b : Bytes, b.length = 8 →
        tr31_tdes_cmac L (some kbpk) kbpk_len (some b) 8 (some (zeros 8))
          = (0, some (tr31_tdes_encrypt_cbc L kbpk kbpk_len
              (tr31_tdes_derive_subkeys L kbpk kbpk_len (zeros 8) (zeros 8)).2.1 b 8
              (zeros 8)).2) := by
  have he : (kbekInput kbpk_len).length = kbpk_len := by
    rcases hk with h | h <;> subst h <;> decide
  have ha : (kbakInput kbpk_len).length = kbpk_len := by
    rcases hk with h | h <;> subst h <;> decide
  rw [cmacDerive_eq_cbcDerive L hS hB kbpk kbpk_len hk _ he,
    cmacDerive_eq_cbcDerive L hS hB kbpk kbpk_len hk _ ha]
  refine ⟨kbpk_derive_spec L hS hB X kbpk kbpk_len hk kbek kbak,
    cbcDerive_length L hB kbpk kbpk_len hk _, cbcDerive_length L hB kbpk kbpk_len hk _, ?_⟩
  intro b hb
  have hd := derive_subkeys_spec L hS hB kbpk kbpk_len hk (zeros 8) (zeros 8)
  have hz : (zeros 8).drop 8 = [] := by simp [zeros]
  rw [hz, List.append_nil, List.append_nil] at hd
  have hc := encrypt_cbc_ok L hS kbpk kbpk_len hk (cmacK1 L kbpk kbpk_len) b (zeros 8)
    (Nat.le_of_eq hb.symm)
  rw [List.take_of_length_le (Nat.le_of_eq hb), writeAt_zero_of_length _ _
    (by rw [(isBlock_E L hB kbpk kbpk_len _).1]; simp [zeros])] at hc
  rw [cmacTag_single L hS hB kbpk kbpk_len hk b hb, hd]
  simp only [cmacK1] at hc ⊢
  rw [hc]

theorem C1_kbpk_derive_is_cmac_concat_witness :
    mockSSL.Succeeds ∧ mockSSL.BlockValued ∧ ((16 : Nat) = 16 ∨ (16 : Nat) = 24) ∧
    tr31_tdes_kbpk_derive mockSSL 10 (some (List.range 16)) 16 (some (zeros 16))
        (some (zeros 16))
      = (0, some [4, 6, 9, 12, 15, 18, 21, 152, 1, 6, 9, 12, 15, 18, 21, 152],
          some [4, 6, 10, 12, 15, 18, 21, 152, 1, 6, 10, 12, 15, 18, 21, 152]) :=
  ⟨mockSSL_succeeds, mockSSL_blockValued, Or.inl rfl,
    (C1_kbpk_derive_is_cmac_concat mockSSL mockSSL_succeeds mockSSL_blockValued 10
      (List.range 16) 16 (Or.inl rfl) (zeros 16) (zeros 16)).1.trans (by decide)⟩

/-- C2: for a KBPK of 16 or 24 bytes and output buffers that hold at least
`kbpk_len` bytes, `tr31_tdes_kbpk_variant` returns 0 and overwrites exactly
the first `kbpk_len` bytes of each output, byte `i` of the KBEK being
`KBPK[i] XOR 0x45` and byte `i` of the KBAK being `KBPK[i] XOR 0x4D`. -/
theorem C2_kbpk_variant (X : Int) (kbpk : Bytes) (kbpk_len : Nat)
    (hk : kbpk_len = 16 ∨ kbpk_len = 24) (hl : kbpk.length = kbpk_len) (kbek kbak : Bytes)
    (hek : kbpk_len ≤ kbek.length) (hak : kbpk_len ≤ kbak.length) :
    tr31_tdes_kbpk_variant X (some kbpk) kbpk_len (some kbek) (some kbak)
      = (0, some (kbpk.map (fun x => x ^^^ 0x45) ++ kbek.drop kbpk_len),
          some (kbpk.map (fun x => x ^^^ 0x4D) ++ kbak.drop kbpk_len)) := by
  have hkl : ¬ (kbpk_len ≠ TDES2_KEY_SIZE ∧ kbpk_len ≠ TDES3_KEY_SIZE) := by
    simp only [TDES2_KEY_SIZE, TDES3_KEY_SIZE]; omega
  have := kbpk_variant_loop_spec kbpk kbpk_len hl kbpk_len 0 kbpk_len kbek kbak (by omega)
    (Nat.le_refl _) hek hak
  unfold tr31_tdes_kbpk_variant
  simp only [hkl, if_false, this]
  have ht : kbpk.take kbpk_len = kbpk := List.take_of_length_le (Nat.le_of_eq hl)
  simp [ht, TR31_KBEK_VARIANT_XOR, TR31_KBAK_VARIANT_XOR]

theorem C2_kbpk_variant_witness :
    ((16 : Nat) = 16 ∨ (16 : Nat) = 24) ∧ (List.range 16).length = 16 ∧
    16 ≤ (zeros 20).length ∧ 16 ≤ (zeros 16).length ∧
    tr31_tdes_kbpk_variant 10 (some (List.range 16)) 16 (some (zeros 20)) (some (zeros 16))
      = (0, some [69, 68, 71, 70, 65, 64, 67, 66, 77, 76, 79, 78, 73, 72, 75, 74, 0, 0, 0, 0],
          some [77, 76, 79, 78, 73, 72, 75, 74, 69, 68, 71, 70, 65, 64, 67, 66]) :=
  ⟨Or.inl rfl, by decide, by decide, by decide,
    (C2_kbpk_variant 10 (List.range 16) 16 (Or.inl rfl) (by decide) (zeros 20) (zeros 16)
      (by decide) (by decide)).trans (by decide)⟩

/-- C3: for a key of 16 or 24 bytes and a message of `n ≥ 1` whole 8-byte
blocks, `tr31_tdes_cmac` returns 0 and writes the 8-byte tag
`E_K (C_{n-1} XOR M_n XOR K1)`, where `C_0` is the zero block,
`C_j = E_K (C_{j-1} XOR M_j)` and `K1` is the first CMAC subkey; the
subkey `K2` does not occur.  The library is assumed to succeed and to
return 8-byte blocks. -/
theorem C3_cmac_full_blocks (L : OpenSSL) (hS : L.Succeeds) (hB : L.BlockValued) (key : Bytes)
    (key_len : Nat) (hk : key_len = 16 ∨ key_len = 24) (buf : Bytes) (n : Nat) (hn : 1 ≤ n)
    (h : 8 * n ≤ buf.length) (cmac : Bytes) :
    tr31_tdes_cmac L (some key) key_len (some buf) (8 * n) (some cmac)
      = (0, some (L.E key key_len
          (xorBytes (xorBytes (cbcChain (L.E key key_len) buf (n - 1)) (blockAt buf n))
            (cmacK1 L key key_len)) ++ cmac.drop 8))
    ∧ (L.E key key_len
          (xorBytes (xorBytes (cbcChain (L.E key key_len) buf (n - 1)) (blockAt buf n))
            (cmacK1 L key key_len))).length = 8 :=
  ⟨cmac_spec L hS hB key key_len hk buf n hn h cmac, (isBlock_E L hB key key_len _).1⟩

theorem C3_cmac_full_blocks_witness :
    mockSSL.Succeeds ∧ mockSSL.BlockValued ∧ ((16 : Nat) = 16 ∨ (16 : Nat) = 24) ∧
    1 ≤ 2 ∧ 8 * 2 ≤ (List.range 16).length ∧
    tr31_tdes_cmac mockSSL (some (List.range 16)) 16 (some (List.range 16)) (8 * 2)
        (some (zeros 8))
      = (0, some [12, 16, 12, 8, 20, 16, 20, 24]) :=
  ⟨mockSSL_succeeds, mockSSL_blockValued, Or.inl rfl, by decide, by decide,
    (C3_cmac_full_blocks mockSSL mockSSL_succeeds mockSSL_blockValued (List.range 16) 16
      (Or.inl rfl) (List.range 16) 2 (by decide) (by decide) (zeros 8)).1.trans (by decide)⟩

/-- C4: for a supported key, `tr31_tdes_derive_subkeys` returns 0 with
`K1` and `K2` the block `L = E_K (0^64)` doubled once and twice in
GF(2^64): the 64-bit big-endian value shifted left by one bit, with 0x1B
exclusive-ored into the last byte exactly when the most significant bit
was 1.  The library is assumed to succeed and to return 8-byte blocks. -/
theorem C4_derive_subkeys_doubling (L : OpenSSL) (hS : L.Succeeds) (hB : L.BlockValued)
    (key : Bytes) (key_len : Nat) (hk : key_len = 16 ∨ key_len = 24) (k1 k2 : Bytes) :
    tr31_tdes_derive_subkeys L key key_len k1 k2
      = (0, cmacK1 L key key_len ++ k1.drop 8, cmacK2 L key key_len ++ k2.drop 8)
    ∧ IsBlock (cmacK1 L key key_len) ∧ IsBlock (cmacK2 L key key_len)
    ∧ beVal (cmacK1 L key key_len)
        = ((2 * beVal (L.E key key_len (zeros 8))) % 2 ^ 64)
          ^^^ (if 2 ^ 63 ≤ beVal (L.E key key_len (zeros 8)) then 0x1B else 0)
    ∧ beVal (cmacK2 L key key_len)
        = ((2 * beVal (cmacK1 L key key_len)) % 2 ^ 64)
          ^^^ (if 2 ^ 63 ≤ beVal (cmacK1 L key key_len) then 0x1B else 0) := by
  have b1 : IsBlock (cmacK1 L key key_len) :=
    (double_step _ [] (isBlock_E L hB key key_len _)).2
  have b2 : IsBlock (cmacK2 L key key_len) := (double_step _ [] b1).2
  exact ⟨derive_subkeys_spec L hS hB key key_len hk k1 k2, b1, b2, gf64Double_val _,
    gf64Double_val _⟩

theorem C4_derive_subkeys_doubling_witness :
    mockSSL.Succeeds ∧ mockSSL.BlockValued ∧ ((24 : Nat) = 16 ∨ (24 : Nat) = 24) ∧
    tr31_tdes_derive_subkeys mockSSL (List.replicate 24 200) 24 (zeros 8) (zeros 8)
      = (0, [35, 35, 35, 35, 35, 35, 35, 57], [70, 70, 70, 70, 70, 70, 70, 114]) :=
  ⟨mockSSL_succeeds, mockSSL_blockValued, Or.inr rfl,
    (C4_derive_subkeys_doubling mockSSL mockSSL_succeeds mockSSL_blockValued
      (List.replicate 24 200) 24 (Or.inr rfl) (zeros 8) (zeros 8)).1.trans (by decide)⟩

/-- C5: for a key of 16 or 24 bytes and a message of `n` whole 8-byte
blocks, `tr31_tdes_cbcmac` returns 0 and writes the leading 4 bytes of the
last block `C_n` of the CBC chain started from the zero IV.  The library is
assumed to succeed and to return 8-byte blocks. -/
theorem C5_cbcmac_full_blocks (L : OpenSSL) (hS : L.Succeeds) (hB : L.BlockValued)
    (key : Bytes) (key_len : Nat) (hk : key_len = 16 ∨ key_len = 24) (buf : Bytes) (n : Nat)
    (hn : 1 ≤ n) (h : 8 * n ≤ buf.length) (mac : Bytes) :
    tr31_tdes_cbcmac L key key_len buf (8 * n) mac
      = (0, (cbcChain (L.E key key_len) buf n).take 4 ++ mac.drop 4) := by
  have hl := cbcmac_loop_spec L hS hB key key_len hk buf n h n 0 (8 * n) (by omega) (by omega)
  simp only [Nat.mul_zero, List.drop_zero, cbcChain] at hl
  have hc := cbcChain_length L hB key key_len buf n
  unfold tr31_tdes_cbcmac
  simp only [DES_BLOCK_SIZE, DES_MAC_SIZE, hl, ne_eq, not_true_eq_false, if_false]
  rw [writeAt_zero]
  simp [List.length_take, hc]

theorem C5_cbcmac_full_blocks_witness :
    mockSSL.Succeeds ∧ mockSSL.BlockValued ∧ ((16 : Nat) = 16 ∨ (16 : Nat) = 24) ∧
    1 ≤ 2 ∧ 8 * 2 ≤ (List.range 16).length ∧
    tr31_tdes_cbcmac mockSSL (List.range 16) 16 (List.range 16) (8 * 2) (zeros 4)
      = (0, [10, 12, 18, 16]) :=
  ⟨mockSSL_succeeds, mockSSL_blockValued, Or.inl rfl, by decide, by decide,
    (C5_cbcmac_full_blocks mockSSL mockSSL_succeeds mockSSL_blockValued (List.range 16) 16
      (Or.inl rfl) (List.range 16) 2 (by decide) (by decide) (zeros 4)).trans (by decide)⟩

/-- Function `tr31_tdes_verify_cmac` returns 0 exactly when `tr31_tdes_cmac`
returns 0 and the 8 bytes its local array then holds equal the candidate;
`stack` is what the array held before.  Whether `tr31_tdes_cmac` wrote
those bytes is another matter, see `cmac_without_cbc`. -/
theorem verify_cmac_eq_zero_iff (L : OpenSSL) (stack : Bytes) (hs : 8 ≤ stack.length)
    (key : Option Bytes) (key_len : Nat) (buf : Option Bytes) (len : Nat) (cmac_verify : Bytes)
    (hc : 8 ≤ cmac_verify.length) :
    tr31_tdes_verify_cmac L stack key key_len buf len cmac_verify = 0 ↔
      (tr31_tdes_cmac L key key_len buf len (some stack)).1 = 0 ∧
      ((tr31_tdes_cmac L key key_len buf len (some stack)).2.getD []).take 8
        = cmac_verify.take 8 := by
  have hlen := Nat.le_trans hs (cmac_length_ge L key key_len buf len stack)
  unfold tr31_tdes_verify_cmac
  simp only [DES_BLOCK_SIZE]
  by_cases hr : (tr31_tdes_cmac L key key_len buf len (some stack)).1 = 0
  · simp only [hr, ne_eq, not_true_eq_false, if_false, true_and]
    exact memcmp_eq_zero_iff 8 _ _ hlen hc
  · simp [hr]

/-- Function `tr31_tdes_verify_cbcmac` returns 0 exactly when
`tr31_tdes_cbcmac` returns 0 and the 4 bytes of the computed MAC equal the
candidate; `stack` is what the local array held before. -/
theorem verify_cbcmac_eq_zero_iff (L : OpenSSL) (stack : Bytes) (hs : 4 ≤ stack.length)
    (key : Bytes) (key_len : Nat) (buf : Bytes) (len : Nat) (mac_verify : Bytes)
    (hm : 4 ≤ mac_verify.length) :
    tr31_tdes_verify_cbcmac L stack key key_len buf len mac_verify = 0 ↔
      (tr31_tdes_cbcmac L key key_len buf len stack).1 = 0 ∧
      (tr31_tdes_cbcmac L key key_len buf len stack).2.take 4 = mac_verify.take 4 := by
  have hlen := Nat.le_trans hs (cbcmac_length_ge L key key_len buf len stack)
  unfold tr31_tdes_verify_cbcmac
  simp only [DES_MAC_SIZE]
  by_cases hr : (tr31_tdes_cbcmac L key key_len buf len stack).1 = 0
  · simp only [hr, ne_eq, not_true_eq_false, if_false, true_and]
    exact memcmp_eq_zero_iff 4 _ _ hlen hm
  · simp [hr]

/-- With a library that offers no CBC cipher every `tr31_tdes_encrypt_cbc`
call for a 16-byte key fails at the init call: the result is -2 and the
output buffer is as it was. -/
theorem encrypt_cbc_without_cbc (key iv pt out : Bytes) :
    tr31_tdes_encrypt_cbc ecbOnlySSL key 16 iv pt 8 out = (-2, out) := by
  have h87 : (8 &&& 7 : Nat) = 0 := by decide
  simp [tr31_tdes_encrypt_cbc, EVP_EncryptInit_ex, EVP_CipherInit_ex, ecbOnlySSL,
    EVP_CIPHER.isCbc, DES_BLOCK_SIZE, TDES2_KEY_SIZE, h87]

/-- With a library that offers no CBC cipher `tr31_tdes_cmac` of a one-block
message returns 0 and leaves the output buffer as it was, whatever it
held. -/
theorem cmac_without_cbc (stack : Bytes) :
    tr31_tdes_cmac ecbOnlySSL (some (List.range 16)) 16 (some [1, 2, 3, 4, 5, 6, 7, 8]) 8
      (some stack) = (0, some stack) := by
  have hd : (tr31_tdes_derive_subkeys ecbOnlySSL (List.range 16) 16 (zeros DES_BLOCK_SIZE)
      (zeros DES_BLOCK_SIZE)).1 = 0 := by decide
  have h8 : DES_BLOCK_SIZE = 8 := rfl
  have h87 : (8 &&& (8 - 1) : Nat) = 0 := by decide
  rw [h8] at hd
  simp only [tr31_tdes_cmac, h8, encrypt_cbc_without_cbc]
  rw [if_neg (by decide), if_neg (not_not.2 h87), if_neg (not_not.2 hd)]
  simp

/-- Claim C6 (what the code does): `tr31_tdes_verify_cmac` can return 0
after a computation error.  With a cipher library that offers no CBC cipher
(the subkeys are derived with the ECB cipher), a 16-byte key and a
one-block message, the `tr31_tdes_encrypt_cbc` call for the last block
returns -2 and writes nothing, `tr31_tdes_cmac` returns 0 all the same, and
`tr31_tdes_verify_cmac` compares the candidate with the bytes `stack` that
its uninitialised local array `cmac[8]` happens to hold: it returns 0
exactly for the candidate that equals those bytes. -/
theorem C6_verify_cmac_accepts_uncomputed_tag (stack cmac_verify : Bytes)
    (hs : stack.length = 8) (hc : 8 ≤ cmac_verify.length) :
    (∀ iv pt out : Bytes,
      tr31_tdes_encrypt_cbc ecbOnlySSL (List.range 16) 16 iv pt 8 out = (-2, out))
    ∧ tr31_tdes_cmac ecbOnlySSL (some (List.range 16)) 16 (some [1, 2, 3, 4, 5, 6, 7, 8]) 8
        (some stack) = (0, some stack)
    ∧ tr31_tdes_verify_cmac ecbOnlySSL stack (some (List.range 16)) 16
        (some [1, 2, 3, 4, 5, 6, 7, 8]) 8 stack = 0
    ∧ (tr31_tdes_verify_cmac ecbOnlySSL stack (some (List.range 16)) 16
        (some [1, 2, 3, 4, 5, 6, 7, 8]) 8 cmac_verify = 0 ↔ cmac_verify.take 8 = stack) := by
  have hiff : ∀ cv : Bytes, 8 ≤ cv.length →
      (tr31_tdes_verify_cmac ecbOnlySSL stack (some (List.range 16)) 16
        (some [1, 2, 3, 4, 5, 6, 7, 8]) 8 cv = 0 ↔ cv.take 8 = stack) := by
    intro cv hcv
    rw [verify_cmac_eq_zero_iff ecbOnlySSL stack (by omega) _ _ _ _ cv hcv, cmac_without_cbc]
    simp only [Option.getD_some, true_and]
    rw [List.take_of_length_le (by omega)]
    exact eq_comm
  refine ⟨fun iv pt out => encrypt_cbc_without_cbc _ iv pt out, cmac_without_cbc stack, ?_,
    hiff cmac_verify hc⟩
  exact (hiff stack (by omega)).2 (List.take_of_length_le (by omega))

/-- Claim C6 at a local array that holds eight zero bytes: the all-zero
candidate is accepted although no tag was computed. -/
theorem C6_verify_cmac_accepts_uncomputed_tag_witness :
    (zeros 8).length = 8 ∧ 8 ≤ (zeros 8).length
    ∧ tr31_tdes_verify_cmac ecbOnlySSL (zeros 8) (some (List.range 16)) 16
        (some [1, 2, 3, 4, 5, 6, 7, 8]) 8 (zeros 8) = 0 :=
  ⟨by decide, by decide,
    (C6_verify_cmac_accepts_uncomputed_tag (zeros 8) (zeros 8) (by decide) (by decide)).2.2.1⟩

/-- C7: each of the four TDES derivation-input constants is the
concatenation of its blocks `i = 1..n` (`n = 2` for a 16-byte KBPK, `n = 3`
for a 24-byte KBPK), block `i` being counter byte `i`, 2-byte purpose
(0x0000 KBEK, 0x0001 KBAK), a zero separator byte, 2-byte algorithm
(0x0000 TDES-128, 0x0001 TDES-192) and the 2-byte big-endian bit length
of the derived key (0x0080 or 0x00C0). -/
theorem C7_derivation_input_layout :
    tr31_derive_kbek_tdes2_input
      = derivationBlock 1 0x0000 0x0000 128 ++ derivationBlock 2 0x0000 0x0000 128
    ∧ tr31_derive_kbek_tdes3_input
      = derivationBlock 1 0x0000 0x0001 192 ++ derivationBlock 2 0x0000 0x0001 192
        ++ derivationBlock 3 0x0000 0x0001 192
    ∧ tr31_derive_kbak_tdes2_input
      = derivationBlock 1 0x0001 0x0000 128 ++ derivationBlock 2 0x0001 0x0000 128
    ∧ tr31_derive_kbak_tdes3_input
      = derivationBlock 1 0x0001 0x0001 192 ++ derivationBlock 2 0x0001 0x0001 192
        ++ derivationBlock 3 0x0001 0x0001 192
    ∧ (∀ i ∈ [1, 2], blockAt tr31_derive_kbek_tdes2_input i = derivationBlock i 0 0 0x0080)
    ∧ (∀ i ∈ [1, 2, 3], blockAt tr31_derive_kbek_tdes3_input i = derivationBlock i 0 1 0x00C0)
    ∧ (∀ i ∈ [1, 2], blockAt tr31_derive_kbak_tdes2_input i = derivationBlock i 1 0 0x0080)
    ∧ (∀ i ∈ [1, 2, 3], blockAt tr31_derive_kbak_tdes3_input i = derivationBlock i 1 1 0x00C0) := by
  decide

/-- C8: for non-null arguments, and the error code
`TR31_ERROR_UNSUPPORTED_KBPK_LENGTH` a positive enumerator, each of
`tr31_tdes_kbpk_variant` and `tr31_tdes_kbpk_derive` returns that code if
and only if `kbpk_len` is neither 16 nor 24, and then leaves the `kbek` and
`kbak` buffers as they were. -/
theorem C8_unsupported_kbpk_length (L : OpenSSL) (X : Int) (hX : 0 < X) (kbpk : Bytes)
    (kbpk_len : Nat) (kbek kbak : Bytes) :
    ((tr31_tdes_kbpk_variant X (some kbpk) kbpk_len (some kbek) (some kbak)).1 = X
        ↔ (kbpk_len ≠ 16 ∧ kbpk_len ≠ 24))
    ∧ ((tr31_tdes_kbpk_derive L X (some kbpk) kbpk_len (some kbek) (some kbak)).1 = X
        ↔ (kbpk_len ≠ 16 ∧ kbpk_len ≠ 24))
    ∧ ((kbpk_len ≠ 16 ∧ kbpk_len ≠ 24) →
        tr31_tdes_kbpk_variant X (some kbpk) kbpk_len (some kbek) (some kbak)
          = (X, some kbek, some kbak)
        ∧ tr31_tdes_kbpk_derive L X (some kbpk) kbpk_len (some kbek) (some kbak)
          = (X, some kbek, some kbak)) := by
  by_cases hk : kbpk_len = 16 ∨ kbpk_len = 24
  · have hn : ¬ (kbpk_len ≠ 16 ∧ kbpk_len ≠ 24) := by omega
    have hkl : ¬ (kbpk_len ≠ TDES2_KEY_SIZE ∧ kbpk_len ≠ TDES3_KEY_SIZE) := hn
    have hd := kbpk_derive_nonpos L X kbpk kbpk_len hk kbek kbak
    refine ⟨?_, ?_, fun h => absurd h hn⟩
    · simp only [tr31_tdes_kbpk_variant, hkl, if_false, hn, iff_false]
      omega
    · simp only [hn, iff_false]
      omega
  · have hn : kbpk_len ≠ 16 ∧ kbpk_len ≠ 24 := by omega
    have hkl : kbpk_len ≠ TDES2_KEY_SIZE ∧ kbpk_len ≠ TDES3_KEY_SIZE := hn
    have e1 : tr31_tdes_kbpk_variant X (some kbpk) kbpk_len (some kbek) (some kbak)
        = (X, some kbek, some kbak) := by
      simp only [tr31_tdes_kbpk_variant]; rw [if_pos hkl]
    have e2 : tr31_tdes_kbpk_derive L X (some kbpk) kbpk_len (some kbek) (some kbak)
        = (X, some kbek, some kbak) := by
      simp only [tr31_tdes_kbpk_derive]; rw [if_pos hkl]
    refine ⟨?_, ?_, fun _ => ⟨e1, e2⟩⟩
    · rw [e1]; simp [hn]
    · rw [e2]; simp [hn]

theorem C8_unsupported_kbpk_length_witness :
    (0 : Int) < 10 ∧
    tr31_tdes_kbpk_variant 10 (some (List.range 17)) 17 (some (zeros 17)) (some (zeros 17))
        = (10, some (zeros 17), some (zeros 17))
    ∧ tr31_tdes_kbpk_derive mockSSL 10 (some (List.range 17)) 17 (some (zeros 17))
          (some (zeros 17))
        = (10, some (zeros 17), some (zeros 17)) :=
  ⟨by decide,
    (C8_unsupported_kbpk_length mockSSL 10 (by decide) (List.range 17) 17 (zeros 17)
      (zeros 17)).2.2 ⟨by decide, by decide⟩⟩

/-- C9: `tr31_tdes_encrypt_ecb` and `tr31_tdes_decrypt_ecb` return 0 if and
only if `key_len` is 16 or 24 and every library call they make succeeds;
`tr31_tdes_encrypt_cbc` and `tr31_tdes_decrypt_cbc` return 0 if and only if
the data length is a multiple of 8, `key_len` is 16 or 24 and every library
call they make succeeds.  In every other case the result is not 0. -/
theorem C9_wrapper_return_codes (L : OpenSSL) (key : Bytes) (key_len : Nat)
    (iv input output : Bytes) (len : Nat) :
    ((tr31_tdes_encrypt_ecb L key key_len input output).1 = 0 ↔
      (key_len = 16 ∧ evpCallsSucceed L true .des_ede_ecb key none input 8)
      ∨ (key_len = 24 ∧ evpCallsSucceed L true .des_ede3_ecb key none input 8))
    ∧ ((tr31_tdes_decrypt_ecb L key key_len input output).1 = 0 ↔
      (key_len = 16 ∧ evpCallsSucceed L false .des_ede_ecb key none input 8)
      ∨ (key_len = 24 ∧ evpCallsSucceed L false .des_ede3_cbc key none input 8))
    ∧ ((tr31_tdes_encrypt_cbc L key key_len iv input len output).1 = 0 ↔
      len % 8 = 0 ∧
      ((key_len = 16 ∧ evpCallsSucceed L true .des_ede_cbc key (some iv) input len)
      ∨ (key_len = 24 ∧ evpCallsSucceed L true .des_ede3_cbc key (some iv) input len)))
    ∧ ((tr31_tdes_decrypt_cbc L key key_len iv input len output).1 = 0 ↔
      len % 8 = 0 ∧
      ((key_len = 16 ∧ evpCallsSucceed L false .des_ede_cbc key (some iv) input len)
      ∨ (key_len = 24 ∧ evpCallsSucceed L false .des_ede3_cbc key (some iv) input len))) := by
  have h7 : len &&& (DES_BLOCK_SIZE - 1) = len % 8 := and_seven len
  refine ⟨?_, ?_, ?_, ?_⟩
  · simp only [tr31_tdes_encrypt_ecb, evpCallsSucceed, EVP_EncryptInit_ex, EVP_EncryptUpdate,
      EVP_EncryptFinal_ex, TDES2_KEY_SIZE, TDES3_KEY_SIZE, DES_BLOCK_SIZE]
    split_ifs <;> simp_all <;> split_ifs <;> simp_all
  · simp only [tr31_tdes_decrypt_ecb, evpCallsSucceed, EVP_DecryptInit_ex, EVP_DecryptUpdate,
      EVP_DecryptFinal_ex, TDES2_KEY_SIZE, TDES3_KEY_SIZE, DES_BLOCK_SIZE]
    split_ifs <;> simp_all <;> split_ifs <;> simp_all
  · simp only [tr31_tdes_encrypt_cbc, evpCallsSucceed, EVP_EncryptInit_ex, EVP_EncryptUpdate,
      EVP_EncryptFinal_ex, TDES2_KEY_SIZE, TDES3_KEY_SIZE, h7]
    split_ifs <;> simp_all <;> split_ifs <;> simp_all
  · simp only [tr31_tdes_decrypt_cbc, evpCallsSucceed, EVP_DecryptInit_ex, EVP_DecryptUpdate,
      EVP_DecryptFinal_ex, TDES2_KEY_SIZE, TDES3_KEY_SIZE, h7]
    split_ifs <;> simp_all <;> split_ifs <;> simp_all

/-- C10 (what the code does): for a supported key and a library that
succeeds, `tr31_tdes_cmac` returns 0 on the empty message (`len = 0`),
and returns -3, leaving the output untouched, on every length that is not
a multiple of 8. -/
theorem C10_cmac_empty_message_accepted (L : OpenSSL) (hS : L.Succeeds) (key : Bytes)
    (key_len : Nat) (hk : key_len = 16 ∨ key_len = 24) (buf cmac : Bytes) :
    (tr31_tdes_cmac L (some key) key_len (some buf) 0 (some cmac)).1 = 0
    ∧ ∀ len, len % 8 ≠ 0 →
        tr31_tdes_cmac L (some key) key_len (some buf) len (some cmac) = (-3, some cmac) := by
  have hkl : ¬ (key_len ≠ TDES2_KEY_SIZE ∧ key_len ≠ TDES3_KEY_SIZE) := by
    simp only [TDES2_KEY_SIZE, TDES3_KEY_SIZE]; omega
  constructor
  · have hecb := encrypt_ecb_ok L hS key key_len hk (zeros 8) (zeros 8) (by simp [zeros])
    have hd : (tr31_tdes_derive_subkeys L key key_len (zeros DES_BLOCK_SIZE)
        (zeros DES_BLOCK_SIZE)).1 = 0 := by
      simp only [tr31_tdes_derive_subkeys, DES_BLOCK_SIZE, hecb, ne_eq, not_true_eq_false,
        if_false]
    have h0 : ¬ ((0 : Nat) &&& (DES_BLOCK_SIZE - 1) ≠ 0) := by simp
    have hgt : ¬ ((0 : Nat) > DES_BLOCK_SIZE) := by simp
    simp only [tr31_tdes_cmac, hkl, h0, if_false, hd, ne_eq, not_true_eq_false, hgt]
  · intro len hlen
    have h7 : len &&& (DES_BLOCK_SIZE - 1) ≠ 0 := by
      rw [show DES_BLOCK_SIZE - 1 = 7 from rfl, and_seven]; exact hlen
    simp only [tr31_tdes_cmac, hkl, if_false, h7, ne_eq, not_false_eq_true, if_true]

theorem C10_cmac_empty_message_accepted_witness :
    mockSSL.Succeeds ∧ ((16 : Nat) = 16 ∨ (16 : Nat) = 24) ∧
    (tr31_tdes_cmac mockSSL (some (List.range 16)) 16 (some []) 0 (some (zeros 8))).1 = 0 :=
  ⟨mockSSL_succeeds, Or.inl rfl,
    (C10_cmac_empty_message_accepted mockSSL mockSSL_succeeds (List.range 16) 16 (Or.inl rfl)
      [] (zeros 8)).1⟩

/-! ## Decryption of one block -/

theorem xorBytes_zeros_right (b : Bytes) (n : Nat) (h : b.length ≤ n) :
    xorBytes b (zeros n) = b := by
  rw [xorBytes_comm]; exact xorBytes_zeros b n h

theorem mockSSL_inverts : mockSSL.Inverts := by
  intro key b hb
  obtain ⟨a0, a1, a2, a3, a4, a5, a6, a7, rfl⟩ := length_eight b hb.1
  have h := hb.2
  simp only [List.mem_cons, List.mem_singleton, List.not_mem_nil, or_false,
    forall_eq_or_imp, forall_eq] at h
  obtain ⟨h0, h1, h2, h3, h4, h5, h6, h7⟩ := h
  constructor
  · simp only [mockSSL, List.range, List.range.loop, List.map, List.getD_cons_zero,
      List.getD_cons_succ, List.cons.injEq, and_true]
    refine ⟨?_, ?_, ?_, ?_, ?_, ?_, ?_, ?_⟩ <;> omega
  · simp only [mockSSL, List.range, List.range.loop, List.map, List.getD_cons_zero,
      List.getD_cons_succ, List.cons.injEq, and_true]
    refine ⟨?_, ?_, ?_, ?_, ?_, ?_, ?_, ?_⟩ <;> omega

/-- With a library that succeeds, `tr31_tdes_decrypt_ecb` on one block
applies the backward permutation; for a 24-byte key this is CBC decryption
against the zero IV of a new context. -/
theorem decrypt_ecb_ok (L : OpenSSL) (hS : L.Succeeds) (key : Bytes) (key_len : Nat)
    (hk : key_len = 16 ∨ key_len = 24) (ct out : Bytes) (hp : 8 ≤ ct.length) :
    tr31_tdes_decrypt_ecb L key key_len ct out
      = (0, writeAt out 0
          (if key_len = 16 then L.ede_dec (key.take 16) (ct.take 8)
           else xorBytes (L.ede3_dec (key.take 24) (ct.take 8)) (zeros 8))) := by
  obtain ⟨hi, hu, hf⟩ := hS
  have h8 := take8_length ct hp
  have ht : List.take 8 (List.take 8 ct) = List.take 8 ct := by rw [List.take_take]; simp
  rcases hk with rfl | rfl <;>
    simp [tr31_tdes_decrypt_ecb, ht, EVP_DecryptInit_ex, EVP_CipherInit_ex, hi, hu, hf,
      EVP_CIPHER_CTX_set_padding, EVP_DecryptUpdate, EVP_CipherUpdate, EVP_DecryptFinal_ex,
      EVP_CipherFinal_ex, TDES2_KEY_SIZE, TDES3_KEY_SIZE, DES_BLOCK_SIZE, h8, ecbBlocks,
      cbcDecBlocks, OpenSSL.blockFn, EVP_CIPHER.isCbc, EVP_CIPHER.isEde3,
      EVP_CIPHER.keyLength, writeAt_nil, EVP_CIPHER_CTX_new]

/-- C11 (what the code does): with a cipher library that offers the ECB
ciphers only, `tr31_tdes_encrypt_ecb` succeeds for 16-byte and 24-byte
keys and `tr31_tdes_decrypt_ecb` succeeds for a 16-byte key, but
`tr31_tdes_decrypt_ecb` fails with -2 for a 24-byte key: the cipher it
initialises there is the CBC-mode `des_ede3_cbc`, not `des_ede3_ecb`. -/
theorem C11_decrypt_ecb_triple_key_inits_cbc :
    (tr31_tdes_encrypt_ecb ecbOnlySSL (List.range 16) 16 (zeros 8) (zeros 8)).1 = 0
    ∧ (tr31_tdes_encrypt_ecb ecbOnlySSL (List.range 24) 24 (zeros 8) (zeros 8)).1 = 0
    ∧ (tr31_tdes_decrypt_ecb ecbOnlySSL (List.range 16) 16 (zeros 8) (zeros 8)).1 = 0
    ∧ tr31_tdes_decrypt_ecb ecbOnlySSL (List.range 24) 24 (zeros 8) (zeros 8)
        = (-2, zeros 8)
    ∧ (EVP_DecryptInit_ex ecbOnlySSL EVP_CIPHER_CTX_new .des_ede3_ecb (List.range 24) none).1
        = true
    ∧ (EVP_DecryptInit_ex ecbOnlySSL EVP_CIPHER_CTX_new .des_ede3_cbc (List.range 24) none).1
        = false := by
  decide

/-- C16: for a key of 16 or 24 bytes and an 8-byte block `b`,
`tr31_tdes_encrypt_ecb` succeeds and `tr31_tdes_decrypt_ecb` under the same
key turns its output back into `b`, returning 0; for the 24-byte key this
is the single-block CBC decryption with no IV supplied.  The library is
assumed to succeed, to return 8-byte blocks, and to decrypt what it
encrypted. -/
theorem C16_decrypt_ecb_inverts_encrypt_ecb (L : OpenSSL) (hS : L.Succeeds)
    (hB : L.BlockValued) (hI : L.Inverts) (key : Bytes) (key_len : Nat)
    (hk : key_len = 16 ∨ key_len = 24) (b : Bytes) (hb : IsBlock b) (out : Bytes) :
    (tr31_tdes_encrypt_ecb L key key_len b (zeros 8)).1 = 0
    ∧ tr31_tdes_decrypt_ecb L key key_len
        (tr31_tdes_encrypt_ecb L key key_len b (zeros 8)).2 out
      = (0, b ++ out.drop 8) := by
  have hbt : b.take 8 = b := List.take_of_length_le (Nat.le_of_eq hb.1)
  have he := encrypt_ecb_ok L hS key key_len hk b (zeros 8) (Nat.le_of_eq hb.1.symm)
  have hE := isBlock_E L hB key key_len b
  rw [hbt, writeAt_zero_of_length _ _ (by rw [hE.1]; simp [zeros])] at he
  have hEt : (L.E key key_len b).take 8 = L.E key key_len b :=
    List.take_of_length_le (Nat.le_of_eq hE.1)
  have hd := decrypt_ecb_ok L hS key key_len hk (L.E key key_len b) out
    (Nat.le_of_eq hE.1.symm)
  rw [hEt] at hd
  have hval : (if key_len = 16 then L.ede_dec (key.take 16) (L.E key key_len b)
      else xorBytes (L.ede3_dec (key.take 24) (L.E key key_len b)) (zeros 8)) = b := by
    rcases hk with h | h <;> subst h
    · simp only [OpenSSL.E, if_true]
      exact (hI _ b hb).1
    · simp only [OpenSSL.E, show ¬ ((24 : Nat) = 16) by decide, if_false]
      rw [(hI _ b hb).2]
      exact xorBytes_zeros_right b 8 (Nat.le_of_eq hb.1)
  rw [hval, writeAt_zero, hb.1] at hd
  rw [he]
  exact ⟨rfl, hd⟩

theorem C16_decrypt_ecb_inverts_encrypt_ecb_witness :
    mockSSL.Succeeds ∧ mockSSL.BlockValued ∧ mockSSL.Inverts ∧
    ((24 : Nat) = 16 ∨ (24 : Nat) = 24) ∧ IsBlock [1, 2, 3, 4, 5, 6, 7, 255] ∧
    tr31_tdes_decrypt_ecb mockSSL (List.range 24) 24
        (tr31_tdes_encrypt_ecb mockSSL (List.range 24) 24 [1, 2, 3, 4, 5, 6, 7, 255]
          (zeros 8)).2 (zeros 8)
      = (0, [1, 2, 3, 4, 5, 6, 7, 255]) :=
  ⟨mockSSL_succeeds, mockSSL_blockValued, mockSSL_inverts, Or.inr rfl, by decide,
    (C16_decrypt_ecb_inverts_encrypt_ecb mockSSL mockSSL_succeeds mockSSL_blockValued
      mockSSL_inverts (List.range 24) 24 (Or.inr rfl) [1, 2, 3, 4, 5, 6, 7, 255] (by decide)
      (zeros 8)).2.trans (by decide)⟩

/-- C17 (what the code does): when the `tr31_tdes_encrypt_cbc` call for the
last block fails, `tr31_tdes_cmac` still returns 0 and leaves the output
buffer as it was.  Here the library offers no CBC cipher, the subkeys are
derived with the ECB cipher, and the message is one block. -/
theorem C17_cmac_ignores_last_block_failure :
    (tr31_tdes_derive_subkeys ecbOnlySSL (List.range 16) 16 (zeros 8) (zeros 8)).1 = 0
    ∧ (tr31_tdes_encrypt_cbc ecbOnlySSL (List.range 16) 16
        (tr31_tdes_derive_subkeys ecbOnlySSL (List.range 16) 16 (zeros 8) (zeros 8)).2.1
        [1, 2, 3, 4, 5, 6, 7, 8] 8 [9, 9, 9, 9, 9, 9, 9, 9]).1 = -2
    ∧ tr31_tdes_cmac ecbOnlySSL (some (List.range 16)) 16 (some [1, 2, 3, 4, 5, 6, 7, 8]) 8
        (some [9, 9, 9, 9, 9, 9, 9, 9])
      = (0, some [9, 9, 9, 9, 9, 9, 9, 9]) := by
  decide

/-- C18: for the empty message (`len = 0`) `tr31_tdes_cbcmac` returns 0 and
writes the MAC 00 00 00 00, for every key, every `key_len` and every cipher
library, so without any cipher call; and `tr31_tdes_verify_cbcmac` accepts
the all-zero 4-byte tag for the empty message under every key, whatever its
local array held before. -/
theorem C18_cbcmac_empty_message (L : OpenSSL) (key : Bytes) (key_len : Nat) (buf mac : Bytes)
    (rest : Bytes) :
    tr31_tdes_cbcmac L key key_len buf 0 mac = (0, [0, 0, 0, 0] ++ mac.drop 4)
    ∧ tr31_tdes_verify_cbcmac L mac key key_len buf 0 ([0, 0, 0, 0] ++ rest) = 0 := by
  have h : tr31_tdes_cbcmac L key key_len buf 0 mac = (0, [0, 0, 0, 0] ++ mac.drop 4) := by
    simp [tr31_tdes_cbcmac, cbcmac_loop, writeAt, zeros, DES_BLOCK_SIZE, DES_MAC_SIZE]
  constructor
  · simp [tr31_tdes_cbcmac, cbcmac_loop, writeAt, zeros, DES_BLOCK_SIZE, DES_MAC_SIZE]
  · simp only [tr31_tdes_verify_cbcmac, DES_MAC_SIZE] at h ⊢
    rw [h]
    simp [memcmp]

/-! ## The blocks the MAC loops read -/

theorem encrypt_cbc_take8 (L : OpenSSL) (key : Bytes) (key_len : Nat) (iv ptr out : Bytes) :
    tr31_tdes_encrypt_cbc L key key_len iv ptr DES_BLOCK_SIZE out
      = tr31_tdes_encrypt_cbc L key key_len iv (ptr.take 8) DES_BLOCK_SIZE out := by
  have ht : List.take 8 (List.take 8 ptr) = List.take 8 ptr := by rw [List.take_take]; simp
  simp only [tr31_tdes_encrypt_cbc, EVP_EncryptUpdate, EVP_CipherUpdate, DES_BLOCK_SIZE, ht]

theorem blocksAt_succ (ptr : Bytes) (m : Nat) :
    blocksAt ptr (m + 1) = ptr.take 8 :: blocksAt (ptr.drop 8) m := by
  unfold blocksAt
  rw [List.range_succ_eq_map, List.map_cons, List.map_map]
  simp only [Nat.mul_zero, List.drop_zero, List.cons.injEq, true_and]
  apply List.map_congr_left
  intro j _
  simp only [Function.comp, List.drop_drop]
  congr 2
  omega

theorem block_in_prefix (buf : Bytes) (n j : Nat) (hj : j < n) :
    ((buf.take (8 * n)).drop (8 * j)).take 8 = (buf.drop (8 * j)).take 8 := by
  rw [List.drop_take, List.take_take]
  congr 1
  omega

theorem blocksAt_take (buf : Bytes) (n : Nat) : blocksAt (buf.take (8 * n)) n = blocksAt buf n := by
  unfold blocksAt
  apply List.map_congr_left
  intro j hj
  exact block_in_prefix buf n j (List.mem_range.1 hj)

theorem blocks_agree (buf buf2 : Bytes) (n : Nat) (h : buf.take (8 * n) = buf2.take (8 * n))
    (j : Nat) (hj : j < n) : (buf.drop (8 * j)).take 8 = (buf2.drop (8 * j)).take 8 := by
  rw [← block_in_prefix buf n j hj, ← block_in_prefix buf2 n j hj, h]

theorem blocksAt_agree (buf buf2 : Bytes) (n : Nat) (h : buf.take (8 * n) = buf2.take (8 * n))
    (m : Nat) (hm : m ≤ n) : blocksAt buf m = blocksAt buf2 m := by
  unfold blocksAt
  apply List.map_congr_left
  intro j hj
  exact blocks_agree buf buf2 n h j (by have := List.mem_range.1 hj; omega)

theorem cbcmac_loop_rounds (L : OpenSSL) (key : Bytes) (key_len len : Nat) :
    ∀ (m fuel i : Nat) (ptr iv : Bytes), m ≤ fuel → (len - i + 7) / 8 = m →
      cbcmac_loop L key key_len len fuel i ptr iv
        = cbcRounds L key key_len (blocksAt ptr m) iv := by
  intro m
  induction m with
  | zero =>
    intro fuel i ptr iv _ hm
    have hnl : ¬ i < len := by omega
    cases fuel <;> simp [cbcmac_loop, hnl, blocksAt, cbcRounds]
  | succ m ih =>
    intro fuel i ptr iv hf hm
    cases fuel with
    | zero => omega
    | succ f =>
      have hlt : i < len := by omega
      rw [cbcmac_loop, blocksAt_succ, cbcRounds, ← encrypt_cbc_take8]
      simp only [hlt, if_true]
      split
      · rfl
      · exact ih f (i + DES_BLOCK_SIZE) _ _ (by omega) (by simp only [DES_BLOCK_SIZE]; omega)

theorem cmac_loop_rounds (L : OpenSSL) (key : Bytes) (key_len len : Nat) :
    ∀ (m fuel i : Nat) (ptr iv : Bytes), m ≤ fuel → (len - DES_BLOCK_SIZE - i + 7) / 8 = m →
      (cmac_loop L key key_len len fuel i ptr iv).1
          = (cbcRounds L key key_len (blocksAt ptr m) iv).1
      ∧ (cmac_loop L key key_len len fuel i ptr iv).2.2
          = (cbcRounds L key key_len (blocksAt ptr m) iv).2
      ∧ ((cbcRounds L key key_len (blocksAt ptr m) iv).1 = 0 →
          (cmac_loop L key key_len len fuel i ptr iv).2.1 = ptr.drop (8 * m)) := by
  intro m
  induction m with
  | zero =>
    intro fuel i ptr iv _ hm
    have hnl : ¬ i < len - DES_BLOCK_SIZE := by omega
    cases fuel <;> simp [cmac_loop, hnl, blocksAt, cbcRounds]
  | succ m ih =>
    intro fuel i ptr iv hf hm
    cases fuel with
    | zero => omega
    | succ f =>
      have hlt : i < len - DES_BLOCK_SIZE := by omega
      rw [cmac_loop, blocksAt_succ, cbcRounds, ← encrypt_cbc_take8]
      simp only [hlt, if_true]
      split
      · rename_i hne
        exact ⟨rfl, rfl, fun h0 => absurd h0 hne⟩
      · have := ih f (i + DES_BLOCK_SIZE) (ptr.drop DES_BLOCK_SIZE)
          (tr31_tdes_encrypt_cbc L key key_len iv ptr DES_BLOCK_SIZE iv).2 (by omega)
          (by simp only [DES_BLOCK_SIZE] at hm ⊢; omega)
        refine ⟨this.1, this.2.1, fun h0 => ?_⟩
        rw [this.2.2 h0, List.drop_drop]
        congr 1
        simp only [DES_BLOCK_SIZE]; omega

/-- The calls `tr31_tdes_cbcmac` makes, for every length and every cipher
library: one round for each of the `(len + 7) / 8` blocks. -/
theorem cbcmac_rounds (L : OpenSSL) (key : Bytes) (key_len : Nat) (buf : Bytes) (len : Nat)
    (mac : Bytes) :
    tr31_tdes_cbcmac L key key_len buf len mac
      = (if (cbcRounds L key key_len (blocksAt buf ((len + 7) / 8)) (zeros 8)).1 ≠ 0
          then ((cbcRounds L key key_len (blocksAt buf ((len + 7) / 8)) (zeros 8)).1, mac)
          else (0, writeAt mac 0
            ((cbcRounds L key key_len (blocksAt buf ((len + 7) / 8)) (zeros 8)).2.take 4))) := by
  have h := cbcmac_loop_rounds L key key_len len ((len + 7) / 8) len 0 buf (zeros 8) (by omega)
    (by simp)
  simp only [tr31_tdes_cbcmac, DES_BLOCK_SIZE, DES_MAC_SIZE, h]

/-- The calls `tr31_tdes_cmac` makes on a message of `n ≥ 1` blocks, for
every cipher library: one round for each of the first `n - 1` blocks, and
the last call on the block at offset `8 * (n - 1)`. -/
theorem cmac_rounds (L : OpenSSL) (key : Bytes) (key_len : Nat) (buf : Bytes) (n : Nat)
    (hn : 1 ≤ n) (cmac : Bytes) :
    tr31_tdes_cmac L (some key) key_len (some buf) (8 * n) (some cmac)
      = (if key_len ≠ 16 ∧ key_len ≠ 24 then (-2, some cmac)
         else if (tr31_tdes_derive_subkeys L key key_len (zeros 8) (zeros 8)).1 ≠ 0
          then ((tr31_tdes_derive_subkeys L key key_len (zeros 8) (zeros 8)).1, some cmac)
         else if (cbcRounds L key key_len (blocksAt buf (n - 1)) (zeros 8)).1 ≠ 0
          then ((cbcRounds L key key_len (blocksAt buf (n - 1)) (zeros 8)).1, some cmac)
         else (0, some (tr31_tdes_encrypt_cbc L key key_len
            (tr31_xor (cbcRounds L key key_len (blocksAt buf (n - 1)) (zeros 8)).2
              (tr31_tdes_derive_subkeys L key key_len (zeros 8) (zeros 8)).2.1 8)
            ((buf.drop (8 * (n - 1))).take 8) 8 cmac).2)) := by
  have hal : ¬ ((8 * n) &&& (DES_BLOCK_SIZE - 1) ≠ 0) := by
    simp [DES_BLOCK_SIZE, and_seven]
  obtain ⟨l1, l2, l3⟩ := cmac_loop_rounds L key key_len (8 * n) (n - 1) (8 * n) 0 buf (zeros 8)
    (by omega) (by simp only [DES_BLOCK_SIZE]; omega)
  have hlp : (if 8 * n > DES_BLOCK_SIZE
      then cmac_loop L key key_len (8 * n) (8 * n) 0 buf (zeros DES_BLOCK_SIZE)
      else (0, buf, zeros DES_BLOCK_SIZE))
      = cmac_loop L key key_len (8 * n) (8 * n) 0 buf (zeros 8) := by
    by_cases h1 : n = 1
    · subst h1; simp [DES_BLOCK_SIZE, cmac_loop]
    · have hgt : 8 * n > DES_BLOCK_SIZE := by simp only [DES_BLOCK_SIZE]; omega
      rw [if_pos hgt]; rfl
  simp only [tr31_tdes_cmac, TDES2_KEY_SIZE, TDES3_KEY_SIZE, hal, if_false, hlp]
  by_cases hk : key_len ≠ 16 ∧ key_len ≠ 24
  · rw [if_pos hk, if_pos hk]
  · simp only [hk, if_false]
    by_cases hd : (tr31_tdes_derive_subkeys L key key_len (zeros 8) (zeros 8)).1 ≠ 0
    · simp only [DES_BLOCK_SIZE, hd, if_true, ne_eq, not_false_eq_true]
    · simp only [DES_BLOCK_SIZE, hd, if_false, l1, l2]
      by_cases hr : (cbcRounds L key key_len (blocksAt buf (n - 1)) (zeros 8)).1 ≠ 0
      · simp only [hr, if_true, ne_eq, not_false_eq_true]
      · simp only [hr, if_false]
        have h0 : (cbcRounds L key key_len (blocksAt buf (n - 1)) (zeros 8)).1 = 0 := by
          simpa using hr
        rw [l3 h0]
        have := encrypt_cbc_take8 L key key_len
          (tr31_xor (cbcRounds L key key_len (blocksAt buf (n - 1)) (zeros 8)).2
            (tr31_tdes_derive_subkeys L key key_len (zeros 8) (zeros 8)).2.1 8)
          (buf.drop (8 * (n - 1))) cmac
        simp only [DES_BLOCK_SIZE] at this
        rw [this]

/-- C19: on a message of `len = 8 * n` bytes with `n ≥ 1`,
`tr31_tdes_cbcmac` makes its rounds on exactly the `n` blocks at offsets
`0, 8, ..., len - 8`, and `tr31_tdes_cmac` on the first `n - 1` of them
followed by the last call on the block at offset `len - 8`; no byte at an
index `≥ len` is read, so two buffers that agree on their first `len` bytes
give the same results.  `tr31_tdes_cbcmac` has no alignment check: for
every `len` it makes its rounds on `(len + 7) / 8` whole blocks, so for
`len = 4` the one block it reads holds bytes 0 to 7.  This holds for every
cipher library, a failing call ending the rounds early. -/
theorem C19_mac_loops_read_whole_blocks (L : OpenSSL) (key : Bytes) (key_len : Nat)
    (buf buf2 : Bytes) (n : Nat) (hn : 1 ≤ n) (hagree : buf.take (8 * n) = buf2.take (8 * n))
    (mac cmac : Bytes) :
    tr31_tdes_cbcmac L key key_len buf (8 * n) mac
      = (if (cbcRounds L key key_len (blocksAt buf n) (zeros 8)).1 ≠ 0
          then ((cbcRounds L key key_len (blocksAt buf n) (zeros 8)).1, mac)
          else (0, writeAt mac 0 ((cbcRounds L key key_len (blocksAt buf n) (zeros 8)).2.take 4)))
    ∧ tr31_tdes_cmac L (some key) key_len (some buf) (8 * n) (some cmac)
      = (if key_len ≠ 16 ∧ key_len ≠ 24 then (-2, some cmac)
         else if (tr31_tdes_derive_subkeys L key key_len (zeros 8) (zeros 8)).1 ≠ 0
          then ((tr31_tdes_derive_subkeys L key key_len (zeros 8) (zeros 8)).1, some cmac)
         else if (cbcRounds L key key_len (blocksAt buf (n - 1)) (zeros 8)).1 ≠ 0
          then ((cbcRounds L key key_len (blocksAt buf (n - 1)) (zeros 8)).1, some cmac)
         else (0, some (tr31_tdes_encrypt_cbc L key key_len
            (tr31_xor (cbcRounds L key key_len (blocksAt buf (n - 1)) (zeros 8)).2
              (tr31_tdes_derive_subkeys L key key_len (zeros 8) (zeros 8)).2.1 8)
            ((buf.drop (8 * (n - 1))).take 8) 8 cmac).2))
    ∧ blocksAt buf n = blocksAt (buf.take (8 * n)) n
    ∧ tr31_tdes_cbcmac L key key_len buf (8 * n) mac
        = tr31_tdes_cbcmac L key key_len buf2 (8 * n) mac
    ∧ tr31_tdes_cmac L (some key) key_len (some buf) (8 * n) (some cmac)
        = tr31_tdes_cmac L (some key) key_len (some buf2) (8 * n) (some cmac)
    ∧ (∀ len, tr31_tdes_cbcmac L key key_len buf len mac
      = (if (cbcRounds L key key_len (blocksAt buf ((len + 7) / 8)) (zeros 8)).1 ≠ 0
          then ((cbcRounds L key key_len (blocksAt buf ((len + 7) / 8)) (zeros 8)).1, mac)
          else (0, writeAt mac 0
            ((cbcRounds L key key_len (blocksAt buf ((len + 7) / 8)) (zeros 8)).2.take 4))))
    ∧ blocksAt [1, 2, 3, 4, 5, 6, 7, 8] ((4 + 7) / 8) = [[1, 2, 3, 4, 5, 6, 7, 8]] := by
  have hc : ∀ b : Bytes, tr31_tdes_cbcmac L key key_len b (8 * n) mac
      = (if (cbcRounds L key key_len (blocksAt b n) (zeros 8)).1 ≠ 0
          then ((cbcRounds L key key_len (blocksAt b n) (zeros 8)).1, mac)
          else (0, writeAt mac 0
            ((cbcRounds L key key_len (blocksAt b n) (zeros 8)).2.take 4))) := by
    intro b
    have := cbcmac_rounds L key key_len b (8 * n) mac
    have e : (8 * n + 7) / 8 = n := by omega
    rw [e] at this
    exact this
  have hb : blocksAt buf n = blocksAt buf2 n := blocksAt_agree buf buf2 n hagree n (Nat.le_refl n)
  have hb1 : blocksAt buf (n - 1) = blocksAt buf2 (n - 1) :=
    blocksAt_agree buf buf2 n hagree (n - 1) (by omega)
  have hlast : (buf.drop (8 * (n - 1))).take 8 = (buf2.drop (8 * (n - 1))).take 8 :=
    blocks_agree buf buf2 n hagree (n - 1) (by omega)
  refine ⟨hc buf, cmac_rounds L key key_len buf n hn cmac, (blocksAt_take buf n).symm, ?_, ?_,
    fun len => cbcmac_rounds L key key_len buf len mac, by decide⟩
  · rw [hc buf, hc buf2, hb]
  · rw [cmac_rounds L key key_len buf n hn cmac, cmac_rounds L key key_len buf2 n hn cmac, hb1,
      hlast]

theorem C19_mac_loops_read_whole_blocks_witness :
    1 ≤ 2 ∧ (List.range 16 ++ [7, 7]).take (8 * 2) = (List.range 16 ++ [9]).take (8 * 2) ∧
    tr31_tdes_cbcmac mockSSL (List.range 16) 16 (List.range 16 ++ [7, 7]) (8 * 2) (zeros 4)
      = tr31_tdes_cbcmac mockSSL (List.range 16) 16 (List.range 16 ++ [9]) (8 * 2) (zeros 4)
    ∧ tr31_tdes_cmac mockSSL (some (List.range 16)) 16 (some (List.range 16 ++ [7, 7])) (8 * 2)
        (some (zeros 8))
      = tr31_tdes_cmac mockSSL (some (List.range 16)) 16 (some (List.range 16 ++ [9])) (8 * 2)
        (some (zeros 8)) :=
  ⟨by decide, by decide,
    (C19_mac_loops_read_whole_blocks mockSSL (List.range 16) 16 (List.range 16 ++ [7, 7])
      (List.range 16 ++ [9]) 2 (by decide) (by decide) (zeros 4) (zeros 8)).2.2.2.1,
    (C19_mac_loops_read_whole_blocks mockSSL (List.range 16) 16 (List.range 16 ++ [7, 7])
      (List.range 16 ++ [9]) 2 (by decide) (by decide) (zeros 4) (zeros 8)).2.2.2.2.1⟩

/-! ## Distinctness of the derived keys -/

theorem variant_xor_const (k : Nat) : (k ^^^ 0x45) ^^^ (k ^^^ 0x4D) = 0x08 := by
  rw [Nat.xor_comm k 0x45, Nat.xor_assoc, ← Nat.xor_assoc k k, Nat.xor_self, Nat.zero_xor]
  decide

theorem kbpk_variant_spec (X : Int) (kbpk : Bytes) (kbpk_len : Nat)
    (hk : kbpk_len = 16 ∨ kbpk_len = 24) (hl : kbpk.length = kbpk_len) (kbek kbak : Bytes)
    (hek : kbpk_len ≤ kbek.length) (hak : kbpk_len ≤ kbak.length) :
    tr31_tdes_kbpk_variant X (some kbpk) kbpk_len (some kbek) (some kbak)
      = (0, some (kbpk.map (fun x => x ^^^ 0x45) ++ kbek.drop kbpk_len),
          some (kbpk.map (fun x => x ^^^ 0x4D) ++ kbak.drop kbpk_len)) := by
  have hkl : ¬ (kbpk_len ≠ TDES2_KEY_SIZE ∧ kbpk_len ≠ TDES3_KEY_SIZE) := by
    simp only [TDES2_KEY_SIZE, TDES3_KEY_SIZE]; omega
  have := kbpk_variant_loop_spec kbpk kbpk_len hl kbpk_len 0 kbpk_len kbek kbak (by omega)
    (Nat.le_refl _) hek hak
  unfold tr31_tdes_kbpk_variant
  simp only [hkl, if_false, this]
  have ht : kbpk.take kbpk_len = kbpk := List.take_of_length_le (Nat.le_of_eq hl)
  simp [ht, TR31_KBEK_VARIANT_XOR, TR31_KBAK_VARIANT_XOR]

theorem xorBytes_lt (a k : Bytes) (ha : ∀ x ∈ a, x < 256) (hk : ∀ y ∈ k, y < 256) :
    ∀ z ∈ xorBytes a k, z < 256 := by
  induction a generalizing k with
  | nil => intro z hz; simp [xorBytes] at hz
  | cons x xs ih =>
    cases k with
    | nil => intro z hz; simp [xorBytes] at hz
    | cons y ys =>
      intro z hz
      simp only [xorBytes, List.zipWith_cons_cons, List.mem_cons] at hz
      rcases hz with rfl | hz
      · have hx : x < 2 ^ 8 := by simpa using ha x (by simp)
        have hy : y < 2 ^ 8 := by simpa using hk y (by simp)
        simpa using Nat.xor_lt_two_pow hx hy
      · exact ih ys (fun x hx => ha x (by simp [hx])) (fun y hy => hk y (by simp [hy])) z hz

theorem isBlock_xorBytes (a k : Bytes) (ha : IsBlock a) (hk : IsBlock k) :
    IsBlock (xorBytes a k) :=
  ⟨by rw [xorBytes_length, ha.1, hk.1]; rfl, xorBytes_lt a k ha.2 hk.2⟩

theorem xorBytes_right_cancel (k : Bytes) : ∀ (a b : Bytes), a.length = b.length →
    a.length ≤ k.length → xorBytes a k = xorBytes b k → a = b := by
  induction k with
  | nil =>
    intro a b hab hak _
    have ha : a = [] := List.length_eq_zero.1 (by simpa using hak)
    have hb : b = [] := List.length_eq_zero.1 (by rw [← hab]; simpa using hak)
    rw [ha, hb]
  | cons y ys ih =>
    intro a b hab hak h
    cases a with
    | nil =>
      cases b with
      | nil => rfl
      | cons _ _ => simp at hab
    | cons x xs =>
      cases b with
      | nil => simp at hab
      | cons z zs =>
        simp only [xorBytes, List.zipWith_cons_cons, List.cons.injEq] at h
        have h1 : x = z := Nat.xor_left_inj.1 h.1
        have h2 := ih xs zs (by simpa using hab) (by simpa using hak) h.2
        rw [h1, h2]

theorem blocksAt_append_block (a t : Bytes) (m : Nat) (ha : a.length = 8) :
    blocksAt (a ++ t) (m + 1) = a :: blocksAt t m := by
  rw [blocksAt_succ, List.take_left' ha, List.drop_left' ha]

theorem mockSSL_injectiveOnBlocks : mockSSL.InjectiveOnBlocks := by
  intro key b c hb hc
  obtain ⟨b0, b1, b2, b3, b4, b5, b6, b7, rfl⟩ := length_eight b hb.1
  obtain ⟨c0, c1, c2, c3, c4, c5, c6, c7, rfl⟩ := length_eight c hc.1
  have h := hb.2
  have h' := hc.2
  simp only [List.mem_cons, List.mem_singleton, List.not_mem_nil, or_false,
    forall_eq_or_imp, forall_eq] at h h'
  obtain ⟨h0, h1, h2, h3, h4, h5, h6, h7⟩ := h
  obtain ⟨g0, g1, g2, g3, g4, g5, g6, g7⟩ := h'
  constructor
  · intro e
    simp only [mockSSL, List.range, List.range.loop, List.map, List.getD_cons_zero,
      List.getD_cons_succ, List.cons.injEq, and_true] at e
    obtain ⟨e0, e1, e2, e3, e4, e5, e6, e7⟩ := e
    simp only [List.cons.injEq, and_true]
    refine ⟨?_, ?_, ?_, ?_, ?_, ?_, ?_, ?_⟩ <;> omega
  · intro e
    simp only [mockSSL, List.range, List.range.loop, List.map, List.getD_cons_zero,
      List.getD_cons_succ, List.cons.injEq, and_true] at e
    obtain ⟨e0, e1, e2, e3, e4, e5, e6, e7⟩ := e
    simp only [List.cons.injEq, and_true]
    refine ⟨?_, ?_, ?_, ?_, ?_, ?_, ?_, ?_⟩ <;> omega

/-- The masked and encrypted blocks of a list of distinct input blocks are
distinct, when the block cipher is injective on blocks. -/
theorem derived_blocks_nodup (L : OpenSSL) (hJ : L.InjectiveOnBlocks) (key : Bytes)
    (key_len : Nat) (k1 : Bytes) (hk1 : IsBlock k1) (ins : List Bytes)
    (hins : ∀ b ∈ ins, IsBlock b) (hnd : ins.Nodup) :
    (ins.map (fun b => L.E key key_len (xorBytes b k1))).Nodup := by
  apply List.Nodup.map_on _ hnd
  intro x hx y hy hxy
  have bx := isBlock_xorBytes x k1 (hins x hx) hk1
  have by' := isBlock_xorBytes y k1 (hins y hy) hk1
  have hxor : xorBytes x k1 = xorBytes y k1 := by
    unfold OpenSSL.E at hxy
    split at hxy
    · exact (hJ _ _ _ bx by').1 hxy
    · exact (hJ _ _ _ bx by').2 hxy
  exact xorBytes_right_cancel k1 x y (by rw [(hins x hx).1, (hins y hy).1])
    (by rw [(hins x hx).1, hk1.1]) hxor

theorem derived_key_blocks (L : OpenSSL) (hB : L.BlockValued) (key : Bytes) (key_len : Nat)
    (hk : key_len = 16 ∨ key_len = 24) (input rest : Bytes) :
    blocksAt (cbcDerive L key key_len input ++ rest) (key_len / 8)
      = (blocksAt input (key_len / 8)).map
          (fun b => L.E key key_len (xorBytes b (cmacK1 L key key_len))) := by
  have l := fun b => (isBlock_E L hB key key_len b).1
  rcases hk with h | h <;> subst h
  · have e : (16 : Nat) / 8 = 1 + 1 := by norm_num
    rw [e]
    simp only [cbcDerive, show ¬ ((16 : Nat) = 24) by decide, if_false, List.append_nil,
      List.append_assoc]
    rw [blocksAt_append_block _ _ _ (l _), blocksAt_append_block _ _ _ (l _)]
    simp [blocksAt, blockAt, List.range_succ]
  · have e : (24 : Nat) / 8 = 2 + 1 := by norm_num
    rw [e]
    simp only [cbcDerive, if_true, List.append_assoc]
    rw [blocksAt_append_block _ _ _ (l _), blocksAt_append_block _ _ _ (l _),
      blocksAt_append_block _ _ _ (l _)]
    simp [blocksAt, blockAt, List.range_succ]

/-- C20: for a KBPK of 16 or 24 bytes, `tr31_tdes_kbpk_variant` yields
`KBEK[i] XOR KBAK[i] = 0x08` at every byte `i`, and, when the block cipher
is injective on blocks, `tr31_tdes_kbpk_derive` yields keys whose 8-byte
blocks, those of the KBEK and those of the KBAK together, are pairwise
distinct; in both cases the two keys are not equal.  For the derivation
the library is assumed to succeed and to return 8-byte blocks. -/
theorem C20_derived_keys_differ (L : OpenSSL) (hS : L.Succeeds) (hB : L.BlockValued)
    (hJ : L.InjectiveOnBlocks) (X : Int) (kbpk : Bytes) (kbpk_len : Nat)
    (hk : kbpk_len = 16 ∨ kbpk_len = 24) (hl : kbpk.length = kbpk_len) (kbek kbak : Bytes)
    (hek : kbpk_len ≤ kbek.length) (hak : kbpk_len ≤ kbak.length) :
    (∀ i, i < kbpk_len →
      ((tr31_tdes_kbpk_variant X (some kbpk) kbpk_len (some kbek) (some kbak)).2.1.getD []).getD
          i 0
        ^^^ ((tr31_tdes_kbpk_variant X (some kbpk) kbpk_len (some kbek)
          (some kbak)).2.2.getD []).getD i 0
        = 0x08)
    ∧ ((tr31_tdes_kbpk_variant X (some kbpk) kbpk_len (some kbek) (some kbak)).2.1.getD []).take
          kbpk_len
        ≠ ((tr31_tdes_kbpk_variant X (some kbpk) kbpk_len (some kbek)
          (some kbak)).2.2.getD []).take kbpk_len
    ∧ (blocksAt ((tr31_tdes_kbpk_derive L X (some kbpk) kbpk_len (some kbek)
          (some kbak)).2.1.getD []) (kbpk_len / 8)
        ++ blocksAt ((tr31_tdes_kbpk_derive L X (some kbpk) kbpk_len (some kbek)
          (some kbak)).2.2.getD []) (kbpk_len / 8)).Nodup
    ∧ ((tr31_tdes_kbpk_derive L X (some kbpk) kbpk_len (some kbek) (some kbak)).2.1.getD []).take
          kbpk_len
        ≠ ((tr31_tdes_kbpk_derive L X (some kbpk) kbpk_len (some kbek)
          (some kbak)).2.2.getD []).take kbpk_len := by
  have hv := kbpk_variant_spec X kbpk kbpk_len hk hl kbek kbak hek hak
  have hd := kbpk_derive_spec L hS hB X kbpk kbpk_len hk kbek kbak
  have hbyte : ∀ i, i < kbpk_len →
      (kbpk.map (fun x => x ^^^ 0x45) ++ kbek.drop kbpk_len).getD i 0
        ^^^ (kbpk.map (fun x => x ^^^ 0x4D) ++ kbak.drop kbpk_len).getD i 0 = 0x08 := by
    intro i hi
    have hi' : i < kbpk.length := by omega
    rw [List.getD_eq_getElem?_getD, List.getD_eq_getElem?_getD,
      List.getElem?_append_left (by simpa using hi'),
      List.getElem?_append_left (by simpa using hi')]
    simp only [List.getElem?_map, List.getElem?_eq_getElem hi', Option.map_some',
      Option.getD_some]
    exact variant_xor_const _
  have hnd : (blocksAt (cbcDerive L kbpk kbpk_len (kbekInput kbpk_len) ++ kbek.drop kbpk_len)
        (kbpk_len / 8)
      ++ blocksAt (cbcDerive L kbpk kbpk_len (kbakInput kbpk_len) ++ kbak.drop kbpk_len)
        (kbpk_len / 8)).Nodup := by
    rw [derived_key_blocks L hB kbpk kbpk_len hk, derived_key_blocks L hB kbpk kbpk_len hk,
      ← List.map_append]
    have hK : IsBlock (cmacK1 L kbpk kbpk_len) :=
      (double_step _ [] (isBlock_E L hB kbpk kbpk_len _)).2
    apply derived_blocks_nodup L hJ kbpk kbpk_len _ hK
    · rcases hk with h | h <;> subst h <;> decide
    · rcases hk with h | h <;> subst h <;> decide
  have h8 : 8 * (kbpk_len / 8) = kbpk_len := by omega
  have hpos : 0 < kbpk_len / 8 := by omega
  have neq_of_nodup : ∀ (a b : Bytes), (blocksAt a (kbpk_len / 8)
      ++ blocksAt b (kbpk_len / 8)).Nodup → a.take kbpk_len ≠ b.take kbpk_len := by
    intro a b hn heq
    have e : blocksAt a (kbpk_len / 8) = blocksAt b (kbpk_len / 8) :=
      blocksAt_agree a b (kbpk_len / 8) (by rw [h8]; exact heq) _ (Nat.le_refl _)
    rw [e] at hn
    have hne : blocksAt b (kbpk_len / 8) ≠ [] := by
      intro h0
      have := congrArg List.length h0
      simp only [blocksAt, List.length_map, List.length_range, List.length_nil] at this
      omega
    obtain ⟨x, xs, hx⟩ := List.exists_cons_of_ne_nil hne
    rw [hx] at hn
    have := (List.nodup_append.1 hn).2.2
    exact this (List.mem_cons_self x xs) (List.mem_cons_self x xs)
  rw [hv, hd]
  simp only [Option.getD_some]
  refine ⟨hbyte, ?_, hnd, neq_of_nodup _ _ hnd⟩
  intro heq
  have h0 := hbyte 0 (by omega)
  have e0 : (kbpk.map (fun x => x ^^^ 0x45) ++ kbek.drop kbpk_len).getD 0 0
      = (kbpk.map (fun x => x ^^^ 0x4D) ++ kbak.drop kbpk_len).getD 0 0 := by
    have hz : 0 < kbpk_len := by omega
    have t : ∀ l : Bytes, l.getD 0 0 = (l.take kbpk_len).getD 0 0 := by
      intro l
      rw [List.getD_eq_getElem?_getD, List.getD_eq_getElem?_getD, List.getElem?_take_of_lt hz]
    rw [t, t (kbpk.map (fun x => x ^^^ 0x4D) ++ kbak.drop kbpk_len), heq]
  rw [e0, Nat.xor_self] at h0
  exact absurd h0 (by decide)

theorem C20_derived_keys_differ_witness :
    mockSSL.Succeeds ∧ mockSSL.BlockValued ∧ mockSSL.InjectiveOnBlocks ∧
    ((24 : Nat) = 16 ∨ (24 : Nat) = 24) ∧ (List.range 24).length = 24 ∧
    24 ≤ (zeros 24).length ∧
    (blocksAt ((tr31_tdes_kbpk_derive mockSSL 10 (some (List.range 24)) 24 (some (zeros 24))
          (some (zeros 24))).2.1.getD []) (24 / 8)
        ++ blocksAt ((tr31_tdes_kbpk_derive mockSSL 10 (some (List.range 24)) 24
          (some (zeros 24)) (some (zeros 24))).2.2.getD []) (24 / 8)).Nodup :=
  ⟨mockSSL_succeeds, mockSSL_blockValued, mockSSL_injectiveOnBlocks, Or.inr rfl, by decide,
    by decide,
    (C20_derived_keys_differ mockSSL mockSSL_succeeds mockSSL_blockValued
      mockSSL_injectiveOnBlocks 10 (List.range 24) 24 (Or.inr rfl) (by decide) (zeros 24)
      (zeros 24) (by decide) (by decide)).2.2.1⟩

/-- C14 (what the code does): when the command line parses, the key block
starts with one of the version characters `A` to `D`, and `tr31_import`
returns a non-zero error, `main` reports the error on `stderr`, goes on to
print the key block details, and ends with exit status 0, not 1. -/
theorem C14_main_exit_status_after_import_error (argc : Nat) (hargc : argc ≠ 1)
    (key_block : Bytes) (kbpk_buf_len : Nat) (kbpk_buf : Bytes)
    (tr31_import : Bytes → Option tr31_key_t → Int)
    (hv : key_block.getD 0 0 = TR31_VERSION_A ∨ key_block.getD 0 0 = TR31_VERSION_B
      ∨ key_block.getD 0 0 = TR31_VERSION_C ∨ key_block.getD 0 0 = TR31_VERSION_D)
    (herr : ∀ kbpk, tr31_import key_block kbpk ≠ 0) :
    (main argc (.returned 0 key_block kbpk_buf_len kbpk_buf) tr31_import).1 = 0
    ∧ ∃ r, r ≠ 0 ∧
      (main argc (.returned 0 key_block kbpk_buf_len kbpk_buf) tr31_import).2
        = [ToolDiag.import_error r] := by
  have hA : TR31_VERSION_D ≠ TR31_VERSION_A := by decide
  have hB : TR31_VERSION_D ≠ TR31_VERSION_B := by decide
  have hC : TR31_VERSION_D ≠ TR31_VERSION_C := by decide
  rw [List.getD_eq_getElem?_getD] at hv
  by_cases hk : kbpk_buf_len ≠ 0
  · rcases hv with h | h | h | h <;>
      simp [main, hargc, h, hk, herr, hA, hB, hC]
  · rcases hv with h | h | h | h <;>
      simp [main, hargc, h, hk, herr, hA, hB, hC]

theorem C14_main_exit_status_after_import_error_witness :
    (3 : Nat) ≠ 1 ∧
    (main 3 (.returned 0 (ascii ("A0072P0TE00E0000")) 0 (zeros 32)) (fun _ _ => 7)).1 = 0
    ∧ (main 3 (.returned 0 (ascii ("A0072P0TE00E0000")) 0 (zeros 32)) (fun _ _ => 7)).2
        = [ToolDiag.import_error 7] :=
  ⟨by decide,
    (C14_main_exit_status_after_import_error 3 (by decide) (ascii ("A0072P0TE00E0000")) 0
      (zeros 32) (fun _ _ => 7) (Or.inl (by decide)) (fun _ => (by decide : (7 : Int) ≠ 0))).1,
    by decide⟩

/-! ## Lengths in the emitted key block -/

theorem hexDigits_length (w : Nat) : ∀ n, (hexDigits w n).length = w := by
  induction w with
  | zero => intro n; rfl
  | succ w ih => intro n; simp [hexDigits, ih]

theorem decDigits_length (w : Nat) : ∀ n, (decDigits w n).length = w := by
  induction w with
  | zero => intro n; rfl
  | succ w ih => intro n; simp [decDigits, ih]

theorem toHexU_length (bs : Bytes) : (toHexU bs).length = 2 * bs.length := by
  induction bs with
  | nil => rfl
  | cons b bs ih =>
    have : toHexU (b :: bs) = hexDigits 2 b ++ toHexU bs := by simp [toHexU]
    rw [this, List.length_append, hexDigits_length, ih, List.length_cons]
    ring

theorem decValue_append_singleton (s : Bytes) (c : Nat) :
    decValue (s ++ [c]) = 10 * decValue s + (c - 48) := by
  simp [decValue, List.foldl_append]

theorem decValue_decDigits (w : Nat) : ∀ n, decValue (decDigits w n) = n % 10 ^ w := by
  induction w with
  | zero => intro n; simp [decValue, decDigits, Nat.mod_one]
  | succ w ih =>
    intro n
    rw [decDigits, decValue_append_singleton, ih, pow_succ', Nat.mod_mul]
    omega

theorem beBytes_length (n : Nat) : ∀ v, (beBytes n v).length = n := by
  induction n with
  | zero => intro v; rfl
  | succ n ih => intro v; simp [beBytes, ih]

theorem padLen_spec (keyLen : Nat) :
    (2 + keyLen + padLen 8 keyLen) % 8 = 0
    ∧ ∀ p, (2 + keyLen + p) % 8 = 0 → padLen 8 keyLen ≤ p := by
  unfold padLen
  constructor
  · omega
  · intro p hp; omega

theorem writeAt_zero_length_eq (out o : Bytes) (h : o.length ≤ out.length) :
    (writeAt out 0 o).length = out.length := by
  rw [writeAt_zero]; simp [List.length_drop]; omega

theorem cbcEncBlocks_length (f : Bytes → Bytes) (hf : ∀ b, (f b).length = 8) :
    ∀ (n : Nat) (iv data : Bytes), (cbcEncBlocks f n iv data).1.length = 8 * n := by
  intro n
  induction n with
  | zero => intro iv data; rfl
  | succ n ih =>
    intro iv data
    simp only [cbcEncBlocks, List.length_append, hf, ih]
    ring

/-- The output buffer of `tr31_tdes_encrypt_cbc` keeps its length when it
holds at least `plen` bytes and the cipher returns 8-byte blocks. -/
theorem encrypt_cbc_length_eq (L : OpenSSL) (hB : L.BlockValued) (key : Bytes) (key_len : Nat)
    (iv pt : Bytes) (plen : Nat) (out : Bytes) (h : plen ≤ out.length) :
    (tr31_tdes_encrypt_cbc L key key_len iv pt plen out).2.length = out.length := by
  have hl2 : ∀ k n i d, (cbcEncBlocks (L.ede_enc k) n i d).1.length = 8 * n :=
    fun k => cbcEncBlocks_length _ (fun b => (hB k b).1.1)
  have hl3 : ∀ k n i d, (cbcEncBlocks (L.ede3_enc k) n i d).1.length = 8 * n :=
    fun k => cbcEncBlocks_length _ (fun b => (hB k b).2.1)
  have hdata : 8 * ((pt.take plen).length / 8) ≤ out.length := by
    have : (pt.take plen).length ≤ plen := by simp [List.length_take]
    omega
  have w2 : ∀ k i, (writeAt out 0
      (cbcEncBlocks (L.ede_enc k) ((pt.take plen).length / 8) i (pt.take plen)).1).length
      = out.length := fun k i => writeAt_zero_length_eq _ _ (by rw [hl2]; exact hdata)
  have w3 : ∀ k i, (writeAt out 0
      (cbcEncBlocks (L.ede3_enc k) ((pt.take plen).length / 8) i (pt.take plen)).1).length
      = out.length := fun k i => writeAt_zero_length_eq _ _ (by rw [hl3]; exact hdata)
  simp only [tr31_tdes_encrypt_cbc, EVP_EncryptInit_ex, EVP_CipherInit_ex, EVP_EncryptUpdate,
    EVP_CipherUpdate, EVP_EncryptFinal_ex, EVP_CipherFinal_ex, EVP_CIPHER_CTX_set_padding,
    EVP_CIPHER_CTX_new, OpenSSL.blockFn, EVP_CIPHER.isCbc, EVP_CIPHER.isEde3, writeAt_nil]
  split_ifs <;> simp only [] <;> (try split_ifs) <;>
    first
      | rfl
      | exact w2 _ _
      | exact w3 _ _

theorem cmac_length_eq (L : OpenSSL) (hB : L.BlockValued) (key : Option Bytes) (key_len : Nat)
    (buf : Option Bytes) (len : Nat) (cmac : Bytes) (h : 8 ≤ cmac.length) :
    ((tr31_tdes_cmac L key key_len buf len (some cmac)).2.getD []).length = cmac.length := by
  rcases key with _ | k <;> rcases buf with _ | b
  · simp [tr31_tdes_cmac]
  · simp [tr31_tdes_cmac]
  · simp [tr31_tdes_cmac]
  · dsimp only [tr31_tdes_cmac]
    split_ifs <;> first
      | exact encrypt_cbc_length_eq L hB _ _ _ _ _ _ h
      | rfl

theorem cbcmac_length_eq (L : OpenSSL) (key : Bytes) (key_len : Nat) (buf : Bytes)
    (len : Nat) (mac : Bytes) (h : 4 ≤ mac.length) :
    (tr31_tdes_cbcmac L key key_len buf len mac).2.length = mac.length := by
  dsimp only [tr31_tdes_cbcmac]
  split_ifs
  · rfl
  · exact writeAt_zero_length_eq _ _ (by simp [List.length_take, DES_MAC_SIZE]; omega)

theorem keyVersionField_length (kv : tr31_key_version_t) (f : Bytes)
    (h : keyVersionField kv = some f) : f.length = 2 := by
  cases kv with
  | TR31_KEY_VERSION_IS_UNUSED =>
    simp only [keyVersionField, Option.some.injEq] at h
    rw [← h]; decide
  | TR31_KEY_VERSION_IS_VALID u =>
    simp only [keyVersionField] at h
    split_ifs at h
    simp only [Option.some.injEq] at h
    rw [← h, decDigits_length]
  | TR31_KEY_VERSION_IS_COMPONENT c =>
    simp only [keyVersionField] at h
    split_ifs at h
    simp only [Option.some.injEq] at h
    rw [← h]; rfl

theorem ite_some_eq_none {α : Type} {c : Prop} [Decidable c] {e : α} {x : Option α}
    (h : (if c then some e else x) = none) : ¬ c ∧ x = none := by
  by_cases hc : c
  · rw [if_pos hc] at h; exact absurd h (by simp)
  · rw [if_neg hc] at h; exact ⟨hc, h⟩

/-- What the checks of a successful export establish. -/
theorem exportCheck_none (env : ExportEnv) (ctx : tr31_ctx_t) (kbpk_len : Nat) (k : Bytes)
    (h : exportCheck env ctx kbpk_len k = none) :
    ctx.key.usage.length = 2
    ∧ (∃ kv, keyVersionField ctx.key.key_version = some kv ∧ kv.length = 2)
    ∧ optCount env ctx ≤ 99 ∧ totalLength env ctx k ≤ 9999 := by
  dsimp only [exportCheck] at h
  obtain ⟨-, h⟩ := ite_some_eq_none h
  obtain ⟨-, h⟩ := ite_some_eq_none h
  obtain ⟨h3, h⟩ := ite_some_eq_none h
  obtain ⟨-, h⟩ := ite_some_eq_none h
  obtain ⟨-, h⟩ := ite_some_eq_none h
  obtain ⟨-, h⟩ := ite_some_eq_none h
  obtain ⟨h7, h⟩ := ite_some_eq_none h
  obtain ⟨-, h⟩ := ite_some_eq_none h
  obtain ⟨h9, h⟩ := ite_some_eq_none h
  obtain ⟨h10, -⟩ := ite_some_eq_none h
  refine ⟨(not_not.1 h3).1, ?_, Nat.le_of_not_lt h9, Nat.le_of_not_lt h10⟩
  cases hkv : keyVersionField ctx.key.key_version with
  | none => rw [hkv] at h7; exact absurd rfl h7
  | some kv => exact ⟨kv, rfl, keyVersionField_length _ _ hkv⟩

theorem headerText_length (env : ExportEnv) (ctx : tr31_ctx_t) (kbpk_len : Nat) (k : Bytes)
    (h : exportCheck env ctx kbpk_len k = none) : (headerText env ctx k).length = 16 := by
  obtain ⟨hu, ⟨kv, hkv, hkl⟩, _, _⟩ := exportCheck_none env ctx kbpk_len k h
  simp only [headerText, hkv, Option.getD_some, List.length_append, List.length_singleton,
    decDigits_length, hu, hkl]
  rfl

theorem payloadOf_length (env : ExportEnv) (ctx : tr31_ctx_t) (k : Bytes) :
    (payloadOf env ctx k).length = 2 + k.length + padLen (blockSizeOf ctx.version) k.length := by
  simp [payloadOf, beBytes_length]
  omega

/-- What a successful TDES wrap returns: a ciphertext as long as the
payload and a MAC of the length of the version. -/
theorem wrapTdes_ok (env : ExportEnv) (hB : env.L.BlockValued) (version : Nat)
    (hv : version ≠ TR31_VERSION_D) (kbpk hdr payload : Bytes) (r : Bytes × Bytes)
    (h : wrapTdes env version kbpk hdr payload = .ok r) :
    r.1.length = payload.length ∧ r.2.length = macLenOf version := by
  unfold wrapTdes at h
  have hz : ∀ n, (zeros n).length = n := fun n => by simp [zeros]
  by_cases hb : version = TR31_VERSION_B
  · simp only [hb, if_true] at h
    split_ifs at h
    have hr := (Except.ok.inj h).symm
    subst hr
    constructor
    · rw [encrypt_cbc_length_eq env.L hB _ _ _ _ _ _ (by rw [hz]), hz]
    · rw [cmac_length_eq env.L hB _ _ _ _ _ (by rw [hz]), hz]
      simp [macLenOf, hb]
  · simp only [hb, if_false] at h
    split_ifs at h
    have hr := (Except.ok.inj h).symm
    subst hr
    constructor
    · rw [encrypt_cbc_length_eq env.L hB _ _ _ _ _ _ (by rw [hz]), hz]
    · rw [cbcmac_length_eq env.L _ _ _ _ _ (by rw [hz]), hz]
      simp [macLenOf, hb, hv]

/-- The parts of a successfully emitted text. -/
theorem export_ok_parts (env : ExportEnv) (ctx : tr31_ctx_t) (kbpk : tr31_key_t) (k text : Bytes)
    (hk : ctx.key.data = some k) (h : tr31_export env ctx kbpk = .ok text) :
    ∃ kb r, kbpk.data = some kb ∧ exportCheck env ctx kb.length k = none
      ∧ text = headerText env ctx k ++ optsText env ctx ++ pbText env ctx
          ++ toHexU r.1 ++ toHexU r.2
      ∧ (ctx.version ≠ TR31_VERSION_D →
          wrapTdes env ctx.version kb
            (headerText env ctx k ++ optsText env ctx ++ pbText env ctx) (payloadOf env ctx k)
            = .ok r) := by
  unfold tr31_export at h
  rw [hk] at h
  cases hkb : kbpk.data with
  | none => rw [hkb] at h; simp at h
  | some kb =>
    rw [hkb] at h
    simp only [] at h
    cases hc : exportCheck env ctx kb.length k with
    | some e => rw [hc] at h; simp at h
    | none =>
      rw [hc] at h
      simp only [] at h
      split at h
      · exact absurd h (by simp)
      · rename_i r hw
        refine ⟨kb, r, rfl, hc, (Except.ok.inj h).symm, fun hv => ?_⟩
        simp only [hv, if_false] at hw
        exact hw

/-- The length of a successfully emitted TDES key block is the total the
header announces. -/
theorem export_length (env : ExportEnv) (hB : env.L.BlockValued) (ctx : tr31_ctx_t)
    (kbpk : tr31_key_t) (k text : Bytes) (hv : ctx.version ≠ TR31_VERSION_D)
    (hk : ctx.key.data = some k) (h : tr31_export env ctx kbpk = .ok text) :
    text.length = totalLength env ctx k := by
  obtain ⟨kb, r, -, hc, ht, hw⟩ := export_ok_parts env ctx kbpk k text hk h
  obtain ⟨h1, h2⟩ := wrapTdes_ok env hB ctx.version hv kb _ _ r (hw hv)
  rw [ht]
  simp only [List.length_append, headerText_length env ctx kb.length k hc, toHexU_length, h1, h2,
    totalLength]

/-- The characters 1 to 4 of an emitted text are the digits of the total. -/
theorem export_length_field (env : ExportEnv) (ctx : tr31_ctx_t) (kbpk : tr31_key_t)
    (k text : Bytes) (hk : ctx.key.data = some k) (h : tr31_export env ctx kbpk = .ok text) :
    (text.drop 1).take 4 = decDigits 4 (totalLength env ctx k) := by
  obtain ⟨kb, r, -, -, ht, -⟩ := export_ok_parts env ctx kbpk k text hk h
  rw [ht]
  simp only [headerText, List.append_assoc, List.singleton_append, List.drop_succ_cons,
    List.drop_zero]
  exact List.take_left' (decDigits_length 4 _)

/-- Claim C12, over the export modelled from the specification: for every
successful `tr31_export` of a key of `k.length` bytes under version A, B or
C, with a cipher library that returns blocks, the character count of the
emitted text is the value of the 4-digit decimal field at offset 1 of the
header, and it is `16 + (textual length of the optional blocks, the added
PB block included) + 2 * (2 + L + pad) + 2 * macLen`, where `pad` is the
smallest number making `2 + L + pad` a multiple of 8 and `macLen` is 4 for
A and C and 8 for B. -/
theorem C12_export_length (env : ExportEnv) (hB : env.L.BlockValued) (ctx : tr31_ctx_t)
    (kbpk : tr31_key_t) (k text : Bytes)
    (hv : ctx.version = TR31_VERSION_A ∨ ctx.version = TR31_VERSION_B
      ∨ ctx.version = TR31_VERSION_C)
    (hk : ctx.key.data = some k) (h : tr31_export env ctx kbpk = .ok text) :
    (text.drop 1).take 4 = decDigits 4 text.length
    ∧ decValue ((text.drop 1).take 4) = text.length
    ∧ text.length
        = 16 + (optsText env ctx ++ pbText env ctx).length
          + 2 * (2 + k.length + padLen 8 k.length) + 2 * macLenOf ctx.version
    ∧ (2 + k.length + padLen 8 k.length) % 8 = 0
    ∧ (∀ p, (2 + k.length + p) % 8 = 0 → padLen 8 k.length ≤ p)
    ∧ macLenOf ctx.version = (if ctx.version = TR31_VERSION_B then 8 else 4) := by
  have hd : ctx.version ≠ TR31_VERSION_D := by
    rcases hv with hv | hv | hv <;> rw [hv] <;> decide
  have hlen := export_length env hB ctx kbpk k text hd hk h
  have hfield := export_length_field env ctx kbpk k text hk h
  obtain ⟨kb, r, -, hc, -, -⟩ := export_ok_parts env ctx kbpk k text hk h
  obtain ⟨-, -, -, htot⟩ := exportCheck_none env ctx kb.length k hc
  have hbs : blockSizeOf ctx.version = 8 := by simp [blockSizeOf, hd]
  refine ⟨by rw [hfield, hlen], ?_, ?_, (padLen_spec k.length).1, (padLen_spec k.length).2, ?_⟩
  · rw [hfield, decValue_decDigits, hlen]
    exact Nat.mod_eq_of_lt (by omega)
  · rw [hlen, totalLength, payloadOf_length, hbs, List.length_append]
    omega
  · simp [macLenOf, hd]

set_option maxRecDepth 1000000 in
/-- Claim C12 at test vector 1, whose text has 72 characters; the texts of
test vectors 2 and 3 have 104 and 96 characters. -/
theorem C12_export_length_witness :
    mockEnv.L.BlockValued
    ∧ tr31_export mockEnv test1_tr31 test1_kbpk
        = .ok (ascii ("A0072P0TE00E0000CD2EB766572F36C2DCFA7FD45ABCC531D73049882F11C3EB910EC719"))
    ∧ (ascii ("A0072P0TE00E0000CD2EB766572F36C2DCFA7FD45ABCC531D73049882F11C3EB910EC719")).length
        = 72
    ∧ decValue (((ascii
        ("A0072P0TE00E0000CD2EB766572F36C2DCFA7FD45ABCC531D73049882F11C3EB910EC719")).drop 1).take
          4)
        = (ascii
          ("A0072P0TE00E0000CD2EB766572F36C2DCFA7FD45ABCC531D73049882F11C3EB910EC719")).length
    ∧ (tr31_export mockEnv test2_tr31 test2_kbpk).toOption.map List.length = some 104
    ∧ (tr31_export mockEnv test3_tr31 test3_kbpk).toOption.map List.length = some 96 :=
  ⟨mockSSL_blockValued, by decide, by decide,
    (C12_export_length mockEnv mockSSL_blockValued test1_tr31 test1_kbpk _ _ (Or.inl rfl) rfl
      (by decide)).2.1, by decide, by decide⟩

theorem beVal_cons (a : Nat) (t : Bytes) : beVal (a :: t) = a * 256 ^ t.length + beVal t := by
  induction t using List.reverseRecOn with
  | nil => simp [beVal]
  | append_singleton t b ih =>
    rw [← List.cons_append, beVal_append_singleton, beVal_append_singleton, ih]
    simp only [List.length_append, List.length_singleton, pow_succ]
    ring

set_option maxRecDepth 100000 in
theorem top_bit_iff : ∀ a < 256, (a &&& 0x80 ≠ 0 ↔ 128 ≤ a) := by
  decide

/-- The top bit of a big-endian value is the top bit of its first byte. -/
theorem beVal_top_bit (a : Nat) (t : Bytes) (ha : a < 256) (ht : ∀ b ∈ t, b < 256) :
    beVal (a :: t) / 2 ^ (8 * (a :: t).length - 1) = if 128 ≤ a then 1 else 0 := by
  have hlt := beVal_lt t ht
  have hp : 2 ^ (8 * (a :: t).length - 1) = 256 ^ t.length * 128 := by
    have e : 8 * (a :: t).length - 1 = 8 * t.length + 7 := by
      simp only [List.length_cons]; omega
    rw [e, pow_add, pow_mul]
    norm_num
  have hq : (a * 256 ^ t.length + beVal t) / 256 ^ t.length = a := by
    rw [Nat.add_comm, Nat.add_mul_div_right _ _ (by positivity), Nat.div_eq_of_lt hlt,
      Nat.zero_add]
  rw [hp, beVal_cons, ← Nat.div_div_eq_div_mul, hq]
  split_ifs <;> omega

/-- Claim C22: for every byte array `x` of length `n >= 1`, read as the
unsigned big-endian integer `v`, `tr31_lshift` replaces it in place by
`(2 * v) mod 2 ^ (8 * n)` (bytes after the first `n` of the buffer are
unchanged) and returns the carry `v / 2 ^ (8 * n - 1)`, which is 1 exactly
when the most significant bit of the original first byte was set and 0
otherwise; for `n = 0` it changes nothing and returns 0. -/
theorem C22_lshift_doubles (x rest : Bytes) (hb : ∀ b ∈ x, b < 256) :
    (1 ≤ x.length →
      tr31_lshift (x ++ rest) x.length
        = (beVal x / 2 ^ (8 * x.length - 1),
           beBytes x.length ((2 * beVal x) % 2 ^ (8 * x.length)) ++ rest)
      ∧ (beBytes x.length ((2 * beVal x) % 2 ^ (8 * x.length))).length = x.length
      ∧ beVal (beBytes x.length ((2 * beVal x) % 2 ^ (8 * x.length)))
          = (2 * beVal x) % 2 ^ (8 * x.length)
      ∧ beVal x / 2 ^ (8 * x.length - 1) = (if 128 ≤ x.headD 0 then 1 else 0)
      ∧ (beVal x / 2 ^ (8 * x.length - 1) = 1 ↔ x.headD 0 &&& 0x80 ≠ 0))
    ∧ tr31_lshift rest 0 = (0, rest) := by
  refine ⟨fun hn => ?_, rfl⟩
  obtain ⟨c, x', e, hlen, hb', hc, hv⟩ := lshift_loop_spec x rest 0 hb (by norm_num)
  have hlt := beVal_lt x' hb'
  rw [hlen] at hlt
  have hpow : (2 : Nat) ^ (8 * x.length) = 256 ^ x.length := by
    rw [pow_mul]; norm_num
  have hpow2 : (2 : Nat) ^ (8 * x.length) = 2 * 2 ^ (8 * x.length - 1) := by
    rw [← pow_succ']; congr 1; omega
  have hval : (2 * beVal x) % 2 ^ (8 * x.length) = beVal x' := by
    rw [hpow, ← Nat.add_zero (2 * beVal x), ← hv, Nat.add_mul_mod_self_right,
      Nat.mod_eq_of_lt hlt]
  have hcar : beVal x / 2 ^ (8 * x.length - 1) = c := by
    have h2 : 2 * beVal x / 2 ^ (8 * x.length) = c := by
      rw [hpow, ← Nat.add_zero (2 * beVal x), ← hv,
        Nat.add_mul_div_right _ _ (by positivity), Nat.div_eq_of_lt hlt, Nat.zero_add]
    rw [← h2, hpow2, Nat.mul_div_mul_left _ _ (by norm_num)]
  have hbytes : beBytes x.length ((2 * beVal x) % 2 ^ (8 * x.length)) = x' := by
    rw [hval, ← hlen]; exact beBytes_beVal x' hb'
  have htop : beVal x / 2 ^ (8 * x.length - 1) = (if 128 ≤ x.headD 0 then 1 else 0) := by
    cases x with
    | nil => simp at hn
    | cons a t =>
      exact beVal_top_bit a t (hb a (by simp)) (fun b hb1 => hb b (by simp [hb1]))
  refine ⟨?_, ?_, ?_, htop, ?_⟩
  · rw [hbytes, hcar]
    simpa [tr31_lshift] using e
  · rw [hbytes, hlen]
  · rw [hbytes, hval]
  · rw [htop]
    have ha : x.headD 0 < 256 := by
      cases x with
      | nil => simp at hn
      | cons a t => exact hb a (by simp)
    rw [top_bit_iff (x.headD 0) ha]
    split_ifs with h128
    · exact ⟨fun _ => h128, fun _ => rfl⟩
    · exact ⟨fun h => absurd h (by decide), fun h => absurd h h128⟩

/-- Claim C22 at the two-byte array `81 C3` followed by `FF`: the array
becomes `03 86`, the carry is 1, the byte after it is unchanged. -/
theorem C22_lshift_doubles_witness :
    (∀ b ∈ [0x81, 0xC3], b < 256)
    ∧ tr31_lshift [0x81, 0xC3, 0xFF] 2 = (1, [0x03, 0x86, 0xFF])
    ∧ tr31_lshift ([0x81, 0xC3] ++ [0xFF]) ([0x81, 0xC3] : Bytes).length
        = (beVal [0x81, 0xC3] / 2 ^ (8 * ([0x81, 0xC3] : Bytes).length - 1),
           beBytes ([0x81, 0xC3] : Bytes).length
             ((2 * beVal [0x81, 0xC3]) % 2 ^ (8 * ([0x81, 0xC3] : Bytes).length)) ++ [0xFF]) :=
  ⟨by decide, by decide,
    ((C22_lshift_doubles [0x81, 0xC3] [0xFF] (by decide)).1 (by decide)).1⟩

/-! ## The hex parser of the tool -/

theorem isxdigit_le (c : Nat) (h : isxdigit c = true) : c < 103 := by
  simp only [isxdigit, Bool.decide_or, Bool.decide_and, Bool.or_eq_true, Bool.and_eq_true,
    decide_eq_true_eq] at h
  omega

set_option maxRecDepth 100000 in
theorem isxdigit_table : ∀ c < 103,
    (isxdigit c = true ↔ c ∈ ascii ("0123456789abcdefABCDEF")) := by
  decide

/-- The characters `isxdigit` accepts are the 22 hexadecimal digits of
either case. -/
theorem isxdigit_iff (c : Nat) :
    isxdigit c = true ↔ c ∈ ascii ("0123456789abcdefABCDEF") := by
  by_cases h : c < 103
  · exact isxdigit_table c h
  · constructor
    · intro hx; exact absurd (isxdigit_le c hx) h
    · intro hm
      have : ∀ d ∈ ascii ("0123456789abcdefABCDEF"), d < 103 := by decide
      exact absurd (this c hm) h

set_option maxRecDepth 1000000 in
/-- What `strtoul` returns for a buffer of two hexadecimal digits and a
NUL. -/
theorem strtoul_two_digits : ∀ c0 ∈ ascii ("0123456789abcdefABCDEF"),
    ∀ c1 ∈ ascii ("0123456789abcdefABCDEF"),
      strtoul (([c0, c1, 0] : Bytes).takeWhile (fun c => c ≠ 0)) 16 % 256
        = 16 * hexValue c0 + hexValue c1 := by
  decide

theorem charAt_drop (hex : Bytes) (n j : Nat) : charAt (hex.drop n) j = charAt hex (n + j) := by
  simp [charAt, List.getD_eq_getElem?_getD, List.getElem?_drop]

theorem hexBytes_succ (hex : Bytes) (n : Nat) :
    hexBytes hex (n + 1)
      = (16 * hexValue (charAt hex 0) + hexValue (charAt hex 1)) :: hexBytes (hex.drop 2) n := by
  simp only [hexBytes, List.range_succ_eq_map, List.map_cons, List.map_map, charAt_drop]
  congr 1
  apply List.map_congr_left
  intro i _
  simp only [Function.comp, Nat.succ_eq_add_one]
  congr 3 <;> ring_nf

theorem hexBytes_length (hex : Bytes) (n : Nat) : (hexBytes hex n).length = n := by
  simp [hexBytes]

/-- The scanning loop runs to its end exactly when every character it
visits is a hexadecimal digit. -/
theorem parse_hex_scan_spec (hex : Bytes) : ∀ k i,
    (parse_hex_scan hex k i = true ↔ ∀ j, i ≤ j → j < i + k → isxdigit (charAt hex j) = true) := by
  intro k
  induction k with
  | zero => intro i; simp only [parse_hex_scan, true_iff]; intro j h1 h2; omega
  | succ k ih =>
    intro i
    simp only [parse_hex_scan]
    by_cases hx : isxdigit (charAt hex i) = true
    · rw [if_neg (not_not.2 hx), ih (i + 1)]
      constructor
      · intro h j h1 h2
        by_cases hj : j = i
        · rw [hj]; exact hx
        · exact h j (by omega) (by omega)
      · intro h j h1 h2
        exact h j (by omega) (by omega)
    · rw [if_pos hx]
      constructor
      · intro h; exact absurd h (by simp)
      · intro h; exact absurd (h i (Nat.le_refl _) (by omega)) hx

/-- The conversion loop over `n` pairs of hexadecimal digits writes the `n`
bytes they stand for at `off` and leaves the rest of `bin` as it was. -/
theorem parse_hex_loop_spec : ∀ (n : Nat) (hex bin : Bytes) (off : Nat),
    (∀ j < 2 * n, isxdigit (charAt hex j) = true) → off + n ≤ bin.length →
    parse_hex_loop hex bin off n = bin.take off ++ hexBytes hex n ++ bin.drop (off + n) := by
  intro n
  induction n with
  | zero =>
    intro hex bin off _ _
    simp [parse_hex_loop, hexBytes]
  | succ n ih =>
    intro hex bin off hx hlen
    have h0 := hx 0 (by omega)
    have h1 := hx 1 (by omega)
    have hne : charAt hex 0 ≠ 0 := by
      intro h; rw [h] at h0; exact absurd h0 (by decide)
    have hv := strtoul_two_digits _ ((isxdigit_iff _).1 h0) _ ((isxdigit_iff _).1 h1)
    have hx2 : ∀ j < 2 * n, isxdigit (charAt (hex.drop 2) j) = true := by
      intro j hj; rw [charAt_drop]; exact hx (2 + j) (by omega)
    have hoff : off < bin.length := by omega
    simp only [parse_hex_loop, if_neg hne]
    rw [hv, ih (hex.drop 2) _ (off + 1) hx2 (by rw [List.length_set]; omega), hexBytes_succ]
    rw [set_take_drop bin off _ hoff]
    have ht : (bin.take off).length = off := by rw [List.length_take]; omega
    have e1 : ∀ (v : Nat) (t : Bytes), (bin.take off ++ v :: t).take (off + 1)
        = bin.take off ++ [v] := by
      intro v t
      rw [List.take_append_eq_append_take, ht, List.take_of_length_le (by omega)]
      simp
    have e2 : ∀ (v : Nat) (t : Bytes), (bin.take off ++ v :: t).drop (off + 1 + n)
        = t.drop n := by
      intro v t
      rw [List.drop_append_eq_append_drop, ht, List.drop_of_length_le (by omega)]
      have : off + 1 + n - off = n + 1 := by omega
      simp [this]
    rw [e1, e2, List.drop_drop]
    have : off + 1 + n = off + (n + 1) := by omega
    simp [this]

/-- What `parse_hex` returns and writes, for a string of at least
`2 * bin_len` characters and a buffer of at least `bin_len` bytes. -/
theorem parse_hex_spec (hex bin : Bytes) (n : Nat) (hlen : 2 * n ≤ hex.length)
    (hmem : hex.length < SIZE_MOD) (hbin : n ≤ bin.length) :
    parse_hex hex bin n
      = if ∀ i < 2 * n, isxdigit (charAt hex i) = true then (0, hexBytes hex n ++ bin.drop n)
        else (-1, bin) := by
  have hmod : (n * 2) % SIZE_MOD = 2 * n := by
    rw [Nat.mul_comm]; exact Nat.mod_eq_of_lt (by omega)
  have hscan := parse_hex_scan_spec hex (2 * n) 0
  simp only [parse_hex, hmod]
  by_cases hx : ∀ i < 2 * n, isxdigit (charAt hex i) = true
  · have ht : parse_hex_scan hex (2 * n) 0 = true :=
      hscan.2 (fun j _ h2 => hx j (by omega))
    rw [if_pos hx, ht, if_neg (by simp), parse_hex_loop_spec n hex bin 0 hx (by omega)]
    simp
  · have hf : parse_hex_scan hex (2 * n) 0 = false := by
      cases hs : parse_hex_scan hex (2 * n) 0 with
      | false => rfl
      | true => exact absurd (fun i hi => hscan.1 hs i (Nat.zero_le _) (by omega)) hx
    rw [if_neg hx, hf, if_pos rfl]

set_option maxRecDepth 100000 in
/-- The two characters `printf` writes for a byte are hexadecimal digits,
and they stand for the byte. -/
theorem printf_02X_digits : ∀ v < 256,
    isxdigit ((printf_02X v).getD 0 0) = true ∧ isxdigit ((printf_02X v).getD 1 0) = true
    ∧ (printf_02X v).length = 2
    ∧ 16 * hexValue ((printf_02X v).getD 0 0) + hexValue ((printf_02X v).getD 1 0) = v
    ∧ (printf_02X v).getD 0 0 ∈ ascii ("0123456789ABCDEF")
    ∧ (printf_02X v).getD 1 0 ∈ ascii ("0123456789ABCDEF") := by
  decide

theorem print_hex_eq (b : Bytes) : print_hex b b.length = (b.map printf_02X).flatten := by
  unfold print_hex
  congr 1
  apply List.ext_getElem
  · simp
  · intro i h1 h2
    simp only [List.length_map, List.length_range] at h1
    simp [List.getD_eq_getElem?_getD, List.getElem?_eq_getElem h1]

theorem print_hex_cons (a : Nat) (t : Bytes) :
    print_hex (a :: t) (a :: t).length
      = (printf_02X a).getD 0 0 :: (printf_02X a).getD 1 0 :: print_hex t t.length := by
  rw [print_hex_eq, print_hex_eq]
  simp [printf_02X]

/-- The text `print_hex` writes for a byte array has two hexadecimal digits
for every byte, and they stand for the bytes. -/
theorem print_hex_spec (b : Bytes) (hb : ∀ x ∈ b, x < 256) :
    (print_hex b b.length).length = 2 * b.length
    ∧ (∀ i < 2 * b.length, isxdigit (charAt (print_hex b b.length) i) = true)
    ∧ (∀ c ∈ print_hex b b.length, c ∈ ascii ("0123456789ABCDEF"))
    ∧ hexBytes (print_hex b b.length) b.length = b := by
  induction b with
  | nil => simp [print_hex, hexBytes]
  | cons a t ih =>
    obtain ⟨i1, i2, i3, i4⟩ := ih (fun x hx => hb x (by simp [hx]))
    obtain ⟨d0, d1, _, dv, u0, u1⟩ := printf_02X_digits a (hb a (by simp))
    rw [print_hex_cons]
    refine ⟨by simp only [List.length_cons, i1]; omega, ?_, ?_, ?_⟩
    · intro i hi
      match i with
      | 0 => exact d0
      | 1 => exact d1
      | j + 2 =>
        have := i2 j (by simp only [List.length_cons] at hi; omega)
        simpa [charAt] using this
    · intro c hc
      simp only [List.mem_cons] at hc
      rcases hc with hc | hc | hc
      · rw [hc]; exact u0
      · rw [hc]; exact u1
      · exact i3 c hc
    · rw [List.length_cons, hexBytes_succ]
      simp only [charAt, List.getD_cons_zero, List.getD_cons_succ, List.drop_succ_cons,
        List.drop_zero]
      rw [dv]
      exact congrArg (a :: ·) i4

/-- Claim C21: for every `n`, every string `hex` of at least `2 * n`
characters (a string in memory, shorter than `SIZE_MAX`) and every buffer
`bin` of at least `n` bytes, `parse_hex (hex, bin, n)` returns 0 if and only
if each of the first `2 * n` characters is a hexadecimal digit of either
case; it then writes exactly `n` bytes, byte `i` being
`16 * value (hex[2 i]) + value (hex[2 i + 1])`, and leaves the rest of `bin`
as it was; otherwise it returns -1 and `bin` is unchanged.  Hence
`parse_hex` of the uppercase text that `print_hex` writes for a byte array
`b` gives back `b`. -/
theorem C21_parse_hex (hex bin : Bytes) (n : Nat) (hlen : 2 * n ≤ hex.length)
    (hmem : hex.length < SIZE_MOD) (hbin : n ≤ bin.length) :
    ((parse_hex hex bin n).1 = 0
      ↔ ∀ i < 2 * n, charAt hex i ∈ ascii ("0123456789abcdefABCDEF"))
    ∧ ((∀ i < 2 * n, charAt hex i ∈ ascii ("0123456789abcdefABCDEF")) →
        parse_hex hex bin n = (0, hexBytes hex n ++ bin.drop n)
        ∧ (hexBytes hex n).length = n
        ∧ ∀ i < n, (parse_hex hex bin n).2.getD i 0
            = 16 * hexValue (charAt hex (2 * i)) + hexValue (charAt hex (2 * i + 1)))
    ∧ (¬ (∀ i < 2 * n, charAt hex i ∈ ascii ("0123456789abcdefABCDEF")) →
        parse_hex hex bin n = (-1, bin))
    ∧ (∀ b : Bytes, (∀ x ∈ b, x < 256) → b.length = n → hex = print_hex b b.length →
        (∀ c ∈ hex, c ∈ ascii ("0123456789ABCDEF"))
        ∧ parse_hex hex bin n = (0, b ++ bin.drop n))
    ∧ (ascii ("0123456789abcdef")).map hexValue = List.range 16
    ∧ (ascii ("0123456789ABCDEF")).map hexValue = List.range 16 := by
  have hspec := parse_hex_spec hex bin n hlen hmem hbin
  have hiff : (∀ i < 2 * n, charAt hex i ∈ ascii ("0123456789abcdefABCDEF"))
      ↔ ∀ i < 2 * n, isxdigit (charAt hex i) = true :=
    ⟨fun h i hi => (isxdigit_iff _).2 (h i hi), fun h i hi => (isxdigit_iff _).1 (h i hi)⟩
  refine ⟨?_, ?_, ?_, ?_, by decide, by decide⟩
  · rw [hiff, hspec]
    by_cases hx : ∀ i < 2 * n, isxdigit (charAt hex i) = true
    · rw [if_pos hx]; exact ⟨fun _ => hx, fun _ => rfl⟩
    · rw [if_neg hx]
      exact ⟨fun h => absurd h (by simp), fun h => absurd h hx⟩
  · intro hx
    rw [hspec, if_pos (hiff.1 hx)]
    refine ⟨rfl, hexBytes_length hex n, fun i hi => ?_⟩
    have hi2 : i < (hexBytes hex n).length := by rw [hexBytes_length]; exact hi
    rw [List.getD_eq_getElem?_getD, List.getElem?_append_left hi2]
    simp [hexBytes, hi]
  · intro hx
    rw [hspec, if_neg (fun h => hx (hiff.2 h))]
  · intro b hb hbn hhex
    obtain ⟨_, p2, p3, p4⟩ := print_hex_spec b hb
    rw [← hhex, hbn] at p2 p4
    rw [← hhex] at p3
    refine ⟨p3, ?_⟩
    rw [hspec, if_pos p2, p4]

set_option maxRecDepth 100000 in
/-- Claim C21 at the text `0aF3zz` with `n = 2` and a buffer of four bytes:
the result is 0 and the buffer starts with `0A F3`; with `n = 3` the result
is -1 and the buffer is unchanged; and the text `000AFF10` that `print_hex`
writes for the bytes `00 0A FF 10` is parsed back to them. -/
theorem C21_parse_hex_witness :
    parse_hex (ascii ("0aF3zz")) [9, 9, 9, 9] 2 = (0, [0x0A, 0xF3, 9, 9])
    ∧ parse_hex (ascii ("0aF3zz")) [9, 9, 9, 9] 3 = (-1, [9, 9, 9, 9])
    ∧ print_hex [0x00, 0x0A, 0xFF, 0x10] 4 = ascii ("000AFF10")
    ∧ parse_hex (print_hex [0x00, 0x0A, 0xFF, 0x10] 4) [9, 9, 9, 9, 9] 4
        = (0, [0x00, 0x0A, 0xFF, 0x10, 9])
    ∧ ((parse_hex (ascii ("0aF3zz")) [9, 9, 9, 9] 2).1 = 0
        ↔ ∀ i < 2 * 2, charAt (ascii ("0aF3zz")) i ∈ ascii ("0123456789abcdefABCDEF")) :=
  ⟨by decide, by decide, by decide, by decide,
    (C21_parse_hex (ascii ("0aF3zz")) [9, 9, 9, 9] 2 (by decide) (by decide) (by decide)).1⟩

end TR31
